import Mathlib

/-! bi — the buffer-editing engine of `src/bi.c`

A shallow embedding of the in-memory byte store of the binary editor `bi`
(`src/bi.c`), followed by theorems about it.

Conventions of the embedding

* The C globals (`mem`, `mem_len`, `mem_cap`, `yank`, `yank_len`, `mark`, the
  cursor, the flags) are the fields of one record `State`; every C function
  that touches them takes a `State` and returns the new one.
* `mem` is the list of the bytes `mem[0 .. mem_len)`, so `mem_len` is
  `mem.length`; `mem_cap` (the size of the allocation) is kept next to it.
  `yank` is the list `yank[0 .. yank_len)`.
* A byte (`unsigned char`) is a `Fin 256`.  The C code masks bytes it reads from
  an `unsigned char` array with `& 0xff`; on an `unsigned char` that is the
  identity and it is embedded as such.
* Offsets are `int64_t` in the source and `Int` here; in the byte store
  64-bit wrap-around is not modelled.  The buffer can never grow beyond
  `MAX_MEM_SIZE` (10 GiB), and the theorems that compute with offsets keep
  them below that ceiling.  The length `end - start + 1` of a range handed to
  `yankmem` or `delmem` is the exception: a range that a command line can
  produce may end anywhere up to `INT64_MAX`, so a length above `INT64_MAX`
  is a result of its own (`Fault.overflow`).  The command-line parser and the
  multi-byte shifts compute in 64 bits: their sums, differences, products and
  left shifts wrap (`wrap64`), and a conversion to `int` wraps to 32 bits
  (`wrap32`).
* C has ways of not returning a state, and they are results of the
  embedding (`Except Fault`): `ensure_mem_capacity` ends the process when the
  request exceeds `MAX_MEM_SIZE` (`Fault.memLimit`), `ensure_yank_capacity`
  ends it when the clip register cannot be allocated (`Fault.yankAlloc`), an
  access outside the allocation `mem[0 .. mem_cap)` has no defined behaviour
  (`Fault.outOfBounds`), and neither has a shift by 64 bits or more
  (`Fault.shiftCount`) or a signed overflow (`Fault.overflow`).
* The allocator is not part of `bi.c`.  `realloc` of the buffer is taken to
  succeed (the request is at most `MAX_MEM_SIZE`).  `realloc` of the clip
  register, whose request has no ceiling in the source, is taken to succeed
  up to `YANK_ALLOC_MAX` bytes, twice the memory ceiling, which is more than
  the yank of any range that ends below the ceiling asks for, and to fail
  above it.
* A command line is the list of its `char`s without the terminating NUL, one
  `Char` standing for the byte of its code.  What `commandline_` reaches
  outside `bi.c` (the C library, the files, the name of the edited file) is
  the parameter `Env`.
* The terminal is not modelled: `stderr_msg` and `stdmm` append the message
  to the log `out`.
* The `while (1)` loops of the scans and of the substitute command take the
  number of rounds they may run and answer `none` when it is used up.  A
  theorem that such a function returns names the number of rounds that is
  enough; a theorem that it never returns shows `none` for every number.
* `regcomp` and `regexec` belong to the C library; the functions that call
  them take the library as a parameter `RegexLib`.
-/

namespace Bi

/-- One `unsigned char`. -/
abbrev Byte := Fin 256

/-- `#define MAX_MEM_SIZE (1024LL * 1024 * 1024 *10)`. -/
def MAX_MEM_SIZE : Int := 1024 * 1024 * 1024 * 10

/-- `#define LENONSCR (19 * 16)`. -/
def LENONSCR : Int := 19 * 16

/-- `#define UNKNOWN ((int64_t)1LL << 62)`. -/
def UNKNOWN : Int := 2 ^ 62

/-- The ways an operation of `bi.c` can fail to return. -/
inductive Fault where
  /-- `ensure_mem_capacity`: "Memory limit exceeded", `exit(1)`. -/
  | memLimit
  /-- An access outside the allocation `mem[0 .. mem_cap)`. -/
  | outOfBounds
  /-- A shift of a 64-bit value by a negative count or by 64 bits or more. -/
  | shiftCount
  /-- `ensure_yank_capacity`: "Yank buffer allocation failed", `exit(1)`. -/
  | yankAlloc
  /-- A signed overflow of an `int64_t` computation: the length
  `end - start + 1` of a range (compiled to wrap around, the guard of
  `yankmem` and `delmem` sees a negative length and reports
  `Invalid range.`), or the doubling loop of `ensure_yank_capacity` (compiled
  to wrap around, the capacity becomes 0 and the loop never ends). -/
  | overflow
deriving DecidableEq

/-- A message handed to the user: `stderr_msg` or `stdmm`. -/
inductive Msg where
  | err (text : String)
  | std (text : String)
deriving DecidableEq

/-- The global variables of `bi.c` (lines 36-66). -/
structure State where
  /-- The bytes `mem[0 .. mem_len)`. -/
  mem : List Byte
  /-- The size of the allocation behind `mem`. -/
  mem_cap : Nat
  /-- The bytes `yank[0 .. yank_len)`. -/
  yank : List Byte
  /-- The size of the allocation behind `yank`. -/
  yank_cap : Nat
  lastchange : Bool
  modified : Bool
  newfile : Bool
  homeaddr : Int
  utf8mode : Bool
  insmod : Bool
  curx : Int
  cury : Int
  /-- The array `mark[26]`. -/
  mark : List Int
  /-- The bytes `smem[0 .. smem_len)`. -/
  smem : List Byte
  regexpMode : Bool
  repsw : Int
  remem : String
  span : Int
  nff : Bool
  verbose : Bool
  scriptingflag : Bool
  cp : Int
  /-- The messages shown so far, oldest first. -/
  out : List Msg
deriving DecidableEq

/-- The globals as `main` leaves them before the first command: the static
initialisers of lines 36-66 and `mark[i] = UNKNOWN` for the 26 letters. -/
def State.init : State where
  mem := []
  mem_cap := 0
  yank := []
  yank_cap := 0
  lastchange := false
  modified := false
  newfile := false
  homeaddr := 0
  utf8mode := false
  insmod := false
  curx := 0
  cury := 0
  mark := List.replicate 26 UNKNOWN
  smem := []
  regexpMode := false
  repsw := 0
  remem := ""
  span := 0
  nff := true
  verbose := false
  scriptingflag := false
  cp := 0
  out := []

/-- The C variable `mem_len`. -/
def State.mem_len (s : State) : Int := (s.mem.length : Int)

/-- The C variable `yank_len`. -/
def State.yank_len (s : State) : Int := (s.yank.length : Int)

/-- The loop `while (new_cap < needed) new_cap *= 2;` of
`ensure_mem_capacity`, with a bound on the number of rounds. -/
def growCap : Nat → Nat → Nat → Nat
  | 0, new_cap, _ => new_cap
  | fuel + 1, new_cap, needed =>
    if new_cap < needed then growCap fuel (new_cap * 2) needed else new_cap

/-- `ensure_mem_capacity` (lines 158-174).  The loop gets `needed` rounds,
which is more than it can use (see `growCap_ge`). -/
def ensure_mem_capacity (s : State) (needed : Int) : Except Fault State :=
  if needed > MAX_MEM_SIZE then .error Fault.memLimit
  else if needed > (s.mem_cap : Int) then
    let new_cap := if s.mem_cap = 0 then 4096 else s.mem_cap * 2
    let new_cap := growCap needed.toNat new_cap needed.toNat
    let new_cap := if (new_cap : Int) > MAX_MEM_SIZE then MAX_MEM_SIZE.toNat else new_cap
    .ok { s with mem_cap := new_cap }
  else .ok s

/-- `stderr_msg` (lines 209-220). -/
def stderr_msg (s : State) (msg : String) : State :=
  { s with out := s.out ++ [Msg.err msg] }

/-- `stdmm` (lines 222-235): silent in a script that is not verbose. -/
def stdmm (s : State) (msg : String) : State :=
  if s.scriptingflag && !s.verbose then s
  else { s with out := s.out ++ [Msg.std msg] }

/-- `fpos` (lines 245-247). -/
def fpos (s : State) : Int :=
  s.homeaddr + (s.cury * 16 + Int.tdiv s.curx 2)

/-- `jump` (lines 249-256).  `addr & ~0xff` clears the low eight bits and
`i & 0xf` keeps the low four. -/
def jump (s : State) (addr : Int) : State :=
  let homeaddr :=
    if addr < s.homeaddr ∨ addr ≥ s.homeaddr + LENONSCR then addr - addr % 256
    else s.homeaddr
  let i := addr - homeaddr
  { s with homeaddr := homeaddr, curx := (i % 16) * 2, cury := Int.tdiv i 16 }

/-- `readmem` (lines 282-285). -/
def readmem (s : State) (addr : Int) : Int :=
  if addr < 0 ∨ addr ≥ s.mem_len then 0
  else ((s.mem.getD addr.toNat 0).val : Int)

/-- `setmem` (lines 287-306). -/
def setmem (s : State) (addr : Int) (data : Int) : Except Fault State :=
  if addr < 0 then .ok s
  else do
    let s1 ← ensure_mem_capacity s (addr + 1)
    if (s1.mem_cap : Int) < addr + 1 then .error Fault.outOfBounds
    else
      let padded :=
        if addr ≥ s1.mem_len then
          s1.mem ++ List.replicate (addr - s1.mem_len + 1).toNat (0 : Byte)
        else s1.mem
      let b : Byte :=
        if h : 0 ≤ data ∧ data ≤ 255 then ⟨data.toNat, by omega⟩ else 0
      .ok { s1 with mem := padded.set addr.toNat b, modified := true, lastchange := true }

/-- `insmem` (lines 308-325); `len2` is the length of `mem2`. -/
def insmem (s : State) (start : Int) (mem2 : List Byte) : Except Fault State :=
  let len2 : Int := (mem2.length : Int)
  if len2 ≤ 0 then .ok s
  else do
    let s1 ← ensure_mem_capacity s (s.mem_len + len2)
    if start ≥ s1.mem_len then
      -- memset(mem + mem_len, 0, start - mem_len); memcpy(mem + start, mem2, len2)
      if (s1.mem_cap : Int) < start + len2 then .error Fault.outOfBounds
      else
        .ok { s1 with
              mem := s1.mem ++ List.replicate (start - s1.mem_len).toNat (0 : Byte) ++ mem2,
              modified := true, lastchange := true }
    else
      -- memmove(mem + start + len2, mem + start, mem_len - start); memcpy(mem + start, ...)
      if start < 0 ∨ (s1.mem_cap : Int) < s1.mem_len + len2 then .error Fault.outOfBounds
      else
        .ok { s1 with
              mem := s1.mem.take start.toNat ++ mem2 ++ s1.mem.drop start.toNat,
              modified := true, lastchange := true }

/-- The most `realloc` is taken to grant to the clip register: twice the
memory ceiling.  The request of `ensure_yank_capacity` for a range that ends
below the ceiling stays under it. -/
def YANK_ALLOC_MAX : Int := 2 * MAX_MEM_SIZE

/-- The loop `while (new_cap < needed) new_cap *= 2;` of
`ensure_yank_capacity`, with a bound on the number of rounds.  The capacity
is an `int64_t` and nothing stops the doubling: a round that would pass
`INT64_MAX` is the overflow.  From a capacity of at least 1 the loop is over,
one way or the other, within 63 rounds. -/
def growYank : Nat → Int → Int → Except Fault Int
  | 0, new_cap, _ => .ok new_cap
  | fuel + 1, new_cap, needed =>
    if new_cap < needed then
      if new_cap * 2 ≥ 2 ^ 63 then .error Fault.overflow
      else growYank fuel (new_cap * 2) needed
    else .ok new_cap

/-- `ensure_yank_capacity` (lines 176-187).  There is no ceiling on the
request: the loop doubles the capacity until it covers `needed`, and
`realloc` is asked for the result. -/
def ensure_yank_capacity (s : State) (needed : Int) : Except Fault State :=
  if needed > (s.yank_cap : Int) then
    let new_cap : Int := if s.yank_cap = 0 then 1024 else (s.yank_cap : Int) * 2
    match growYank 64 new_cap needed with
    | .error e => .error e
    | .ok new_cap =>
      if new_cap > YANK_ALLOC_MAX then .error Fault.yankAlloc
      else .ok { s with yank_cap := new_cap.toNat }
  else .ok s

/-- `yankmem` (lines 329-346).  The clip register is allocated for the whole
of `length = end - start + 1`, whatever part of the range lies in the buffer;
the loop then copies `mem[j]` for `j = start, start+1, ...` while
`j <= end && j < mem_len`. -/
def yankmem (s : State) (start «end» : Int) : Except Fault State :=
  let length := «end» - start + 1
  if length ≤ 0 ∨ start ≥ s.mem_len then .ok (stderr_msg s "Invalid range.")
  else if length ≥ 2 ^ 63 then .error Fault.overflow
  else do
    let s0 ← ensure_yank_capacity s length
    if start < 0 then .error Fault.outOfBounds
    else
      let s1 := { s0 with yank := (s0.mem.drop start.toNat).take length.toNat }
      .ok (stdmm s1 (toString s1.yank_len ++ " bytes yanked."))

/-- `delmem` (lines 348-364). -/
def delmem (s : State) (start «end» : Int) (yf : Bool) : Except Fault State :=
  let length := «end» - start + 1
  if length ≤ 0 ∨ start ≥ s.mem_len then .ok (stderr_msg s "Invalid range.")
  else if length ≥ 2 ^ 63 then .error Fault.overflow
  else do
    let s1 ← if yf then yankmem s start «end» else .ok s
    let start := if start < 0 then 0 else start
    let «end» := if «end» ≥ s1.mem_len then s1.mem_len - 1 else «end»
    -- memmove(mem + start, mem + end + 1, mem_len - end - 1); mem_len -= (end - start + 1)
    if «end» + 1 < 0 then .error Fault.outOfBounds
    else
      .ok { s1 with
            mem := s1.mem.take start.toNat ++ s1.mem.drop («end» + 1).toNat,
            lastchange := true, modified := true }

/-- `ovwmem` (lines 366-382); `len0` is the length of `mem0`. -/
def ovwmem (s : State) (start : Int) (mem0 : List Byte) : Except Fault State :=
  let len0 : Int := (mem0.length : Int)
  if len0 = 0 then .ok s
  else do
    let s1 ← ensure_mem_capacity s (start + len0)
    if start < 0 ∨ (s1.mem_cap : Int) < start + len0 then .error Fault.outOfBounds
    else
      let grown :=
        if start + len0 > s1.mem_len then
          if start > s1.mem_len then
            s1.mem ++ List.replicate (start - s1.mem_len).toNat (0 : Byte)
          else s1.mem
        else s1.mem
      .ok { s1 with
            mem := grown.take start.toNat ++ mem0 ++ grown.drop (start + len0).toNat,
            lastchange := true, modified := true }

/-- `redmem` (lines 384-401): the bytes of `[start, end]`, `0` outside the
buffer. -/
def redmem (s : State) (start «end» : Int) : List Byte :=
  (List.range («end» - start + 1).toNat).map fun (k : Nat) =>
    let i : Int := start + (k : Int)
    if 0 ≤ i ∧ i < s.mem_len then s.mem.getD i.toNat 0 else 0

/-- `cpymem` (lines 403-410). -/
def cpymem (s : State) (start «end» dest : Int) : Except Fault State :=
  ovwmem s dest (redmem s start «end»)

/-- `movmem` (lines 412-443): the new state and the returned offset. -/
def movmem (s : State) (start «end» dest : Int) : Except Fault (State × Int) :=
  if start ≤ dest ∧ dest ≤ «end» then .ok (s, «end» + 1)
  else
    let l := s.mem_len
    if start ≥ l then .ok (s, dest)
    else do
      let m := redmem s start «end»
      let len : Int := (m.length : Int)
      let s1 ← yankmem s start «end»
      let s2 ← delmem s1 start «end» false
      if dest > l then
        let s3 ← ovwmem s2 dest m
        .ok (s3, dest + len)
      else if dest > start then
        let s3 ← insmem s2 (dest - («end» - start + 1)) m
        .ok (s3, dest - («end» - start) + len - 1)
      else
        let s3 ← insmem s2 dest m
        .ok (s3, dest + len)

/-- The loop body of `left_shift_byte`, run for `n` offsets from `i` on:
`setmem(i, (readmem(i) << 1) | (c & 1))`. -/
def left_shift_byte_loop (c : Int) : Nat → Int → State → Except Fault State
  | 0, _, s => .ok s
  | n + 1, i, s => do
    let s1 ← setmem s i (((readmem s i).toNat <<< 1 ||| (c % 2).toNat : Nat) : Int)
    left_shift_byte_loop c n (i + 1) s1

/-- `left_shift_byte` (lines 1147-1151): `for (i = x; i <= x2; i++)`. -/
def left_shift_byte (s : State) (x x2 : Int) (c : Int) : Except Fault State :=
  left_shift_byte_loop c (x2 - x + 1).toNat x s

/-- The `P` branch of `commandline_` (lines 1759-1765), at the parsed
address `x`. -/
def cmd_P (s : State) (x : Int) : Except Fault State :=
  if s.yank_len > 0 then do
    let s1 ← insmem s x s.yank
    .ok (jump s1 (x + s.yank_len))
  else .ok s

/-- The `R` branch of `commandline_` (lines 1776-1811) once the file has been
opened and read: `data` is its content. -/
def cmd_R (s : State) (x : Int) (data : List Byte) : Except Fault State := do
  let s1 ← insmem s x data
  .ok (jump s1 (x + (data.length : Int)))

/-- The `I` branch of `commandline_` (lines 1940-1969): `m` is the literal
that `get_str` / `get_hexs` parsed, `xf2` tells whether an end address was
given. -/
def cmd_I (s : State) (x : Int) (xf2 : Bool) (m : List Byte) : Except Fault State :=
  if xf2 then .ok (stderr_msg s "Invalid syntax.")
  else do
    let s1 ← insmem s x m
    let s2 := stdmm s1 (toString (m.length : Int) ++ " bytes inserted.")
    .ok (jump s2 (x + (m.length : Int)))

/-- The `C` case of `commandline_` (lines 1990-2002): copy `[x, x2]` and
insert it at `x3`. -/
def cmd_C (s : State) (x x2 x3 : Int) : Except Fault State := do
  let mm := redmem s x x2
  let len : Int := (mm.length : Int)
  let s1 ← yankmem s x x2
  let s2 ← insmem s1 x3 mm
  let s3 := stdmm s2 (toString (x2 - x + 1) ++ " bytes inserted.")
  .ok (jump s3 (x3 + len))

/-- The `d` branch of `commandline_` (lines 1822-1829). -/
def cmd_d (s : State) (x x2 : Int) : Except Fault State := do
  let s1 ← delmem s x x2 true
  let s2 := stdmm s1 (toString (x2 - x + 1) ++ " bytes deleted.")
  .ok (jump s2 x)

/-- The `m` branch of `commandline_` (lines 1768-1773) once the line is known
to hold a character after the `m`: `letter` is that character and `x` the
parsed address. -/
def cmd_m (s : State) (x : Int) (letter : Char) : State :=
  if 'a' ≤ letter ∧ letter ≤ 'z' then
    { s with mark := s.mark.set (letter.toNat - 'a'.toNat) x }
  else s

/-- The entry `mark[letter - 'a']` of the mark table, as `get_value` reads it
(line 719). -/
def markOf (s : State) (letter : Char) : Int :=
  s.mark.getD (letter.toNat - 'a'.toNat) UNKNOWN

/-- `#define RELEN 128`. -/
def RELEN : Int := 128

/-- The C variable `smem_len`. -/
def State.smem_len (s : State) : Int := (s.smem.length : Int)

/-- What `regexec` reports: an error code, `REG_NOMATCH`, or the offsets
`pmatch[0].rm_so` and `pmatch[0].rm_eo` of the match. -/
inductive RegexResult where
  | error
  | nomatch
  | found (rm_so rm_eo : Int)
deriving DecidableEq

/-- The POSIX regular-expression library of `<regex.h>`, which `bi.c` calls
and does not define.  `regcomp pattern` tells whether
`regcomp(&reObj, pattern, REG_EXTENDED)` returns `0`; `regexec pattern m` is
the result of `regexec` for the compiled pattern on the window `m`. -/
structure RegexLib where
  regcomp : String → Bool
  regexec : String → List Byte → RegexResult

/-- The loop of `hit` from index `i` on, over the bytes of the pattern that
are left: `addr + i < mem_len && mem[addr + i] == smem[i]`.  For
`addr + i < 0` the read of `mem[addr + i]` is outside the buffer. -/
def hit_from (s : State) (addr : Int) : List Byte → Int → Except Fault Int
  | [], _ => .ok 1
  | b :: rest, i =>
    if addr + i < s.mem_len then
      if addr + i < 0 then .error Fault.outOfBounds
      else if s.mem.getD (addr + i).toNat 0 = b then hit_from s addr rest (i + 1)
      else .ok 0
    else .ok 0

/-- `hit` (lines 781-790). -/
def hit (s : State) (addr : Int) : Except Fault Int :=
  hit_from s addr s.smem 0

/-- `hitre` (lines 792-842): the new state (`span`, the message log) and the
returned value.  `remem` is not empty where the pattern is compiled, so the
test `!reObj_compiled || strcmp(remem, "") != 0` holds and the pattern is
compiled at every call; `reObj_compiled` is therefore left out.  Both copies
into the window `m` take the bytes from `addr` on, at most `RELEN` of them,
and read outside the buffer when `addr` is negative. -/
def hitre (re : RegexLib) (s : State) (addr : Int) : Except Fault (State × Int) :=
  if s.remem = "" then .ok (s, -1)
  else
    let s := { s with span := 0 }
    if addr < s.mem_len then
      if addr < 0 then .error Fault.outOfBounds
      else
        let m := (s.mem.drop addr.toNat).take RELEN.toNat
        if !re.regcomp s.remem then .ok (stderr_msg s "Bad regular expression.", -1)
        else
          match re.regexec s.remem m with
          | .nomatch => .ok (s, 0)
          | .error => .ok (s, -1)
          | .found rm_so rm_eo =>
            if rm_so ≠ 0 then .ok (s, 0)
            else .ok ({ s with span := rm_eo - rm_so }, 1)
    else .ok (s, 0)

/-- The probe of the three scans: `regexpMode ? hitre(addr) : hit(addr)`. -/
def probe (re : RegexLib) (s : State) (addr : Int) : Except Fault (State × Int) :=
  if s.regexpMode then hitre re s addr
  else
    match hit s addr with
    | .error e => .error e
    | .ok f => .ok (s, f)

/-- The loop of `searchnextnoloop` (lines 850-870); `none` when `fuel` rounds
were not enough. -/
def searchnextnoloop_loop (re : RegexLib) :
    Nat → State → Int → Option (Except Fault (State × Int))
  | 0, _, _ => none
  | fuel + 1, s, curPos =>
    match probe re s curPos with
    | .error e => some (.error e)
    | .ok (s1, f) =>
      if f = 1 then some (.ok (jump s1 curPos, 1))
      else if f < 0 then some (.ok (s1, -1))
      else
        let curPos := curPos + 1
        if curPos ≥ s1.mem_len then some (.ok (jump s1 s1.mem_len, 0))
        else searchnextnoloop_loop re fuel s1 curPos

/-- `searchnextnoloop` (lines 844-871). -/
def searchnextnoloop (re : RegexLib) (fuel : Nat) (s : State) (fp : Int) :
    Option (Except Fault (State × Int)) :=
  if !s.regexpMode && s.smem_len == 0 then some (.ok (s, 0))
  else searchnextnoloop_loop re fuel s fp

/-- The loop of `searchnext` (lines 881-911); `none` when `fuel` rounds were
not enough. -/
def searchnext_loop (re : RegexLib) (start : Int) :
    Nat → State → Int → Option (Except Fault (State × Bool))
  | 0, _, _ => none
  | fuel + 1, s, curpos =>
    match probe re s curpos with
    | .error e => some (.error e)
    | .ok (s1, f) =>
      if f = 1 then some (.ok (jump s1 curpos, true))
      else if f < 0 then some (.ok (s1, false))
      else
        let curpos := curpos + 1
        let s2 :=
          if curpos ≥ s1.mem_len then
            if s1.nff then stdmm s1 "Search reached to bottom, continuing from top." else s1
          else s1
        let curpos := if curpos ≥ s1.mem_len then 0 else curpos
        if curpos = start then
          some (.ok (if s2.nff then stdmm s2 "Not found." else s2, false))
        else searchnext_loop re start fuel s2 curpos

/-- `searchnext` (lines 873-912). -/
def searchnext (re : RegexLib) (fuel : Nat) (s : State) (fp : Int) :
    Option (Except Fault (State × Bool)) :=
  if !s.regexpMode && s.smem_len == 0 then some (.ok (s, false))
  else searchnext_loop re fp fuel s fp

/-- The loop of `searchlast` (lines 922-948); `none` when `fuel` rounds were
not enough. -/
def searchlast_loop (re : RegexLib) (start : Int) :
    Nat → State → Int → Option (Except Fault (State × Bool))
  | 0, _, _ => none
  | fuel + 1, s, curpos =>
    match probe re s curpos with
    | .error e => some (.error e)
    | .ok (s1, f) =>
      if f = 1 then some (.ok (jump s1 curpos, true))
      else if f < 0 then some (.ok (s1, false))
      else
        let curpos := curpos - 1
        let s2 :=
          if curpos < 0 then stdmm s1 "Search reached to top, continuing from bottom." else s1
        let curpos := if curpos < 0 then s1.mem_len - 1 else curpos
        if curpos = start then some (.ok (stdmm s2 "Not found.", false))
        else searchlast_loop re start fuel s2 curpos

/-- `searchlast` (lines 914-949). -/
def searchlast (re : RegexLib) (fuel : Nat) (s : State) (fp : Int) :
    Option (Except Fault (State × Bool)) :=
  if !s.regexpMode && s.smem_len == 0 then some (.ok (s, false))
  else searchlast_loop re fp fuel s fp

/-- What follows the `s` of a substitute command (lines 1263-1300), as the
line parsers delivered it. -/
inductive SPattern where
  /-- No `/` follows: the pattern and `span` of the last search stay. -/
  | absent
  /-- `/m`: the text `m` that `get_restr` read, a regular expression. -/
  | regex (m : String)
  /-- `//...`: the bytes that `get_hexs` read. -/
  | hex (sm : List Byte)
  /-- A `/` at the very end of the line: "Invalid syntax.". -/
  | invalid

/-- The replacement loop of `scommand` (lines 1331-1350): `n` is the
replacement, `pos` and `cnt` the local variables.  Each round gives the scan
as many rounds as are left to the loop itself. -/
def scommand_loop (re : RegexLib) («end» : Int) (n : List Byte) :
    Nat → State → Int → Int → Option (Except Fault State)
  | 0, _, _, _ => none
  | fuel + 1, s, pos, cnt =>
    match searchnextnoloop re fuel s (fpos s) with
    | none => none
    | some (.error e) => some (.error e)
    | some (.ok (s1, f)) =>
      let i := fpos s1
      if f < 0 then some (.ok s1)
      else if i ≤ «end» ∧ f = 1 then
        match delmem s1 i (i + s1.span - 1) false with
        | .error e => some (.error e)
        | .ok s2 =>
          match insmem s2 i n with
          | .error e => some (.error e)
          | .ok s3 =>
            let pos := i + (n.length : Int)
            scommand_loop re «end» n fuel (jump s3 pos) pos (cnt + 1)
      else
        some (.ok (stdmm (jump s1 pos) ("  " ++ toString cnt ++ " times replaced.")))

/-- `scommand` (lines 1253-1351) after the line has been read: `pat` is the
pattern part, `n` the replacement (empty when none is given). -/
def scommand (re : RegexLib) (fuel : Nat) (s : State) (start «end» : Int) (xf xf2 : Bool)
    (pat : SPattern) (n : List Byte) : Option (Except Fault State) :=
  let s := { s with nff := false }
  let pos := fpos s
  let start := if !xf && !xf2 then 0 else start
  let «end» := if !xf && !xf2 then s.mem_len - 1 else «end»
  let run (s : State) : Option (Except Fault State) :=
    if s.span = 0 then some (.ok (stderr_msg s "Specify search object."))
    else scommand_loop re «end» n fuel (jump s start) pos 0
  match pat with
  | .absent => run s
  | .regex m =>
    let s := { s with regexpMode := true, remem := m, span := (m.utf8ByteSize : Int) }
    if re.regcomp m then run s
    else some (.ok (stderr_msg s "Bad regular expression."))
  | .hex sm =>
    run { s with regexpMode := false, remem := "", smem := sm, span := (sm.length : Int) }
  | .invalid => some (.ok (stderr_msg s "Invalid syntax."))

/-- Two's-complement wrap-around of a 64-bit signed result. -/
def wrap64 (x : Int) : Int := (x + 2 ^ 63) % 2 ^ 64 - 2 ^ 63

/-- `s[idx]` for a C string given by its characters: the terminating NUL at
the end (and, for the model, past it). -/
def charAt (s : List Char) (idx : Nat) : Char := s.getD idx (Char.ofNat 0)

/-- The character `\`. -/
def backslash : Char := Char.ofNat 92

/-- The characters `{` and `}`. -/
def lbrace : Char := Char.ofNat 123

def rbrace : Char := Char.ofNat 125

/-- `(unsigned char)c`. -/
def byteOf (c : Char) : Byte := Fin.ofNat c.toNat

/-- The parts of the C library and of the editor's surroundings that
`commandline_` reaches and `bi.c` does not define. -/
structure Env where
  /-- `<regex.h>`. -/
  re : RegexLib
  /-- `strtoll(u, &endptr, 0)`: the value and the number of characters of `u`
  that were consumed. -/
  strtoll : List Char → Int × Nat
  /-- `fopen(fn, "rb")` and the content of the file, `none` when the file
  cannot be opened. -/
  readfile : List Char → Option (List Byte)
  /-- Whether `fopen(fn, "wb")` succeeds. -/
  canWrite : List Char → Bool
  /-- `fopen(fn, "r")` and the lines of the script as `scripting` hands
  them to `commandline` (lines 1525-1537: without the line end, trimmed),
  `none` when the file cannot be opened. -/
  scriptLines : List Char → Option (List (List Char))
  /-- The global `filename`, set by `main` and never changed after. -/
  filename : List Char

/-- The loop of `skipspc` over the characters from `idx` on. -/
def skipspc_from : List Char → Nat → Nat
  | [], idx => idx
  | c :: rest, idx => if c = ' ' then skipspc_from rest (idx + 1) else idx

/-- `skipspc` (lines 203-206): `while (s[idx] == ' ' && s[idx] != '\0') idx++;`.
The loop ends at the terminating NUL at the latest; every caller passes an
index that is at most `strlen(s)`. -/
def skipspc (s : List Char) (idx : Nat) : Nat := skipspc_from (s.drop idx) idx

/-- The test `strchr("0123456789abcdefABCDEF", c)` for a character of the
line (which is not the NUL). -/
def isHexDigit (c : Char) : Bool :=
  decide (c ∈ "0123456789abcdefABCDEF".toList)

/-- The digit value that the hexadecimal loop of `get_value` gives `d`
(lines 734-738). -/
def hexVal (d : Char) : Int :=
  if '0' ≤ d ∧ d ≤ '9' then (d.toNat : Int) - ('0'.toNat : Int)
  else if 'a' ≤ d ∧ d ≤ 'f' then (d.toNat : Int) - ('a'.toNat : Int) + 10
  else (d.toNat : Int) - ('A'.toNat : Int) + 10

/-- The hexadecimal loop of `get_value` (lines 733-741) over the characters
from `idx` on: `x = 16 * x + val`, in 64 bits. -/
def hex_loop : List Char → Int → Nat → Int × Nat
  | [], x, idx => (x, idx)
  | d :: rest, x, idx =>
    if isHexDigit d then hex_loop rest (wrap64 (16 * x + hexVal d)) (idx + 1)
    else (x, idx)

/-- The decimal loop of `get_value` (lines 751-754): `x = x * 10 + (d - '0')`,
in 64 bits. -/
def dec_loop : List Char → Int → Nat → Int × Nat
  | [], x, idx => (x, idx)
  | d :: rest, x, idx =>
    if '0' ≤ d ∧ d ≤ '9' then
      dec_loop rest (wrap64 (x * 10 + ((d.toNat : Int) - ('0'.toNat : Int)))) (idx + 1)
    else (x, idx)

/-- The loop that copies the characters of a `{...}` atom up to the closing
brace (lines 684-686): the characters and the index reached. -/
def brace_loop : List Char → List Char → Nat → List Char × Nat
  | [], u, idx => (u, idx)
  | c :: rest, u, idx =>
    if c = rbrace then (u, idx) else brace_loop rest (u ++ [c]) (idx + 1)

/-- `get_value` (lines 656-762): the state (an error may have been
reported), the value and `*new_idx`. -/
def get_value (env : Env) (st : State) (s : List Char) (idx : Nat) : State × Int × Nat :=
  if idx ≥ s.length then (st, UNKNOWN, idx)
  else
    let idx := skipspc s idx
    if idx ≥ s.length then (st, UNKNOWN, idx)
    else
      let ch := charAt s idx
      if ch = '$' then
        (st, if st.mem_len ≠ 0 then st.mem_len - 1 else 0, idx + 1)
      else if ch = lbrace then
        let (u, idx) := brace_loop (s.drop (idx + 1)) [] (idx + 1)
        let idx := if charAt s idx = rbrace then idx + 1 else idx
        if u.length = 0 then (stderr_msg st "Invalid eval expression.", UNKNOWN, idx)
        else
          let (v, used) := env.strtoll u
          if used ≠ u.length then (stderr_msg st "Invalid eval expression.", UNKNOWN, idx)
          else (st, if v < 0 then 0 else v, idx)
      else if ch = '.' then (st, fpos st, idx + 1)
      else if ch = Char.ofNat 39 ∧ idx + 1 < s.length ∧ 'a' ≤ charAt s (idx + 1) ∧
          charAt s (idx + 1) ≤ 'z' then
        let idx := idx + 1
        let v := markOf st (charAt s idx)
        if v = UNKNOWN then (stderr_msg st "Unknown mark.", UNKNOWN, idx)
        else (st, v, idx + 1)
      else if isHexDigit ch then
        let (x, idx) := hex_loop (s.drop idx) 0 idx
        (st, if x < 0 then 0 else x, idx)
      else if ch = '%' then
        let (x, idx) := dec_loop (s.drop (idx + 1)) 0 (idx + 1)
        (st, if x < 0 then 0 else x, idx)
      else (st, UNKNOWN, idx)

/-- `expression` (lines 764-778), with the sum and the difference in 64
bits. -/
def expression (env : Env) (st : State) (s : List Char) (idx : Nat) : State × Int × Nat :=
  let (st, x, idx) := get_value env st s idx
  if idx < s.length ∧ x ≠ UNKNOWN ∧ charAt s idx = '+' then
    let (st, y, idx) := get_value env st s (idx + 1)
    (st, wrap64 (x + y), idx)
  else if idx < s.length ∧ x ≠ UNKNOWN ∧ charAt s idx = '-' then
    let (st, y, idx) := get_value env st s (idx + 1)
    let x := wrap64 (x - y)
    (st, if x < 0 then 0 else x, idx)
  else (st, x, idx)

/-- The loop of `get_hexs` (lines 980-986).  A round that does not leave the
loop has read at least one character, so the loop ends within `strlen(s)`
rounds; `fuel` counts them. -/
def get_hexs_loop (env : Env) (s : List Char) :
    Nat → State → Nat → List Byte → State × List Byte × Nat
  | 0, st, idx, out => (st, out, idx)
  | fuel + 1, st, idx, out =>
    if idx < s.length then
      let (st, v, idx) := expression env st s idx
      if v = UNKNOWN then (st, out, idx)
      else get_hexs_loop env s fuel st idx (out ++ [Fin.ofNat (v % 256).toNat])
    else (st, out, idx)

/-- `get_hexs` (lines 978-989): the state, the bytes and `*new_idx`. -/
def get_hexs (env : Env) (st : State) (s : List Char) (idx : Nat) : State × List Byte × Nat :=
  get_hexs_loop env s (s.length + 1) st idx []

/-- The loop of `get_restr` (lines 954-972), `fuel` bounding the rounds by
the number of characters. -/
def get_restr_loop (s : List Char) : Nat → Nat → List Char → List Char × Nat
  | 0, idx, out => (out, idx)
  | fuel + 1, idx, out =>
    if idx < s.length then
      if charAt s idx = '/' then (out, idx)
      else if idx + 1 < s.length ∧ charAt s idx = backslash ∧ charAt s (idx + 1) = backslash then
        get_restr_loop s fuel (idx + 2) (out ++ [backslash, backslash])
      else if idx + 1 < s.length ∧ charAt s idx = backslash ∧ charAt s (idx + 1) = '/' then
        get_restr_loop s fuel (idx + 2) (out ++ ['/'])
      else if charAt s idx = backslash ∧ idx + 1 = s.length then (out, idx + 1)
      else get_restr_loop s fuel (idx + 1) (out ++ [charAt s idx])
    else (out, idx)

/-- `get_restr` (lines 952-976): the text and `*new_idx`. -/
def get_restr (s : List Char) (idx : Nat) : List Char × Nat :=
  get_restr_loop s (s.length + 1) idx []

/-- The loop of `comment` (lines 995-1011). -/
def comment_loop (s : List Char) : Nat → Nat → List Char → List Char
  | 0, _, out => out
  | fuel + 1, idx, out =>
    if idx < s.length then
      if charAt s idx = '#' then out
      else if idx + 1 < s.length ∧ charAt s idx = backslash ∧ charAt s (idx + 1) = '#' then
        comment_loop s fuel (idx + 2) (out ++ ['#'])
      else if idx + 1 < s.length ∧ charAt s idx = backslash ∧ charAt s (idx + 1) = 'n' then
        comment_loop s fuel (idx + 2) (out ++ [Char.ofNat 10])
      else comment_loop s fuel (idx + 1) (out ++ [charAt s idx])
    else out

/-- `comment` (lines 991-1013). -/
def comment (s : List Char) : List Char := comment_loop s (s.length + 1) 0 []

/-- `get_str` (lines 1373-1381): the bytes of the text and `*new_idx`. -/
def get_str (line : List Char) (idx : Nat) : List Byte × Nat :=
  let (s, idx2) := get_restr line idx
  (s.map byteOf, idx2)

/-- `get_str_or_hexs` (lines 1354-1371). -/
def get_str_or_hexs (env : Env) (st : State) (line : List Char) (idx : Nat) :
    State × List Byte × Nat :=
  let idx := skipspc line idx
  if idx < line.length ∧ charAt line idx = '/' then
    let idx := idx + 1
    if idx < line.length ∧ charAt line idx = '/' then get_hexs env st line (idx + 1)
    else
      let (s, idx2) := get_restr line idx
      (st, s.map byteOf, idx2)
  else (st, [], idx)

/-- The common loop of the byte-wise operations: for `n` offsets from `i` on,
`setmem(i, f(readmem(i)))`. -/
def setmem_loop (f : Int → Int) : Nat → Int → State → Except Fault State
  | 0, _, s => .ok s
  | n + 1, i, s => do
    let s1 ← setmem s i (f (readmem s i))
    setmem_loop f n (i + 1) s1

/-- `opeand` (lines 1110-1117): `readmem(i) & (x3 & 0xff)`. -/
def opeand (s : State) (x x2 x3 : Int) : Except Fault State := do
  let s1 ← setmem_loop (fun m => Int.land m (x3 % 256)) (x2 - x + 1).toNat x s
  .ok (stdmm s1 (toString (x2 - x + 1) ++ " bytes anded."))

/-- `opeor` (lines 1119-1126): `readmem(i) | (x3 & 0xff)`. -/
def opeor (s : State) (x x2 x3 : Int) : Except Fault State := do
  let s1 ← setmem_loop (fun m => Int.lor m (x3 % 256)) (x2 - x + 1).toNat x s
  .ok (stdmm s1 (toString (x2 - x + 1) ++ " bytes ored."))

/-- `opexor` (lines 1128-1135): `readmem(i) ^ (x3 & 0xff)`. -/
def opexor (s : State) (x x2 x3 : Int) : Except Fault State := do
  let s1 ← setmem_loop (fun m => Int.xor m (x3 % 256)) (x2 - x + 1).toNat x s
  .ok (stdmm s1 (toString (x2 - x + 1) ++ " bytes xored."))

/-- `openot` (lines 1137-1144): `(~readmem(i)) & 0xff`, where `~m` is
`-m - 1` and `& 0xff` the remainder modulo 256. -/
def openot (s : State) (x x2 : Int) : Except Fault State := do
  let s1 ← setmem_loop (fun m => (-m - 1) % 256) (x2 - x + 1).toNat x s
  .ok (stdmm s1 (toString (x2 - x + 1) ++ " bytes noted."))

/-- `right_shift_byte` (lines 1153-1157): `(readmem(i) >> 1) | ((c & 1) << 7)`. -/
def right_shift_byte (s : State) (x x2 : Int) (c : Int) : Except Fault State :=
  setmem_loop (fun m => (((m.toNat >>> 1) ||| ((c % 2).toNat <<< 7) : Nat) : Int))
    (x2 - x + 1).toNat x s

/-- `left_rotate_byte` (lines 1159-1165): `c = (m & 0x80) >> 7`, then
`(m << 1) | c`. -/
def left_rotate_byte (s : State) (x x2 : Int) : Except Fault State :=
  setmem_loop (fun m => (((m.toNat <<< 1) ||| ((m.toNat &&& 0x80) >>> 7) : Nat) : Int))
    (x2 - x + 1).toNat x s

/-- `right_rotate_byte` (lines 1167-1173): `c = (m & 0x01) << 7`, then
`(m >> 1) | c`. -/
def right_rotate_byte (s : State) (x x2 : Int) : Except Fault State :=
  setmem_loop (fun m => (((m.toNat >>> 1) ||| ((m.toNat &&& 0x01) <<< 7) : Nat) : Int))
    (x2 - x + 1).toNat x s

/-- The bit pattern of a 64-bit value: the natural number below `2 ^ 64` that
two's complement stores for it. -/
def bits64 (x : Int) : Nat := (x % 2 ^ 64).toNat

/-- `x | y` on `int64_t`: the bitwise or of the two bit patterns. -/
def or64 (x y : Int) : Int := wrap64 ((bits64 x ||| bits64 y : Nat) : Int)

/-- `x & y` on `int64_t`: the bitwise and of the two bit patterns. -/
def and64 (x y : Int) : Int := wrap64 ((bits64 x &&& bits64 y : Nat) : Int)

/-- The loop of `get_multibyte_value` for the `n` offsets below `i`, going
down: `v = (v << 8) | readmem(i)` in 64 bits. -/
def get_multibyte_loop (s : State) : Nat → Int → Int → Int
  | 0, _, v => v
  | n + 1, i, v => get_multibyte_loop s n (i - 1) (or64 (wrap64 (v * 256)) (readmem s i))

/-- `get_multibyte_value` (lines 1175-1181): `for (i = x2; i >= x; i--)`. -/
def get_multibyte_value (s : State) (x x2 : Int) : Int :=
  get_multibyte_loop s (x2 - x + 1).toNat x2 0

/-- The loop of `put_multibyte_value`: `setmem(i, (int)(v & 0xff)); v >>= 8`,
the shift of the signed value being the arithmetic one. -/
def put_multibyte_loop : Nat → Int → Int → State → Except Fault State
  | 0, _, _, s => .ok s
  | n + 1, i, v, s => do
    let s1 ← setmem s i (v % 256)
    put_multibyte_loop n (i + 1) (v / 256) s1

/-- `put_multibyte_value` (lines 1183-1188). -/
def put_multibyte_value (s : State) (x x2 v : Int) : Except Fault State :=
  put_multibyte_loop (x2 - x + 1).toNat x v s

/-- `left_shift_multibyte` (lines 1190-1193): `(v << 1) | (int64_t)c`, the
shift in 64 bits. -/
def left_shift_multibyte (s : State) (x x2 : Int) (c : Int) : Except Fault State :=
  put_multibyte_value s x x2 (or64 (wrap64 (get_multibyte_value s x x2 * 2)) c)

/-- The value `1LL << ((x2 - x) * 8 + 7)` times `c`, that is
`(int64_t)c << ((x2 - x) * 8 + 7)`; a shift by less than 0 or by 64 bits or
more has no defined result. -/
def top_bit (x x2 c : Int) : Except Fault Int :=
  let sh := (x2 - x) * 8 + 7
  if sh < 0 ∨ sh ≥ 64 then .error Fault.shiftCount
  else .ok (wrap64 (c * 2 ^ sh.toNat))

/-- `right_shift_multibyte` (lines 1195-1198). -/
def right_shift_multibyte (s : State) (x x2 : Int) (c : Int) : Except Fault State := do
  let v := get_multibyte_value s x x2
  let t ← top_bit x x2 c
  put_multibyte_value s x x2 (or64 (v / 2) t)

/-- `left_rotate_multibyte` (lines 1200-1207). -/
def left_rotate_multibyte (s : State) (x x2 : Int) : Except Fault State := do
  let v := get_multibyte_value s x x2
  let t ← top_bit x x2 1
  let c : Int := if and64 v t ≠ 0 then 1 else 0
  put_multibyte_value s x x2 (or64 (wrap64 (v * 2)) c)

/-- `right_rotate_multibyte` (lines 1209-1216). -/
def right_rotate_multibyte (s : State) (x x2 : Int) : Except Fault State := do
  let v := get_multibyte_value s x x2
  let c : Int := if and64 v 1 ≠ 0 then 1 else 0
  let t ← top_bit x x2 c
  put_multibyte_value s x x2 (or64 (v / 2) t)

/-- One round of the loop of `shift_rotate` (lines 1220-1248). -/
def shift_rotate_once (s : State) (x x2 bit : Int) (multibyte : Bool) (direction : Char) :
    Except Fault State :=
  if !multibyte then
    if bit ≠ 0 ∧ bit ≠ 1 then
      if direction = '<' then left_rotate_byte s x x2 else right_rotate_byte s x x2
    else
      if direction = '<' then left_shift_byte s x x2 (bit % 2)
      else right_shift_byte s x x2 (bit % 2)
  else
    if bit ≠ 0 ∧ bit ≠ 1 then
      if direction = '<' then left_rotate_multibyte s x x2 else right_rotate_multibyte s x x2
    else
      if direction = '<' then left_shift_multibyte s x x2 (bit % 2)
      else right_shift_multibyte s x x2 (bit % 2)

/-- The loop of `shift_rotate`, `n` rounds. -/
def shift_rotate_loop (x x2 bit : Int) (multibyte : Bool) (direction : Char) :
    Nat → State → Except Fault State
  | 0, s => .ok s
  | n + 1, s => do
    let s1 ← shift_rotate_once s x x2 bit multibyte direction
    shift_rotate_loop x x2 bit multibyte direction n s1

/-- `shift_rotate` (lines 1218-1250): `for (i = 0; i < times; i++)`. -/
def shift_rotate (s : State) (x x2 times bit : Int) (multibyte : Bool) (direction : Char) :
    Except Fault State :=
  shift_rotate_loop x x2 bit multibyte direction times.toNat s

/-- Conversion of a 64-bit value to `int`: two's-complement wrap-around to
32 bits. -/
def wrap32 (x : Int) : Int := (x + 2 ^ 31) % 2 ^ 32 - 2 ^ 31

/-- The pointer step `while (*fn == ' ') fn++;`. -/
def skip_blanks (fn : List Char) : List Char := fn.dropWhile fun c => c = ' '

/-- `readfile` (lines 1450-1468), the whole file being read by `fread`. -/
def readfile (env : Env) (s : State) (fn : List Char) : Except Fault State :=
  match env.readfile fn with
  | none => .ok { stdmm { s with newfile := true } "<new file>" with mem := [] }
  | some data => do
    let s1 ← ensure_mem_capacity s (data.length : Int)
    .ok { s1 with mem := data, newfile := false }

/-- `writefile` (lines 1476-1488): the state and the returned flag. -/
def writefile (env : Env) (s : State) (fn : List Char) : State × Bool :=
  if env.canWrite fn then ({ stdmm s "File written." with lastchange := false }, true)
  else (stderr_msg s "Permission denied.", false)

/-- `wrtfile` (lines 1490-1509): the state; the file is outside the model. -/
def wrtfile (env : Env) (s : State) (_start _end : Int) (fn : List Char) : State :=
  if env.canWrite fn then s else stderr_msg s "Permission denied."

/-- `searchstr` (lines 1015-1029). -/
def searchstr (env : Env) (fuel : Nat) (s : State) (m : List Char) :
    Option (Except Fault (State × Bool)) :=
  if m ≠ [] then
    let s := { s with regexpMode := true, remem := String.mk m }
    searchnext env.re fuel s (fpos s)
  else some (.ok (s, false))

/-- `searchhex` (lines 1031-1041). -/
def searchhex (env : Env) (fuel : Nat) (s : State) (sm : List Byte) :
    Option (Except Fault (State × Bool)) :=
  let s := { s with remem := "", regexpMode := false }
  if sm.length > 0 then
    let s := { s with smem := sm }
    searchnext env.re fuel s (fpos s)
  else some (.ok (s, false))

/-- `searchsub` (lines 1043-1056). -/
def searchsub (env : Env) (fuel : Nat) (s : State) (line : List Char) :
    Option (Except Fault (State × Bool)) :=
  if line.length > 2 ∧ charAt line 0 = '/' ∧ charAt line 1 = '/' then
    let (s, sm, _) := get_hexs env s line 2
    searchhex env fuel s sm
  else if line.length > 1 ∧ charAt line 0 = '/' then
    let (m, _) := get_restr line 1
    searchstr env fuel s m
  else some (.ok (s, false))

/-- The replacement part of `scommand` (lines 1307-1350): the replacement is
read from the line and the loop is run. -/
def scommand_replace (env : Env) (fuel : Nat) (s : State) (start «end» pos : Int)
    (line : List Char) (idx : Nat) : Option (Except Fault State) :=
  if s.span = 0 then some (.ok (stderr_msg s "Specify search object."))
  else
    let idx := skipspc line idx
    let (s, n) : State × List Byte :=
      if idx < line.length ∧ charAt line idx = '/' then
        let idx := idx + 1
        if idx < line.length ∧ charAt line idx = '/' then
          let (s, n, _) := get_hexs env s line (idx + 1)
          (s, n)
        else
          (s, (get_restr line idx).1.map byteOf)
      else (s, [])
    scommand_loop env.re «end» n fuel (jump s start) pos 0

/-- `scommand` (lines 1253-1351) on the command line itself: `idx` is the
index after the `s`. -/
def scommand_line (env : Env) (fuel : Nat) (s : State) (start «end» : Int) (xf xf2 : Bool)
    (line : List Char) (idx : Nat) : Option (Except Fault State) :=
  let s := { s with nff := false }
  let pos := fpos s
  let idx := skipspc line idx
  let start := if !xf && !xf2 then 0 else start
  let «end» := if !xf && !xf2 then s.mem_len - 1 else «end»
  if idx < line.length ∧ charAt line idx = '/' then
    let idx := idx + 1
    if idx < line.length ∧ charAt line idx ≠ '/' then
      let (m, idx) := get_restr line idx
      let s := { s with regexpMode := true, remem := String.mk m, span := (m.length : Int) }
      if env.re.regcomp (String.mk m) then scommand_replace env fuel s start «end» pos line idx
      else some (.ok (stderr_msg s "Bad regular expression."))
    else if idx < line.length ∧ charAt line idx = '/' then
      let (s, sm, idx) := get_hexs env s line (idx + 1)
      let s := { s with regexpMode := false, remem := "", smem := sm, span := (sm.length : Int) }
      scommand_replace env fuel s start «end» pos line idx
    else some (.ok (stderr_msg s "Invalid syntax."))
  else scommand_replace env fuel s start «end» pos line idx

/-- The loop of `scripting` (lines 1525-1551) over the lines still to be
run; `run` is `commandline`. -/
def scripting_loop (run : State → List Char → Option (Except Fault (State × Int))) :
    List (List Char) → State → Option (Except Fault State)
  | [], s => some (.ok s)
  | line :: rest, s =>
    match run s line with
    | none => none
    | some (.error e) => some (.error e)
    | some (.ok (s1, flagv)) =>
      if flagv = 0 then some (.ok s1)
      else if flagv = 1 then some (.ok s1)
      else scripting_loop run rest s1

/-- `scripting` (lines 1514-1554); its return value is not used by the
caller. -/
def scripting (env : Env) (run : State → List Char → Option (Except Fault (State × Int)))
    (s : State) (scriptfile : List Char) : Option (Except Fault State) :=
  match env.scriptLines scriptfile with
  | none => some (.ok (stderr_msg s "Script file open error."))
  | some lines => scripting_loop run lines { s with scriptingflag := true }

/-- `ovwmem(start, data, len0)` (lines 366-382) for a negative `len0`, as the
`i` branch can call it after a conversion to `int`: no byte is copied. -/
def ovwmem_neg (s : State) (start len0 : Int) : Except Fault State := do
  let s1 ← ensure_mem_capacity s (start + len0)
  if start + len0 > s1.mem_len then
    if start > s1.mem_len ∧ (s1.mem_cap : Int) < start then .error Fault.outOfBounds
    else
      let grown :=
        if start > s1.mem_len then
          s1.mem ++ List.replicate (start - s1.mem_len).toNat (0 : Byte)
        else s1.mem
      .ok { s1 with mem := grown.take (start + len0).toNat, lastchange := true, modified := true }
  else .ok { s1 with lastchange := true, modified := true }

/-- The address clause of `commandline_` (lines 1681-1722): the state, `x`,
`x2`, `xf`, `xf2` and the index of the command character. -/
def address_clause (env : Env) (s : State) (line : List Char) :
    State × Int × Int × Bool × Bool × Nat :=
  let idx := skipspc line 0
  let (s, x0, idx) := expression env s line idx
  let xf : Bool := decide (x0 ≠ UNKNOWN)
  let x := if x0 = UNKNOWN then fpos s else x0
  let idx := skipspc line idx
  let (s, x2, xf2, idx) : State × Int × Bool × Nat :=
    if idx < line.length ∧ charAt line idx = ',' then
      let idx := skipspc line (idx + 1)
      if idx < line.length ∧ charAt line idx = '*' then
        let idx := skipspc line (idx + 1)
        let (s, t, idx) := expression env s line idx
        let t := if t = UNKNOWN then 1 else t
        (s, wrap64 (x + t - 1), false, idx)
      else
        let (s, t, idx) := expression env s line idx
        if t = UNKNOWN then (s, x, false, idx) else (s, t, true, idx)
    else (s, x, false, idx)
  let x2 := if x2 < x then x else x2
  let idx := skipspc line idx
  (s, x, x2, xf, xf2, idx)

/-- The `<` and `>` branch of `commandline_` (lines 1860-1875); `idx` is the
index after the first command character `ch`. -/
def cmd_shift (env : Env) (s : State) (x x2 : Int) (line : List Char) (idx : Nat) (ch : Char) :
    Except Fault State :=
  let multibyte : Bool := decide (idx < line.length ∧ charAt line idx = ch)
  let idx := if multibyte then idx + 1 else idx
  let (s, times, idx) := expression env s line idx
  let times := if times = UNKNOWN then 1 else times
  let (s, bit) : State × Int :=
    if idx < line.length ∧ charAt line idx = ',' then
      let (s, bit, _) := expression env s line (idx + 1)
      (s, bit)
    else (s, UNKNOWN)
  shift_rotate s x x2 times bit multibyte ch

/-- The pattern of the `i` and `I` branches (lines 1880-1889, 1942-1951):
text after a `/`, else hex bytes. -/
def get_pattern (env : Env) (s : State) (line : List Char) (idx : Nat) :
    State × List Byte × Nat :=
  let idx := skipspc line idx
  if idx < line.length ∧ charAt line idx = '/' then
    let (m, idx2) := get_str line (idx + 1)
    (s, m, idx2)
  else get_hexs env s line idx

/-- The `i` branch of `commandline_` (lines 1878-1937); `idx` is the index
after the `i`. -/
def cmd_i (env : Env) (s : State) (x x2 : Int) (xf2 : Bool) (line : List Char) (idx : Nat) :
    Except Fault State :=
  let (s, m, idx) := get_pattern env s line idx
  let m_len : Int := (m.length : Int)
  if xf2 then
    if m_len > 0 then
      let total := wrap32 (x2 - x + 1)
      let rep := Int.tdiv total m_len
      let rem := Int.tmod total m_len
      if rem < 0 then .error Fault.outOfBounds
      else do
        let s1 ←
          if total < 0 then ovwmem_neg s x total
          else ovwmem s x ((List.replicate rep.toNat m).flatten ++ m.take rem.toNat)
        let s2 := stdmm s1 (toString total ++ " bytes filled.")
        .ok (jump s2 (x + total))
    else .ok (stderr_msg s "Invalid syntax.")
  else
    let (s, length) : State × Int :=
      if idx < line.length ∧ charAt line idx = '*' then
        let (s, length, _) := expression env s line (idx + 1)
        (s, length)
      else (s, 1)
    let count := wrap32 length
    let data_len := m_len * count
    if data_len ≠ wrap32 data_len then .error Fault.outOfBounds
    else do
      let s1 ←
        if data_len < 0 then ovwmem_neg s x data_len
        else ovwmem s x (List.replicate count.toNat m).flatten
      let s2 := stdmm s1 (toString data_len ++ " bytes overwritten.")
      .ok (jump s2 (x + data_len))

/-- The branches of `commandline_` from "Get command character" on (lines
1815-2029), `idx` being the index of the command character. -/
def command_char (env : Env) (fuel : Nat) (s : State) (x x2 : Int) (xf xf2 : Bool)
    (line : List Char) (idx : Nat) : Option (Except Fault (State × Int)) :=
  let ch : Char := if idx < line.length then charAt line idx else Char.ofNat 0
  if ch = 'd' then
    some ((cmd_d s x x2).map fun s1 => (s1, -1))
  else if ch = 'w' then
    some (.ok (wrtfile env s x x2 (skip_blanks (line.drop (idx + 1))), -1))
  else if ch = 's' then
    (scommand_line env fuel s x x2 xf xf2 line (idx + 1)).map fun r => r.map fun s1 => (s1, -1)
  else if idx < line.length ∧ charAt line idx = '~' then
    some ((openot s x x2).map fun s1 => (jump s1 (x2 + 1), -1))
  else if idx < line.length ∧ charAt line idx ∈ "fIivCc&|^<>".toList then
    let idx := idx + 1
    if ch = '<' ∨ ch = '>' then
      some ((cmd_shift env s x x2 line idx ch).map fun s1 => (s1, -1))
    else if ch = 'i' then
      some ((cmd_i env s x x2 xf2 line idx).map fun s1 => (s1, -1))
    else if ch = 'I' then
      let (s, m, idx) := get_pattern env s line idx
      let s :=
        if idx < line.length ∧ charAt line idx = '*' then (expression env s line (idx + 1)).1
        else s
      some ((cmd_I s x xf2 m).map fun s1 => (s1, -1))
    else
      let (s, x3, _) := expression env s line idx
      if x3 = UNKNOWN then some (.ok (stderr_msg s "Invalid parameter.", -1))
      else if ch = 'c' then
        some (do
          let s1 ← yankmem s x x2
          let s2 ← cpymem s1 x x2 x3
          let s3 := stdmm s2 (toString (x2 - x + 1) ++ " bytes copied.")
          .ok (jump s3 (x3 + (x2 - x + 1)), -1))
      else if ch = 'C' then
        some ((cmd_C s x x2 x3).map fun s1 => (s1, -1))
      else if ch = 'v' then
        some ((movmem s x x2 x3).map fun r => (jump r.1 r.2, -1))
      else if ch = '&' then
        some ((opeand s x x2 x3).map fun s1 => (jump s1 (x2 + 1), -1))
      else if ch = '|' then
        some ((opeor s x x2 x3).map fun s1 => (jump s1 (x2 + 1), -1))
      else if ch = '^' then
        some ((opexor s x x2 x3).map fun s1 => (jump s1 (x2 + 1), -1))
      else some (.ok (stderr_msg s "Unrecognized command.", -1))
  else some (.ok (stderr_msg s "Unrecognized command.", -1))

/-- The branches of `commandline_` after the address clause (lines
1724-1813): jump, `y`, `p`, `P`, `m`, `r` and `R`; the other commands are in
`command_char`, which a failed `r` or `R` also reaches. -/
def address_command (env : Env) (fuel : Nat) (s : State) (x x2 : Int) (xf xf2 : Bool)
    (line : List Char) (idx : Nat) : Option (Except Fault (State × Int)) :=
  if idx = line.length then some (.ok (jump s x, -1))
  else if idx < line.length ∧ charAt line idx = 'y' then
    if !xf && !xf2 then
      let (s1, m, _) := get_str_or_hexs env s line (idx + 1)
      some ((ensure_yank_capacity s1 (m.length : Int)).map fun s1 =>
        let s2 := { s1 with yank := m }
        (stdmm s2 (toString s2.yank_len ++ " bytes yanked."), -1))
    else
      some ((yankmem s x x2).map fun s1 =>
        (stdmm s1 (toString s1.yank_len ++ " bytes yanked."), -1))
  else if idx < line.length ∧ charAt line idx = 'p' then
    if s.yank_len > 0 then
      some ((ovwmem s x s.yank).map fun s1 => (jump s1 (x + s.yank_len), -1))
    else some (.ok (s, -1))
  else if idx < line.length ∧ charAt line idx = 'P' then
    some ((cmd_P s x).map fun s1 => (s1, -1))
  else if idx + 1 < line.length ∧ charAt line idx = 'm' then
    some (.ok (cmd_m s x (charAt line (idx + 1)), -1))
  else if idx < line.length ∧ (charAt line idx = 'r' ∨ charAt line idx = 'R') then
    let ch := charAt line idx
    let idx := idx + 1
    if idx ≥ line.length then some (.ok (stderr_msg s "File name not specified.", -1))
    else
      let fn := skip_blanks (line.drop idx)
      if fn.length = 0 then
        command_char env fuel (stderr_msg s "File name not specified.") x x2 xf xf2 line idx
      else
        match env.readfile fn with
        | none => command_char env fuel (stderr_msg s "File read error.") x x2 xf xf2 line idx
        | some data =>
          if ch = 'r' then
            some ((ovwmem s x data).map fun s1 => (jump s1 (x + (data.length : Int)), -1))
          else some ((cmd_R s x data).map fun s1 => (s1, -1))
  else command_char env fuel s x x2 xf xf2 line idx

/-- `commandline_` (lines 1564-2030) with `run` for the command lines of a
script: the state and the returned code, `0` for quit and `-1` otherwise. -/
def commandline_step (env : Env) (fuel : Nat)
    (run : State → List Char → Option (Except Fault (State × Int)))
    (s : State) (line : List Char) : Option (Except Fault (State × Int)) :=
  let s := { s with cp := fpos s }
  let line := comment line
  if line.length = 0 then some (.ok (s, -1))
  else if line = ['q'] then
    if s.lastchange then
      some (.ok (stderr_msg s "No write since last change. To overriding quit, use 'q!'.", -1))
    else some (.ok (s, 0))
  else if line = ['q', '!'] then some (.ok (s, 0))
  else if line = ['w', 'q'] ∨ line = ['w', 'q', '!'] then
    let r := writefile env s env.filename
    if r.2 then some (.ok ({ r.1 with lastchange := false }, 0)) else some (.ok (r.1, -1))
  else if charAt line 0 = 'w' ∧ ¬ (line.length ≥ 2 ∧ charAt line 1 ≠ ' ') then
    if line.length ≥ 2 then
      some (.ok ((writefile env s (skip_blanks (line.drop 1))).1, -1))
    else
      some (.ok ({ (writefile env s env.filename).1 with lastchange := false }, -1))
  else if charAt line 0 = 'r' ∧ line.length = 1 then
    some ((readfile env s env.filename).map fun s1 => (stdmm s1 "Original file read.", -1))
  else if charAt line 0 = 'T' ∨ charAt line 0 = 't' then
    if line.length ≥ 2 then
      let script_fn := skip_blanks (line.drop 1)
      let old_scripting := s.scriptingflag
      let old_verbose := s.verbose
      let s1 := { s with verbose := decide (charAt line 0 = 'T') }
      match scripting env run s1 script_fn with
      | none => none
      | some (.error e) => some (.error e)
      | some (.ok s2) =>
        let s3 := if s2.verbose then stdmm s2 "[ Hit any key ]" else s2
        some (.ok ({ s3 with verbose := old_verbose, scriptingflag := old_scripting }, -1))
    else some (.ok (stderr_msg s "Specify script file name.", -1))
  else if charAt line 0 = 'n' ∧ line.length = 1 then
    (searchnext env.re fuel s (fpos s + 1)).map fun r => r.map fun p => (p.1, -1)
  else if charAt line 0 = 'N' ∧ line.length = 1 then
    (searchlast env.re fuel s (fpos s - 1)).map fun r => r.map fun p => (p.1, -1)
  else if charAt line 0 = '!' then some (.ok (s, -1))
  else if charAt line 0 = '?' then
    some (.ok ((expression env s (line.drop 1) 0).1, -1))
  else if charAt line 0 = '/' then
    (searchsub env fuel s line).map fun r => r.map fun p => (p.1, -1)
  else
    let (s, x, x2, xf, xf2, idx) := address_clause env s line
    address_command env fuel s x x2 xf xf2 line idx

/-- `commandline_` (lines 1564-2030), which `commandline` (lines 1560-1563)
only calls.  `fuel` bounds the depth of nested scripts and the rounds of the
search loops; `none` when it was not enough. -/
def commandline_ (env : Env) : Nat → State → List Char → Option (Except Fault (State × Int))
  | 0 => fun _ _ => none
  | fuel + 1 => commandline_step env fuel (commandline_ env fuel)

/-- The states the literal scans pass through agree with the state they
started from in everything a probe or the cursor depends on: they differ by
messages only. -/
def Agree (s t : State) : Prop :=
  t.mem = s.mem ∧ t.smem = s.smem ∧ t.regexpMode = s.regexpMode ∧ t.nff = s.nff ∧
    t.homeaddr = s.homeaddr ∧ t.curx = s.curx ∧ t.cury = s.cury

/-- The offset `a` is the first one at which `hit` holds in the cyclic order
`fp, fp+1, ..., mem_len-1, 0, ..., fp-1`. -/
def FirstCyclicHit (s : State) (fp a : Int) : Prop :=
  0 ≤ a ∧ a < s.mem_len ∧ hit s a = .ok 1 ∧
    ((fp ≤ a ∧ ∀ x : Int, fp ≤ x → x < a → hit s x ≠ .ok 1) ∨
     (a < fp ∧ (∀ x : Int, fp ≤ x → x < s.mem_len → hit s x ≠ .ok 1) ∧
        ∀ x : Int, 0 ≤ x → x < a → hit s x ≠ .ok 1))

/-- The two ways a literal `searchnext(fp)` on `s` ends: at the first hit of
the cyclic order, after a `jump` there, or, when nothing in the buffer is
hit, with `false` and no `jump`. -/
def SearchOutcome (s : State) (fp : Int) (r : Option (Except Fault (State × Bool))) : Prop :=
  (∃ a t, Agree s t ∧ FirstCyclicHit s fp a ∧ r = some (.ok (jump t a, true))) ∨
  (∃ t, Agree s t ∧ (∀ x : Int, 0 ≤ x → x < s.mem_len → hit s x = .ok 0) ∧
    r = some (.ok (t, false)))

/-- The value of a digit as a numeral has it: its place in `0123456789abcdef`
or in `0123456789ABCDEF`. -/
def digitValue (c : Char) : Int :=
  (min ("0123456789abcdef".toList.indexOf c) ("0123456789ABCDEF".toList.indexOf c) : Nat)

/-- The number that the digits `ds` write in base `base`, most significant
digit first. -/
def numeral (base : Int) (ds : List Char) : Int :=
  ds.foldl (fun x d => base * x + digitValue d) 0

/-- The decimal digits. -/
def isDecDigit (c : Char) : Bool :=
  decide (c ∈ "0123456789".toList)

/-- After any of the four content-changing operations the line `q` is
refused and the line `q!` quits: the return codes `-1` and `0` of
`commandline_`. -/
def QuitRefused (env : Env) (fuel : Nat) (s : State) : Prop :=
  (∃ t, commandline_ env (fuel + 1) s ['q'] = some (.ok (t, -1))) ∧
  (∃ t, commandline_ env (fuel + 1) s ['q', '!'] = some (.ok (t, 0)))

/-- The capacity invariant of the byte store:
`mem_len <= mem_cap <= MAX_MEM_SIZE`. -/
def CapacityOk (s : State) : Prop :=
  s.mem_len ≤ (s.mem_cap : Int) ∧ (s.mem_cap : Int) ≤ MAX_MEM_SIZE

/-- The search globals as the pattern part of `scommand` leaves them for the
literal pattern `p`: `regexpMode` off, `smem` the pattern, `span` its
length. -/
def LiteralPattern (p : List Byte) (s : State) : Prop :=
  s.regexpMode = false ∧ s.smem = p ∧ s.span = (p.length : Int)

/-- A state whose buffer is the list `bs`, held in an allocation of `cap`
bytes; every other global is as in `State.init`. -/
def State.ofBytes (bs : List Byte) (cap : Nat) : State :=
  { State.init with mem := bs, mem_cap := cap }

/-- A regular-expression library in which no pattern compiles and no match
is found; the literal scans never call the library. -/
def noRegex : RegexLib :=
  { regcomp := fun _ => false, regexec := fun _ _ => RegexResult.error }

/-- An environment with no files, no regular expressions and a `strtoll`
that reads nothing. -/
def Env.bare : Env :=
  { re := noRegex, strtoll := fun _ => (0, 0), readfile := fun _ => none,
    canWrite := fun _ => false, scriptLines := fun _ => none, filename := [] }

/-- The leftmost occurrence of the bytes `61 62` in a window, counted from
offset `i`; the window ends at its first `00` byte, as a C string does. -/
def findAB : List Byte → Int → RegexResult
  | [], _ => RegexResult.nomatch
  | [_], _ => RegexResult.nomatch
  | a :: b :: rest, i =>
    if a = 0 then RegexResult.nomatch
    else if a = 0x61 ∧ b = 0x62 then RegexResult.found i (i + 2)
    else findAB (b :: rest) (i + 1)

/-- A regular-expression library that knows the one pattern `ab` and answers
for it as POSIX asks: the leftmost occurrence of the two characters. -/
def abRegex : RegexLib :=
  { regcomp := fun p => p = "ab",
    regexec := fun p w => if p = "ab" then findAB w 0 else RegexResult.error }

/-- A state whose buffer is `bs` and whose literal search pattern is `pat`;
every other global is as in `State.init`. -/
def State.ofSearch (bs pat : List Byte) : State :=
  { State.init with mem := bs, mem_cap := 4096, smem := pat }

/-- The buffer between the delete and the re-insert of `movmem`. -/
def cut (s : State) (start «end» : Int) : List Byte :=
  s.mem.take start.toNat ++ s.mem.drop («end» + 1).toNat

end Bi

/-! ## Auxiliary facts -/

namespace Bi

theorem growCap_ge (fuel : Nat) : ∀ (c needed : Nat), 1 ≤ c → needed ≤ c + fuel →
    needed ≤ growCap fuel c needed := by
  induction fuel with
  | zero => intro c needed _ h; simpa [growCap] using h
  | succ k ih =>
    intro c needed hc h
    unfold growCap
    split
    · exact ih (c * 2) needed (by omega) (by omega)
    · omega

/-- A request within the ceiling is granted: only `mem_cap` changes, and it
covers the request afterwards. -/
theorem ensure_mem_capacity_ok (s : State) (needed : Int) (h : needed ≤ MAX_MEM_SIZE) :
    ∃ cap : Nat, ensure_mem_capacity s needed = .ok { s with mem_cap := cap } ∧
      needed ≤ (cap : Int) := by
  unfold ensure_mem_capacity
  rw [if_neg (not_lt.mpr h)]
  by_cases hn : needed > (s.mem_cap : Int)
  · rw [if_pos hn]
    refine ⟨_, rfl, ?_⟩
    have hg := growCap_ge needed.toNat (if s.mem_cap = 0 then 4096 else s.mem_cap * 2)
      needed.toNat (by split <;> omega) (by omega)
    generalize growCap needed.toNat (if s.mem_cap = 0 then 4096 else s.mem_cap * 2)
      needed.toNat = g at hg ⊢
    show needed ≤ ((if (g : Int) > MAX_MEM_SIZE then MAX_MEM_SIZE.toNat else g : Nat) : Int)
    unfold MAX_MEM_SIZE at *
    split <;> omega
  · rw [if_neg hn]
    exact ⟨s.mem_cap, rfl, by omega⟩

@[simp] theorem stdmm_mem (s : State) (m : String) : (stdmm s m).mem = s.mem := by
  unfold stdmm; split <;> rfl

@[simp] theorem stdmm_yank (s : State) (m : String) : (stdmm s m).yank = s.yank := by
  unfold stdmm; split <;> rfl

@[simp] theorem stdmm_mark (s : State) (m : String) : (stdmm s m).mark = s.mark := by
  unfold stdmm; split <;> rfl

@[simp] theorem stdmm_mem_cap (s : State) (m : String) : (stdmm s m).mem_cap = s.mem_cap := by
  unfold stdmm; split <;> rfl

@[simp] theorem stdmm_mem_len (s : State) (m : String) : (stdmm s m).mem_len = s.mem_len := by
  unfold stdmm; split <;> rfl

@[simp] theorem jump_mem (s : State) (a : Int) : (jump s a).mem = s.mem := rfl

@[simp] theorem jump_yank (s : State) (a : Int) : (jump s a).yank = s.yank := rfl

@[simp] theorem jump_mark (s : State) (a : Int) : (jump s a).mark = s.mark := rfl

/-- An insert of a non-empty sequence at an offset inside the buffer, or
right at its end, splices the sequence in; nothing but `mem`, `mem_cap` and
the two change flags is touched. -/
theorem insmem_ok (s : State) (start : Int) (mem2 : List Byte) (h0 : 0 ≤ start)
    (hs : start ≤ s.mem_len) (hne : mem2 ≠ [])
    (hc : s.mem_len + (mem2.length : Int) ≤ MAX_MEM_SIZE) :
    ∃ s', insmem s start mem2 = .ok s' ∧
      s'.mem = s.mem.take start.toNat ++ mem2 ++ s.mem.drop start.toNat ∧
      s'.yank = s.yank ∧ s'.mark = s.mark := by
  obtain ⟨cap, hcap, hle⟩ := ensure_mem_capacity_ok s _ hc
  have hpos : 0 < mem2.length := List.length_pos.mpr hne
  unfold insmem
  simp only [State.mem_len] at *
  rw [if_neg (by omega), hcap]
  simp only [bind, Except.bind]
  by_cases he : start ≥ (s.mem.length : Int)
  · rw [if_pos he, if_neg (by omega)]
    refine ⟨_, rfl, ?_, rfl, rfl⟩
    have : start.toNat = s.mem.length := by omega
    have h2 : (start - (s.mem.length : Int)).toNat = 0 := by omega
    simp [this, h2]
  · rw [if_neg he, if_neg (by omega)]
    exact ⟨_, rfl, rfl, rfl, rfl⟩

/-- The doubling loop of `ensure_yank_capacity` ends without overflow when
the request is at most `2^62`: with a capacity of at least 1 that many rounds
are enough, and the result is below twice the request unless the loop did not
run. -/
theorem growYank_ok (needed : Int) (hn : needed ≤ 2 ^ 62) :
    ∀ (fuel : Nat) (c : Int), 1 ≤ c → needed ≤ c * 2 ^ fuel →
      ∃ cap, growYank (fuel + 1) c needed = .ok cap ∧ needed ≤ cap ∧
        cap ≤ max c (2 * needed) := by
  intro fuel
  induction fuel with
  | zero =>
    intro c _ h
    unfold growYank
    rw [if_neg (by omega)]
    exact ⟨c, rfl, by omega, le_max_left _ _⟩
  | succ k ih =>
    intro c hc h
    unfold growYank
    by_cases hlt : c < needed
    · rw [if_pos hlt, if_neg (by omega)]
      obtain ⟨cap, h1, h2, h3⟩ := ih (c * 2) (by omega) (by rw [pow_succ] at h; linarith)
      exact ⟨cap, h1, h2, by omega⟩
    · rw [if_neg hlt]
      exact ⟨c, rfl, by omega, le_max_left _ _⟩

/-- More rounds than 64 change nothing: from a capacity of at least 1 the
doubling loop of `ensure_yank_capacity` has covered the request or has
overflowed by then. -/
theorem growYank_rounds (needed : Int) (hn : needed ≤ 2 ^ 63) :
    ∀ (fuel : Nat) (c : Int), 1 ≤ c → 2 ^ 63 ≤ c * 2 ^ fuel →
      ∀ k : Nat, growYank (fuel + k) c needed = growYank fuel c needed := by
  intro fuel
  induction fuel with
  | zero =>
    intro c _ h k
    cases k with
    | zero => rfl
    | succ j =>
      rw [Nat.zero_add]
      unfold growYank
      rw [if_neg (by omega)]
  | succ f ih =>
    intro c hc h k
    have e : f + 1 + k = (f + k) + 1 := by omega
    have h2 : (2 : Int) ^ 63 ≤ c * 2 * 2 ^ f := by
      have : c * 2 ^ (f + 1) = c * 2 * 2 ^ f := by ring
      rw [this] at h
      exact h
    rw [e]
    by_cases hlt : c < needed
    · by_cases ho : c * 2 ≥ 2 ^ 63
      · simp only [growYank, if_pos hlt, if_pos ho]
      · simp only [growYank, if_pos hlt, if_neg ho]
        exact ih (c * 2) (by omega) h2 k
    · simp only [growYank, if_neg hlt]

/-- A request within the memory ceiling is granted to the clip register:
only `yank_cap` changes. -/
theorem ensure_yank_capacity_ok (s : State) (needed : Int) (h : needed ≤ MAX_MEM_SIZE) :
    ∃ cap : Nat, ensure_yank_capacity s needed = .ok { s with yank_cap := cap } := by
  unfold ensure_yank_capacity
  by_cases hn : needed > (s.yank_cap : Int)
  · rw [if_pos hn]
    have hM : MAX_MEM_SIZE = 10737418240 := by unfold MAX_MEM_SIZE; norm_num
    have hc1 : (1 : Int) ≤ (if s.yank_cap = 0 then 1024 else (s.yank_cap : Int) * 2) := by
      split <;> omega
    have hc2 : (if s.yank_cap = 0 then (1024 : Int) else (s.yank_cap : Int) * 2)
        ≤ max 1024 (2 * needed) := by
      split <;> omega
    obtain ⟨cap, h1, h2, h3⟩ := growYank_ok needed (by omega) 63
      (if s.yank_cap = 0 then 1024 else (s.yank_cap : Int) * 2) hc1
      (by
        have : (1 : Int) * 2 ^ 63 ≤
            (if s.yank_cap = 0 then 1024 else (s.yank_cap : Int) * 2) * 2 ^ 63 :=
          mul_le_mul_of_nonneg_right hc1 (by positivity)
        omega)
    simp only [h1]
    rw [if_neg (by unfold YANK_ALLOC_MAX; omega)]
    exact ⟨cap.toNat, rfl⟩
  · rw [if_neg hn]
    exact ⟨s.yank_cap, rfl⟩

/-- Whatever `ensure_yank_capacity` returns differs from the state it got in
`yank_cap` only. -/
theorem ensure_yank_capacity_frame {s s1 : State} {needed : Int}
    (h : ensure_yank_capacity s needed = .ok s1) :
    ∃ cap : Nat, s1 = { s with yank_cap := cap } := by
  unfold ensure_yank_capacity at h
  dsimp only at h
  split at h
  · cases hg : growYank 64 (if s.yank_cap = 0 then 1024 else (s.yank_cap : Int) * 2) needed with
    | error e => simp only [hg] at h; cases h
    | ok cap =>
      simp only [hg] at h
      split at h
      · cases h
      · cases h; exact ⟨_, rfl⟩
  · cases h; exact ⟨s.yank_cap, rfl⟩

/-- Whatever `yankmem` returns differs from the state it got in the clip
register, its capacity and the message log only. -/
theorem yankmem_frame {s s' : State} {start «end» : Int}
    (h : yankmem s start «end» = .ok s') :
    ∃ (y : List Byte) (cap : Nat) (o : List Msg),
      s' = { s with yank := y, yank_cap := cap, out := o } := by
  unfold yankmem at h
  dsimp only at h
  split at h
  · cases h; exact ⟨s.yank, s.yank_cap, _, rfl⟩
  · split at h
    · cases h
    · cases hE : ensure_yank_capacity s («end» - start + 1) with
      | error e => rw [hE] at h; cases h
      | ok s0 =>
        obtain ⟨cap, rfl⟩ := ensure_yank_capacity_frame hE
        rw [hE] at h
        simp only [bind, Except.bind] at h
        split at h
        · cases h
        · cases h
          refine ⟨List.take («end» - start + 1).toNat (List.drop start.toNat s.mem), cap, ?_⟩
          unfold stdmm
          split
          · exact ⟨s.out, rfl⟩
          · exact ⟨_, rfl⟩

/-- The value of the memory ceiling. -/
theorem MAX_MEM_SIZE_eq : MAX_MEM_SIZE = 10737418240 := by
  unfold MAX_MEM_SIZE; norm_num

/-- A yank of a range that starts inside the buffer and is no longer than the
memory ceiling stores the bytes of the range that exist and changes nothing
else but the message log and the capacity of the clip register. -/
theorem yankmem_ok (s : State) (start «end» : Int) (h0 : 0 ≤ start)
    (hs : start < s.mem_len) (he : start ≤ «end»)
    (hc : «end» - start + 1 ≤ MAX_MEM_SIZE) :
    ∃ s', yankmem s start «end» = .ok s' ∧ s'.mem = s.mem ∧
      s'.yank = (s.mem.drop start.toNat).take («end» - start + 1).toNat ∧
      s'.mark = s.mark ∧ s'.mem_cap = s.mem_cap := by
  obtain ⟨cap, hcap⟩ := ensure_yank_capacity_ok s («end» - start + 1) hc
  have hM := MAX_MEM_SIZE_eq
  unfold yankmem
  simp only [State.mem_len] at *
  rw [if_neg (by omega), if_neg (by omega), hcap]
  simp only [bind, Except.bind]
  rw [if_neg (by omega)]
  exact ⟨_, rfl, by simp, by simp, by simp, by simp⟩

/-- A delete of a range that starts inside the buffer and is no longer than
the memory ceiling removes the bytes of the range that exist; with `yf` it
first yanks them. -/
theorem delmem_ok (s : State) (start «end» : Int) (yf : Bool) (h0 : 0 ≤ start)
    (hs : start < s.mem_len) (he : start ≤ «end»)
    (hc : «end» - start + 1 ≤ MAX_MEM_SIZE) :
    ∃ s', delmem s start «end» yf = .ok s' ∧
      s'.mem = s.mem.take start.toNat ++ s.mem.drop («end» + 1).toNat ∧
      s'.yank = (if yf then (s.mem.drop start.toNat).take («end» - start + 1).toNat
                 else s.yank) ∧
      s'.mark = s.mark ∧ s'.mem_cap = s.mem_cap := by
  obtain ⟨y, hy, hymem, hyyank, hymark, hycap⟩ := yankmem_ok s start «end» h0 hs he hc
  have hM := MAX_MEM_SIZE_eq
  unfold delmem
  simp only [State.mem_len] at *
  rw [if_neg (by omega), if_neg (by omega)]
  have key : ∀ t : State, t.mem = s.mem →
      ∃ s', (if (if «end» ≥ (t.mem.length : Int) then (t.mem.length : Int) - 1 else «end») + 1 < 0
          then (Except.error Fault.outOfBounds : Except Fault State)
          else .ok { t with
            mem := t.mem.take (if start < 0 then 0 else start).toNat ++
              t.mem.drop ((if «end» ≥ (t.mem.length : Int) then (t.mem.length : Int) - 1
                else «end») + 1).toNat,
            lastchange := true, modified := true }) = .ok s' ∧
        s'.mem = s.mem.take start.toNat ++ s.mem.drop («end» + 1).toNat ∧
        s'.yank = t.yank ∧ s'.mark = t.mark ∧ s'.mem_cap = t.mem_cap := by
    intro t ht
    rw [ht, if_neg (by split <;> omega)]
    refine ⟨_, rfl, ?_, rfl, rfl, rfl⟩
    show List.take _ s.mem ++ List.drop _ s.mem = _
    rw [if_neg (by omega)]
    congr 1
    by_cases hlen : «end» ≥ (s.mem.length : Int)
    · rw [if_pos hlen, List.drop_eq_nil_of_le (by omega), List.drop_eq_nil_of_le (by omega)]
    · rw [if_neg hlen]
  cases yf with
  | false =>
    obtain ⟨s', h1, h2, h3, h4, h5⟩ := key s rfl
    exact ⟨s', by simpa [bind, Except.bind] using h1, h2, by simpa using h3, h4, h5⟩
  | true =>
    obtain ⟨s', h1, h2, h3, h4, h5⟩ := key y hymem
    refine ⟨s', ?_, h2, by simpa [hyyank] using h3, by rw [h4, hymark], by rw [h5, hycap]⟩
    simp only [if_true, hy, bind, Except.bind]
    simpa [State.mem_len] using h1

set_option maxRecDepth 100000 in
/-- The clip register is allocated for the whole of `end - start + 1`,
whatever part of the range lies in the buffer.  On the buffer
`01 02 03 04 05`: `yankmem(1, 9)` yanks four bytes into an allocation of
1024; `yankmem(1, 2^48)` asks for `2^48` bytes, which is refused;
`delmem(3, 2^63 - 2, true)` (as the command line `3,7ffffffffffffffe d`)
overflows the doubling loop, although without the yank the same delete
leaves `01 02 03`; and the length of `[0, 2^63 - 1]` (as the command line
`0,7fffffffffffffff d`) overflows. -/
theorem yank_request_unclamped :
    (∃ s', yankmem (State.ofBytes [1, 2, 3, 4, 5] 4096) 1 9 = .ok s' ∧
      s'.yank = [2, 3, 4, 5] ∧ s'.yank_cap = 1024) ∧
    yankmem (State.ofBytes [1, 2, 3, 4, 5] 4096) 1 (2 ^ 48) = .error Fault.yankAlloc ∧
    delmem (State.ofBytes [1, 2, 3, 4, 5] 4096) 3 (2 ^ 63 - 2) true = .error Fault.overflow ∧
    (∃ s', delmem (State.ofBytes [1, 2, 3, 4, 5] 4096) 3 (2 ^ 63 - 2) false = .ok s' ∧
      s'.mem = [1, 2, 3]) ∧
    commandline_ Env.bare 1 (State.ofBytes [1, 2, 3, 4, 5] 4096) "3,7ffffffffffffffe d".toList
      = some (.error Fault.overflow) ∧
    delmem (State.ofBytes [1, 2, 3, 4, 5] 4096) 0 (2 ^ 63 - 1) true = .error Fault.overflow ∧
    commandline_ Env.bare 1 (State.ofBytes [1, 2, 3, 4, 5] 4096) "0,7fffffffffffffff d".toList
      = some (.error Fault.overflow) :=
  ⟨⟨_, rfl, rfl, rfl⟩, rfl, rfl, ⟨_, rfl, rfl⟩, rfl, rfl, rfl⟩

theorem take_take_append {α : Type} (l r : List α) (k : Nat) (h : k ≤ l.length) :
    (l.take k ++ r).take k = l.take k := by
  rw [List.take_append_of_le_length (by simp; omega), List.take_take, min_self]

theorem drop_take_append {α : Type} (l r : List α) (k : Nat) (h : k ≤ l.length) :
    (l.take k ++ r).drop k = r := by
  have ht : (l.take k).length = k := by simp; omega
  rw [List.drop_append_eq_append_drop, List.drop_eq_nil_of_le (by omega), ht, Nat.sub_self]
  simp

/-- What `setmem` leaves at the offset it wrote: the value when it is a byte
value, `0` otherwise (lines 299-303). -/
theorem setmem_readmem_any (s : State) (addr data : Int) (h0 : 0 ≤ addr)
    (hc : addr < MAX_MEM_SIZE) :
    ∃ s', setmem s addr data = .ok s' ∧
      readmem s' addr = (if 0 ≤ data ∧ data ≤ 255 then data else 0) := by
  obtain ⟨cap, hcap, hle⟩ := ensure_mem_capacity_ok s (addr + 1) (by omega)
  unfold setmem
  rw [if_neg (not_lt.mpr h0), hcap]
  simp only [bind, Except.bind]
  rw [if_neg (by simpa using hle)]
  refine ⟨_, rfl, ?_⟩
  simp only [readmem, State.mem_len, List.length_set]
  have hval : (((if h : 0 ≤ data ∧ data ≤ 255 then (⟨data.toNat, by omega⟩ : Byte) else 0).val
      : Nat) : Int) = (if 0 ≤ data ∧ data ≤ 255 then data else 0) := by
    by_cases hd : 0 ≤ data ∧ data ≤ 255
    · rw [dif_pos hd, if_pos hd]; simp; omega
    · rw [dif_neg hd, if_neg hd]; rfl
  by_cases hlen : addr ≥ (s.mem.length : Int)
  · simp only [if_pos hlen, List.length_append, List.length_replicate]
    rw [if_neg (by push_cast; omega)]
    rw [List.getD_eq_getElem?_getD, List.getElem?_set_self (by simp; omega)]
    simpa using hval
  · simp only [if_neg hlen]
    rw [if_neg (by omega)]
    rw [List.getD_eq_getElem?_getD, List.getElem?_set_self (by omega)]
    simpa using hval

theorem readmem_range (s : State) (addr : Int) : 0 ≤ readmem s addr ∧ readmem s addr ≤ 255 := by
  unfold readmem
  split
  · omega
  · have := (s.mem.getD addr.toNat 0).isLt
    omega

end Bi

/-! ## The byte store: write, insert, delete -/

namespace Bi

/-- C1. For every buffer, every offset `>= 0` below the memory ceiling and
every byte value `b` in `0..255`, `setmem(offset, b)` returns and a following
`readmem(offset)` gives `b`. -/
theorem setmem_readmem (s : State) (offset b : Int) (h0 : 0 ≤ offset)
    (hc : offset < MAX_MEM_SIZE) (hb0 : 0 ≤ b) (hb : b ≤ 255) :
    ∃ s', setmem s offset b = .ok s' ∧ readmem s' offset = b := by
  obtain ⟨s', h1, h2⟩ := setmem_readmem_any s offset b h0 hc
  exact ⟨s', h1, by rw [h2, if_pos ⟨hb0, hb⟩]⟩

/-- Witness of C1: writing `0xAB` at offset 5 of a three-byte buffer (a
write past the end) and reading offset 5 back. -/
theorem setmem_readmem_witness :
    ∃ s', setmem (State.ofBytes [1, 2, 3] 4096) 5 0xAB = .ok s' ∧ readmem s' 5 = 0xAB :=
  setmem_readmem (State.ofBytes [1, 2, 3] 4096) 5 0xAB (by decide) (by decide) (by decide)
    (by decide)

/-- C2 as stated fails for an offset past the end of the buffer: inserting
`[9]` at offset 3 of the one-byte buffer `[1]` zero-fills offsets 1 and 2,
and deleting `[3, 3]` afterwards leaves `[1, 0, 0]`, three bytes instead of
one. -/
theorem insmem_delmem_past_end :
    ∃ s1 s2, insmem (State.ofBytes [1] 4096) 3 [9] = .ok s1 ∧
      delmem s1 3 3 false = .ok s2 ∧ s2.mem = [1, 0, 0] ∧
      s2.mem ≠ (State.ofBytes [1] 4096).mem ∧
      s2.mem.length ≠ (State.ofBytes [1] 4096).mem.length := by
  refine ⟨_, _, rfl, rfl, ?_, ?_, ?_⟩ <;> decide

/-- C2, amended. For every buffer, every offset with `0 <= offset <= length`
and every non-empty byte sequence `bs` that fits under the memory ceiling,
`insmem(offset, bs)` followed by `delmem(offset, offset+len(bs)-1)` (with or
without yank) returns and leaves the buffer content, hence its length, as
before the insert. -/
theorem insmem_delmem_roundtrip (s : State) (offset : Int) (bs : List Byte) (yf : Bool)
    (h0 : 0 ≤ offset) (hs : offset ≤ s.mem_len) (hne : bs ≠ [])
    (hc : s.mem_len + (bs.length : Int) ≤ MAX_MEM_SIZE) :
    ∃ s1 s2, insmem s offset bs = .ok s1 ∧
      delmem s1 offset (offset + (bs.length : Int) - 1) yf = .ok s2 ∧
      s2.mem = s.mem ∧ s2.mem.length = s.mem.length := by
  obtain ⟨s1, h1, hmem1, -, -⟩ := insmem_ok s offset bs h0 hs hne hc
  have hpos : 0 < bs.length := List.length_pos.mpr hne
  simp only [State.mem_len] at hs hc
  have hk : offset.toNat ≤ s.mem.length := by omega
  have hlen1 : s1.mem.length = s.mem.length + bs.length := by
    rw [hmem1]; simp; omega
  obtain ⟨s2, h2, hmem2, -, -, -⟩ := delmem_ok s1 offset (offset + (bs.length : Int) - 1) yf h0
    (by simp only [State.mem_len]; omega) (by omega) (by omega)
  have hfin : s2.mem = s.mem := by
    rw [hmem2, hmem1]
    have e1 : (offset + (bs.length : Int) - 1 + 1).toNat = offset.toNat + bs.length := by omega
    have ht : (List.take offset.toNat s.mem).length = offset.toNat := by simp; omega
    rw [e1, List.append_assoc, List.take_append_of_le_length (by omega), List.take_take,
      min_self]
    rw [List.drop_append_eq_append_drop, List.drop_append_eq_append_drop]
    rw [List.drop_eq_nil_of_le (by omega), ht, List.drop_eq_nil_of_le (by omega)]
    simp
  exact ⟨s1, s2, h1, h2, hfin, by rw [hfin]⟩

/-- Witness of C2 (amended): `[7, 8]` inserted at offset 1 of `[1, 2, 3]`
and deleted again. -/
theorem insmem_delmem_roundtrip_witness :
    ∃ s1 s2, insmem (State.ofBytes [1, 2, 3] 4096) 1 [7, 8] = .ok s1 ∧
      delmem s1 1 (1 + (([7, 8] : List Byte).length : Int) - 1) true = .ok s2 ∧
      s2.mem = (State.ofBytes [1, 2, 3] 4096).mem ∧
      s2.mem.length = (State.ofBytes [1, 2, 3] 4096).mem.length :=
  insmem_delmem_roundtrip (State.ofBytes [1, 2, 3] 4096) 1 [7, 8] true (by decide) (by decide)
    (by decide) (by decide)


set_option maxRecDepth 100000 in
/-- C3. For every buffer (of a length within the memory ceiling) and every
range with `0 <= start < length` and `start <= end` that ends below the
memory ceiling, also when `end` lies at or beyond the buffer length,
`delmem(start, end, yank = true)` followed by `insmem(start, clip register)`
returns and leaves the buffer content and length equal to the original.
With an end far beyond the buffer the delete does not return: the yank asks
for a clip register of `end - start + 1` bytes, so on `01 02 03 04 05` the
call `delmem(3, 2^48, true)` ends with the allocation failure and
`delmem(3, 2^63 - 2, true)` overflows the doubling of the capacity. -/
theorem delmem_insmem_roundtrip (s : State) (start «end» : Int) (h0 : 0 ≤ start)
    (hs : start < s.mem_len) (he : start ≤ «end») (hc : s.mem_len ≤ MAX_MEM_SIZE)
    (hend : «end» < MAX_MEM_SIZE) :
    (∃ s1 s2, delmem s start «end» true = .ok s1 ∧ insmem s1 start s1.yank = .ok s2 ∧
      s2.mem = s.mem ∧ s2.mem.length = s.mem.length) ∧
    delmem (State.ofBytes [1, 2, 3, 4, 5] 4096) 3 (2 ^ 48) true = .error Fault.yankAlloc ∧
    delmem (State.ofBytes [1, 2, 3, 4, 5] 4096) 3 (2 ^ 63 - 2) true
      = .error Fault.overflow := by
  refine ⟨?_, rfl, rfl⟩
  obtain ⟨s1, h1, hmem1, hyank1, -, -⟩ := delmem_ok s start «end» true h0 hs he (by omega)
  simp only [State.mem_len, if_true] at hs hc hyank1
  have hy : s1.yank.length = min («end» - start + 1).toNat (s.mem.length - start.toNat) := by
    rw [hyank1]; simp
  have hm : s1.mem.length = start.toNat + (s.mem.length - («end» + 1).toNat) := by
    rw [hmem1]; simp; omega
  obtain ⟨s2, h2, hmem2, -, -⟩ := insmem_ok s1 start s1.yank h0
    (by simp only [State.mem_len]; omega)
    (by intro h; rw [h] at hy; simp at hy; omega)
    (by simp only [State.mem_len]; omega)
  have hfin : s2.mem = s.mem := by
    rw [hmem2, hmem1, hyank1]
    have ht : (List.take start.toNat s.mem).length = start.toNat := by simp; omega
    have e1 : («end» + 1).toNat = start.toNat + («end» - start + 1).toNat := by omega
    rw [take_take_append _ _ _ (by omega), drop_take_append _ _ _ (by omega), e1,
      ← List.drop_drop, List.append_assoc, List.take_append_drop, List.take_append_drop]
  exact ⟨s1, s2, h1, h2, hfin, by rw [hfin]⟩

/-- Witness of C3: the range `[3, 9]` of a five-byte buffer, whose end lies
beyond the buffer. -/
theorem delmem_insmem_roundtrip_witness :
    ∃ s1 s2, delmem (State.ofBytes [1, 2, 3, 4, 5] 4096) 3 9 true = .ok s1 ∧
      insmem s1 3 s1.yank = .ok s2 ∧
      s2.mem = (State.ofBytes [1, 2, 3, 4, 5] 4096).mem ∧
      s2.mem.length = (State.ofBytes [1, 2, 3, 4, 5] 4096).mem.length :=
  (delmem_insmem_roundtrip (State.ofBytes [1, 2, 3, 4, 5] 4096) 3 9 (by decide) (by decide)
    (by decide) (by decide) (by decide)).1

/-- C4. For every buffer and every range with `start >= length` or
`end < start`, `delmem(start, end, yf)` reports "Invalid range." and leaves
the buffer content, the buffer length, the clip register and the
modified / unsaved-change flags unchanged. -/
theorem delmem_invalid_range (s : State) (start «end» : Int) (yf : Bool)
    (h : start ≥ s.mem_len ∨ «end» < start) :
    ∃ s', delmem s start «end» yf = .ok s' ∧
      s'.out = s.out ++ [Msg.err "Invalid range."] ∧
      s'.mem = s.mem ∧ s'.mem.length = s.mem.length ∧ s'.yank = s.yank ∧
      s'.modified = s.modified ∧ s'.lastchange = s.lastchange := by
  unfold delmem
  rw [if_pos (by omega)]
  exact ⟨_, rfl, rfl, rfl, rfl, rfl, rfl, rfl⟩

/-- Witness of C4: a delete that starts at the length of the buffer. -/
theorem delmem_invalid_range_witness :
    ∃ s', delmem (State.ofBytes [1, 2, 3] 4096) 3 5 true = .ok s' ∧
      s'.out = (State.ofBytes [1, 2, 3] 4096).out ++ [Msg.err "Invalid range."] ∧
      s'.mem = (State.ofBytes [1, 2, 3] 4096).mem ∧
      s'.mem.length = (State.ofBytes [1, 2, 3] 4096).mem.length ∧
      s'.yank = (State.ofBytes [1, 2, 3] 4096).yank ∧
      s'.modified = (State.ofBytes [1, 2, 3] 4096).modified ∧
      s'.lastchange = (State.ofBytes [1, 2, 3] 4096).lastchange :=
  delmem_invalid_range (State.ofBytes [1, 2, 3] 4096) 3 5 true (Or.inl (by decide))

end Bi

/-! ## Marks under insert and delete -/

namespace Bi

theorem ensure_mem_capacity_frame {s s1 : State} {needed : Int}
    (h : ensure_mem_capacity s needed = .ok s1) :
    s1.mem = s.mem ∧ s1.yank = s.yank ∧ s1.mark = s.mark := by
  unfold ensure_mem_capacity at h
  split at h
  · cases h
  · split at h <;> (cases h; exact ⟨rfl, rfl, rfl⟩)

/-- No result of `insmem` has a mark table other than the one it started
from. -/
theorem insmem_mark {s s' : State} {start : Int} {mem2 : List Byte}
    (h : insmem s start mem2 = .ok s') : s'.mark = s.mark := by
  unfold insmem at h
  dsimp only at h
  split at h
  · cases h; rfl
  · cases hE : ensure_mem_capacity s (s.mem_len + (mem2.length : Int)) with
    | error e => rw [hE] at h; cases h
    | ok s1 =>
      rw [hE] at h
      simp only [bind, Except.bind] at h
      have hm := (ensure_mem_capacity_frame hE).2.2
      split at h <;> split at h <;> first | (cases h; done) | (cases h; exact hm)

theorem yankmem_mark {s s' : State} {start «end» : Int}
    (h : yankmem s start «end» = .ok s') : s'.mark = s.mark := by
  obtain ⟨y, cap, o, rfl⟩ := yankmem_frame h
  rfl

/-- No result of `delmem` has a mark table other than the one it started
from. -/
theorem delmem_mark {s s' : State} {start «end» : Int} {yf : Bool}
    (h : delmem s start «end» yf = .ok s') : s'.mark = s.mark := by
  unfold delmem at h
  dsimp only at h
  split at h
  · cases h; rfl
  · split at h
    · cases h
    · cases yf with
      | false =>
        simp only [bind, Except.bind, Bool.false_eq_true, if_false] at h
        split_ifs at h <;> first | (cases h; done) | (cases h; rfl)
      | true =>
        cases hY : yankmem s start «end» with
        | error e => simp only [hY, bind, Except.bind, if_true] at h; cases h
        | ok y =>
          have hym : y.mark = s.mark := yankmem_mark hY
          simp only [hY, bind, Except.bind, if_true] at h
          split_ifs at h <;> first | (cases h; done) | (cases h; exact hym)

/-- C5 as stated fails on `bi.c`: with mark `a` set to offset 5 in a ten-byte
buffer, inserting one byte at offset 2 leaves the mark at 5, not at 6. -/
theorem insmem_mark_not_rebased :
    ∃ s', insmem (cmd_m (State.ofBytes [0, 1, 2, 3, 4, 5, 6, 7, 8, 9] 4096) 5 'a') 2 [0xAA]
        = .ok s' ∧
      s'.mem = [0, 1, 0xAA, 2, 3, 4, 5, 6, 7, 8, 9] ∧
      markOf s' 'a' = 5 ∧ markOf s' 'a' ≠ 5 + 1 := by
  refine ⟨_, rfl, ?_, ?_, ?_⟩ <;> decide

/-- C5, amended. `bi.c` does not rebase marks: whatever `insmem` and the
`P`, `R`, `I`, `C` commands built on it return, the mark table is the one
they started from, so a mark set to `X` still reads `X` after an insert of
`N >= 1` bytes at any offset; and an insert at an offset inside the buffer
or at its end, within the memory ceiling, does return. -/
theorem insert_keeps_marks (s : State) (x : Int) (bs : List Byte) :
    (∀ s', insmem s x bs = .ok s' → s'.mark = s.mark) ∧
    (∀ s', cmd_P s x = .ok s' → s'.mark = s.mark) ∧
    (∀ s', cmd_R s x bs = .ok s' → s'.mark = s.mark) ∧
    (∀ xf2 s', cmd_I s x xf2 bs = .ok s' → s'.mark = s.mark) ∧
    (∀ a b s', cmd_C s a b x = .ok s' → s'.mark = s.mark) ∧
    (0 ≤ x → x ≤ s.mem_len → bs ≠ [] → s.mem_len + (bs.length : Int) ≤ MAX_MEM_SIZE →
      ∃ s', insmem s x bs = .ok s') := by
  refine ⟨fun s' h => insmem_mark h, ?_, ?_, ?_, ?_, ?_⟩
  · intro s' h
    unfold cmd_P at h
    split at h
    · cases hI : insmem s x s.yank with
      | error e => rw [hI] at h; cases h
      | ok s1 =>
        have hm : s1.mark = s.mark := insmem_mark hI
        rw [hI] at h
        cases h
        simpa using hm
    · cases h; rfl
  · intro s' h
    unfold cmd_R at h
    cases hI : insmem s x bs with
    | error e => rw [hI] at h; cases h
    | ok s1 =>
      have hm : s1.mark = s.mark := insmem_mark hI
      rw [hI] at h
      cases h
      simpa using hm
  · intro xf2 s' h
    unfold cmd_I at h
    split at h
    · cases h; rfl
    · cases hI : insmem s x bs with
      | error e => rw [hI] at h; cases h
      | ok s1 =>
        have hm : s1.mark = s.mark := insmem_mark hI
        rw [hI] at h
        cases h
        simpa using hm
  · intro a b s' h
    unfold cmd_C at h
    cases hY : yankmem s a b with
    | error e => rw [hY] at h; cases h
    | ok y =>
      have hym : y.mark = s.mark := yankmem_mark hY
      rw [hY] at h
      simp only [bind, Except.bind] at h
      cases hI : insmem y x (redmem s a b) with
      | error e => rw [hI] at h; cases h
      | ok s1 =>
        have hm : s1.mark = y.mark := insmem_mark hI
        rw [hI] at h
        cases h
        simp [hm, hym]
  · intro h0 hx hne hc
    obtain ⟨s', h, -⟩ := insmem_ok s x bs h0 hx hne hc
    exact ⟨s', h⟩

/-- Witness of C5 (amended): the insert of the counterexample returns, and
the mark table after it is the one before it. -/
theorem insert_keeps_marks_witness :
    ∃ s', insmem (cmd_m (State.ofBytes [0, 1, 2, 3, 4, 5, 6, 7, 8, 9] 4096) 5 'a') 2 [0xAA]
        = .ok s' ∧
      s'.mark = (cmd_m (State.ofBytes [0, 1, 2, 3, 4, 5, 6, 7, 8, 9] 4096) 5 'a').mark :=
  let h := insert_keeps_marks (cmd_m (State.ofBytes [0, 1, 2, 3, 4, 5, 6, 7, 8, 9] 4096) 5 'a')
    2 [0xAA]
  let ⟨s', hs'⟩ := h.2.2.2.2.2 (by decide) (by decide) (by decide) (by decide)
  ⟨s', hs', h.1 s' hs'⟩

/-- C6 as stated fails on `bi.c`: with mark `a` set to offset 8 and mark `b`
set to offset 3 in a ten-byte buffer, deleting `[2, 4]` leaves mark `a` at 8
(not 8 - 3 = 5) and mark `b` at 3 (not clamped to 2). -/
theorem delmem_mark_not_rebased :
    ∃ s', delmem (cmd_m (cmd_m (State.ofBytes [0, 1, 2, 3, 4, 5, 6, 7, 8, 9] 4096) 8 'a') 3 'b')
        2 4 true = .ok s' ∧
      s'.mem = [0, 1, 5, 6, 7, 8, 9] ∧
      markOf s' 'a' = 8 ∧ markOf s' 'a' ≠ 8 - (4 - 2 + 1) ∧
      markOf s' 'b' = 3 ∧ markOf s' 'b' ≠ 2 := by
  refine ⟨_, rfl, ?_, ?_, ?_, ?_, ?_⟩ <;> decide

/-- C6, amended. `bi.c` does not rebase marks: whatever `delmem` and the `d`
command return, the mark table is the one they started from, so every mark
(above the range, inside it or below it) keeps its value; and a delete of a
range that starts inside the buffer and ends below the memory ceiling does
return. -/
theorem delete_keeps_marks (s : State) (start «end» : Int) (yf : Bool) :
    (∀ s', delmem s start «end» yf = .ok s' → s'.mark = s.mark) ∧
    (∀ s', cmd_d s start «end» = .ok s' → s'.mark = s.mark) ∧
    (0 ≤ start → start < s.mem_len → start ≤ «end» → «end» < MAX_MEM_SIZE →
      (∃ s', delmem s start «end» yf = .ok s') ∧ ∃ s', cmd_d s start «end» = .ok s') := by
  refine ⟨fun s' h => delmem_mark h, ?_, ?_⟩
  · intro s' h
    unfold cmd_d at h
    cases hD : delmem s start «end» true with
    | error e => rw [hD] at h; cases h
    | ok s1 =>
      have hm : s1.mark = s.mark := delmem_mark hD
      rw [hD] at h
      cases h
      simpa using hm
  · intro h0 hs he hend
    obtain ⟨s1, h1, -⟩ := delmem_ok s start «end» yf h0 hs he (by omega)
    obtain ⟨s2, h2, -⟩ := delmem_ok s start «end» true h0 hs he (by omega)
    refine ⟨⟨s1, h1⟩, ?_⟩
    unfold cmd_d
    rw [h2]
    exact ⟨_, rfl⟩

/-- Witness of C6 (amended): the delete of the counterexample returns, and
the mark table after it is the one before it. -/
theorem delete_keeps_marks_witness :
    ∃ s', delmem (cmd_m (cmd_m (State.ofBytes [0, 1, 2, 3, 4, 5, 6, 7, 8, 9] 4096) 8 'a') 3 'b')
        2 4 true = .ok s' ∧
      s'.mark =
        (cmd_m (cmd_m (State.ofBytes [0, 1, 2, 3, 4, 5, 6, 7, 8, 9] 4096) 8 'a') 3 'b').mark :=
  let h := delete_keeps_marks
    (cmd_m (cmd_m (State.ofBytes [0, 1, 2, 3, 4, 5, 6, 7, 8, 9] 4096) 8 'a') 3 'b') 2 4 true
  let ⟨s', hs'⟩ := (h.2.2 (by decide) (by decide) (by decide) (by decide)).1
  ⟨s', hs', h.1 s' hs'⟩

end Bi

/-! ## Moving a range -/

namespace Bi

theorem redmem_length (s : State) (start «end» : Int) :
    (redmem s start «end»).length = («end» - start + 1).toNat := by
  simp [redmem]

/-- The byte `redmem` delivers for offset `start + k` is the byte of the
buffer there, `0` past its end. -/
theorem redmem_getD (s : State) (start «end» : Int) (k : Nat) (h0 : 0 ≤ start)
    (hk : k < («end» - start + 1).toNat) :
    (redmem s start «end»).getD k 0 = s.mem.getD (start.toNat + k) 0 := by
  unfold redmem
  rw [List.getD_eq_getElem?_getD, List.getElem?_map, List.getElem?_range hk]
  simp only [Option.map_some', Option.getD_some, State.mem_len]
  split
  · congr 1; omega
  · rw [List.getD_eq_default _ _ (by omega)]

/-- Inside the buffer `redmem` is the slice. -/
theorem redmem_inside (s : State) (start «end» : Int) (h0 : 0 ≤ start) (he : start ≤ «end»)
    (hl : «end» < s.mem_len) :
    redmem s start «end» = (s.mem.drop start.toNat).take («end» - start + 1).toNat := by
  simp only [State.mem_len] at hl
  apply List.ext_getElem
  · rw [redmem_length]; simp; omega
  · intro k h1 h2
    rw [redmem_length] at h1
    have := redmem_getD s start «end» k h0 h1
    rw [List.getD_eq_getElem?_getD, List.getD_eq_getElem?_getD,
      List.getElem?_eq_getElem (by rw [redmem_length]; exact h1),
      List.getElem?_eq_getElem (by omega)] at this
    simp only [Option.getD_some] at this
    rw [this]
    simp

theorem readmem_eq_getD (s : State) (i : Nat) :
    readmem s (i : Int) = ((s.mem.getD i 0).val : Int) := by
  unfold readmem
  simp only [State.mem_len]
  split
  · rw [List.getD_eq_default _ _ (by omega)]; rfl
  · simp

/-- An overwrite strictly past the end of the buffer appends the zero fill
and the bytes. -/
theorem ovwmem_past (s : State) (start : Int) (mem0 : List Byte) (hs : s.mem_len < start)
    (hne : mem0 ≠ []) (hc : start + (mem0.length : Int) ≤ MAX_MEM_SIZE) :
    ∃ s', ovwmem s start mem0 = .ok s' ∧
      s'.mem = s.mem ++ List.replicate (start - s.mem_len).toNat (0 : Byte) ++ mem0 ∧
      s'.yank = s.yank ∧ s'.mark = s.mark := by
  obtain ⟨cap, hcap, hle⟩ := ensure_mem_capacity_ok s _ hc
  have hpos : 0 < mem0.length := List.length_pos.mpr hne
  unfold ovwmem
  simp only [State.mem_len] at *
  rw [if_neg (by omega), hcap]
  simp only [bind, Except.bind]
  rw [if_neg (by omega), if_pos (by omega), if_pos (by omega)]
  refine ⟨_, rfl, ?_, rfl, rfl⟩
  show List.take _ _ ++ mem0 ++ List.drop _ _ = _
  rw [List.take_of_length_le (by simp; omega), List.drop_eq_nil_of_le (by simp; omega)]
  simp

theorem movmem_after (s : State) (start «end» dest : Int) (h0 : 0 ≤ start)
    (he : start ≤ «end») (hd : «end» < dest) (hl : dest ≤ s.mem_len)
    (hc : s.mem_len ≤ MAX_MEM_SIZE) :
    ∃ s', movmem s start «end» dest = .ok (s', dest) ∧
      s'.mem = (cut s start «end»).take (dest - («end» - start + 1)).toNat
        ++ redmem s start «end»
        ++ (cut s start «end»).drop (dest - («end» - start + 1)).toNat ∧
      s'.yank = (s.mem.drop start.toNat).take («end» - start + 1).toNat ∧
      s'.mark = s.mark := by
  obtain ⟨y, hy, hymem, hyyank, hymark, -⟩ :=
    yankmem_ok s start «end» h0 (by omega) he (by simp only [State.mem_len] at *; omega)
  obtain ⟨s2, h2, hmem2, hyank2, hmark2, -⟩ :=
    delmem_ok y start «end» false h0 (by simp only [State.mem_len, hymem] at *; omega) he
      (by simp only [State.mem_len] at *; omega)
  simp only [State.mem_len] at hl hc
  have hlen2 : s2.mem.length = start.toNat + (s.mem.length - («end» + 1).toNat) := by
    rw [hmem2, hymem]; simp; omega
  obtain ⟨s3, h3, hmem3, hyank3, hmark3⟩ := insmem_ok s2 (dest - («end» - start + 1))
    (redmem s start «end») (by omega) (by simp only [State.mem_len]; omega)
    (by intro h; have := redmem_length s start «end»; rw [h] at this; simp at this; omega)
    (by rw [redmem_length]; simp only [State.mem_len]; omega)
  refine ⟨s3, ?_, ?_, ?_, ?_⟩
  · unfold movmem
    simp only [State.mem_len]
    rw [if_neg (by omega), if_neg (by omega), hy]
    simp only [bind, Except.bind]
    rw [h2]
    simp only []
    rw [if_neg (by omega), if_pos (by omega), h3]
    simp only [redmem_length]
    congr 2
    omega
  · rw [hmem3, hmem2, hymem]; rfl
  · rw [hyank3, hyank2, hyyank]; simp
  · rw [hmark3, hmark2, hymark]


theorem cut_length (s : State) (start «end» : Int) (hs : start < s.mem_len) :
    (cut s start «end»).length = start.toNat + (s.mem.length - («end» + 1).toNat) := by
  simp only [State.mem_len] at hs
  simp [cut]; omega

theorem movmem_before (s : State) (start «end» dest : Int) (h0 : 0 ≤ dest)
    (hd : dest < start) (hs : start < s.mem_len) (he : start ≤ «end»)
    (hc : s.mem_len ≤ MAX_MEM_SIZE) (hc2 : «end» + 1 ≤ MAX_MEM_SIZE) :
    ∃ s', movmem s start «end» dest = .ok (s', dest + («end» - start + 1)) ∧
      s'.mem = (cut s start «end»).take dest.toNat ++ redmem s start «end»
        ++ (cut s start «end»).drop dest.toNat ∧
      s'.mark = s.mark := by
  obtain ⟨y, hy, hymem, hyyank, hymark, -⟩ :=
    yankmem_ok s start «end» (by omega) hs he (by simp only [State.mem_len] at *; omega)
  obtain ⟨s2, h2, hmem2, hyank2, hmark2, -⟩ :=
    delmem_ok y start «end» false (by omega) (by simp only [State.mem_len, hymem] at *; omega) he
      (by simp only [State.mem_len] at *; omega)
  have hcl := cut_length s start «end» hs
  simp only [State.mem_len] at hs hc
  have hmem2c : s2.mem = cut s start «end» := by rw [hmem2, hymem]; rfl
  obtain ⟨s3, h3, hmem3, hyank3, hmark3⟩ := insmem_ok s2 dest
    (redmem s start «end») h0 (by simp only [State.mem_len, hmem2c]; omega)
    (by intro h; have := redmem_length s start «end»; rw [h] at this; simp at this; omega)
    (by rw [redmem_length]; simp only [State.mem_len, hmem2c]; omega)
  refine ⟨s3, ?_, ?_, ?_⟩
  · unfold movmem
    simp only [State.mem_len]
    rw [if_neg (by omega), if_neg (by omega), hy]
    simp only [bind, Except.bind]
    rw [h2]
    simp only []
    rw [if_neg (by omega), if_neg (by omega), h3]
    simp only [redmem_length]
    congr 2
    omega
  · rw [hmem3, hmem2c]
  · rw [hmark3, hmark2, hymark]

theorem movmem_past (s : State) (start «end» dest : Int) (h0 : 0 ≤ start)
    (hs : start < s.mem_len) (he : start ≤ «end») (hed : «end» < dest)
    (hd : s.mem_len < dest) (hc : dest + («end» - start + 1) ≤ MAX_MEM_SIZE) :
    ∃ s', movmem s start «end» dest = .ok (s', dest + («end» - start + 1)) ∧
      s'.mem = cut s start «end»
        ++ List.replicate (dest - ((cut s start «end»).length : Int)).toNat (0 : Byte)
        ++ redmem s start «end» ∧
      s'.mark = s.mark := by
  obtain ⟨y, hy, hymem, hyyank, hymark, -⟩ :=
    yankmem_ok s start «end» h0 hs he (by simp only [State.mem_len] at *; omega)
  obtain ⟨s2, h2, hmem2, hyank2, hmark2, -⟩ :=
    delmem_ok y start «end» false h0 (by simp only [State.mem_len, hymem] at *; omega) he
      (by simp only [State.mem_len] at *; omega)
  have hcl := cut_length s start «end» hs
  simp only [State.mem_len] at hs hd
  have hmem2c : s2.mem = cut s start «end» := by rw [hmem2, hymem]; rfl
  obtain ⟨s3, h3, hmem3, hyank3, hmark3⟩ := ovwmem_past s2 dest
    (redmem s start «end») (by simp only [State.mem_len, hmem2c]; omega)
    (by intro h; have := redmem_length s start «end»; rw [h] at this; simp at this; omega)
    (by rw [redmem_length]; omega)
  refine ⟨s3, ?_, ?_, ?_⟩
  · unfold movmem
    simp only [State.mem_len]
    rw [if_neg (by omega), if_neg (by omega), hy]
    simp only [bind, Except.bind]
    rw [h2]
    simp only []
    rw [if_pos (by omega), h3]
    simp only [redmem_length]
    congr 2
    omega
  · rw [hmem3, State.mem_len, hmem2c]
  · rw [hmark3, hmark2, hymark]

/-- A byte of a sequence spliced into the buffer is read back at its
offset. -/
theorem readmem_splice (s : State) (P m Q : List Byte) (h : s.mem = P ++ m ++ Q) (k : Nat)
    (hk : k < m.length) :
    readmem s ((P.length : Int) + (k : Int)) = ((m.getD k 0).val : Int) := by
  have : (P.length : Int) + (k : Int) = ((P.length + k : Nat) : Int) := by push_cast; rfl
  rw [this, readmem_eq_getD, h, List.append_assoc]
  congr 2
  rw [List.getD_eq_getElem?_getD, List.getD_eq_getElem?_getD,
    List.getElem?_append_right (by omega), Nat.add_sub_cancel_left,
    List.getElem?_append_left hk]

/-- C7. For every buffer of length `L` (within the memory ceiling) and every
`0 <= start <= end < dest <= L`, `movmem(start, end, dest)` returns `dest`,
yields the buffer `old[0,start) ++ old[end+1,dest) ++ old[start,end] ++
old[dest,L)` and keeps the length `L`. -/
theorem movmem_forward (s : State) (start «end» dest : Int) (h0 : 0 ≤ start)
    (he : start ≤ «end») (hd : «end» < dest) (hl : dest ≤ s.mem_len)
    (hc : s.mem_len ≤ MAX_MEM_SIZE) :
    ∃ s', movmem s start «end» dest = .ok (s', dest) ∧
      s'.mem = s.mem.take start.toNat
        ++ (s.mem.drop («end» + 1).toNat).take (dest - «end» - 1).toNat
        ++ (s.mem.drop start.toNat).take («end» - start + 1).toNat
        ++ s.mem.drop dest.toNat ∧
      s'.mem.length = s.mem.length := by
  obtain ⟨s', hmov, hmem, -, -⟩ := movmem_after s start «end» dest h0 he hd hl hc
  simp only [State.mem_len] at hl hc
  have hfin : s'.mem = s.mem.take start.toNat
        ++ (s.mem.drop («end» + 1).toNat).take (dest - «end» - 1).toNat
        ++ (s.mem.drop start.toNat).take («end» - start + 1).toNat
        ++ s.mem.drop dest.toNat := by
    rw [hmem, redmem_inside s start «end» h0 he (by simp only [State.mem_len]; omega)]
    have ht : (List.take start.toNat s.mem).length = start.toNat := by simp; omega
    have e1 : (dest - («end» - start + 1)).toNat - start.toNat = (dest - «end» - 1).toNat := by
      omega
    have e2 : («end» + 1).toNat + (dest - «end» - 1).toNat = dest.toNat := by omega
    have hA : List.take (dest - («end» - start + 1)).toNat (cut s start «end»)
        = s.mem.take start.toNat
          ++ (s.mem.drop («end» + 1).toNat).take (dest - «end» - 1).toNat := by
      unfold cut
      have hC : List.take (dest - («end» - start + 1)).toNat (List.take start.toNat s.mem)
          = List.take start.toNat s.mem := List.take_of_length_le (by rw [ht]; omega)
      rw [List.take_append_eq_append_take, ht, e1, hC]
    have hB : List.drop (dest - («end» - start + 1)).toNat (cut s start «end»)
        = s.mem.drop dest.toNat := by
      unfold cut
      have hC : List.drop (dest - («end» - start + 1)).toNat (List.take start.toNat s.mem)
          = [] := List.drop_eq_nil_of_le (by rw [ht]; omega)
      rw [List.drop_append_eq_append_drop, ht, e1, hC, List.nil_append, List.drop_drop, e2]
    rw [hA, hB]
  refine ⟨s', hmov, hfin, ?_⟩
  rw [hfin]
  simp
  omega

/-- Witness of C7, the instance the claim names: moving `[2, 4]` to 10 in the
20-byte buffer `0, 1, ..., 19` shifts the old bytes `[5, 9]` left by 3,
places the moved bytes at offsets 7..9 and returns 10. -/
theorem movmem_forward_witness :
    ∃ s', movmem (State.ofBytes
        [0, 1, 2, 3, 4, 5, 6, 7, 8, 9, 10, 11, 12, 13, 14, 15, 16, 17, 18, 19] 4096) 2 4 10
        = .ok (s', 10) ∧
      s'.mem = [0, 1, 5, 6, 7, 8, 9, 2, 3, 4, 10, 11, 12, 13, 14, 15, 16, 17, 18, 19] ∧
      s'.mem.length = 20 :=
  let ⟨s', h1, h2, h3⟩ := movmem_forward (State.ofBytes
    [0, 1, 2, 3, 4, 5, 6, 7, 8, 9, 10, 11, 12, 13, 14, 15, 16, 17, 18, 19] 4096) 2 4 10
    (by decide) (by decide) (by decide) (by decide) (by decide)
  ⟨s', h1, h2.trans (by decide), h3⟩


/-- C8. For every buffer and every `0 <= start < length`, `start <= end` and
`dest >= 0` outside `[start, end]` (before the range, after it, or past the
buffer end), all within the memory ceiling, `movmem(start, end, dest)`
returns a value `r` such that the `n = end-start+1` offsets `[r-n, r)` lie
in the resulting buffer and hold the original bytes of `[start, end]`, with
`0` for source offsets past the buffer end. -/
theorem movmem_returns_end_of_moved (s : State) (start «end» dest : Int) (h0 : 0 ≤ start)
    (hs : start < s.mem_len) (he : start ≤ «end») (hd0 : 0 ≤ dest)
    (hout : dest < start ∨ «end» < dest) (hc1 : s.mem_len ≤ MAX_MEM_SIZE)
    (hc2 : «end» + 1 ≤ MAX_MEM_SIZE) (hc3 : dest + («end» - start + 1) ≤ MAX_MEM_SIZE) :
    ∃ s' r, movmem s start «end» dest = .ok (s', r) ∧
      0 ≤ r - («end» - start + 1) ∧ r ≤ s'.mem_len ∧
      ∀ k : Nat, (k : Int) < «end» - start + 1 →
        readmem s' (r - («end» - start + 1) + (k : Int)) = readmem s (start + (k : Int)) := by
  have hcl := cut_length s start «end» hs
  have hrl := redmem_length s start «end»
  -- in each of the three cases the result is `P ++ moved bytes ++ Q`
  have key : ∃ s' r P Q, movmem s start «end» dest = .ok (s', r) ∧
      s'.mem = P ++ redmem s start «end» ++ Q ∧
      (P.length : Int) = r - («end» - start + 1) := by
    rcases hout with hb | ha
    · obtain ⟨s', h1, h2, -⟩ := movmem_before s start «end» dest hd0 hb hs he hc1 hc2
      refine ⟨s', _, _, _, h1, h2, ?_⟩
      simp only [State.mem_len] at hs
      rw [List.length_take, hcl]
      omega
    · by_cases hp : s.mem_len < dest
      · obtain ⟨s', h1, h2, -⟩ := movmem_past s start «end» dest h0 hs he ha hp hc3
        refine ⟨s', _, _, [], h1, by rw [h2, List.append_nil], ?_⟩
        simp only [State.mem_len] at hs hp
        rw [List.length_append, List.length_replicate, hcl]
        omega
      · obtain ⟨s', h1, h2, -⟩ := movmem_after s start «end» dest h0 he ha (by omega) hc1
        refine ⟨s', _, _, _, h1, h2, ?_⟩
        simp only [State.mem_len] at hs hp
        rw [List.length_take, hcl]
        omega
  obtain ⟨s', r, P, Q, hmov, hmem, hP⟩ := key
  refine ⟨s', r, hmov, by omega, ?_, ?_⟩
  · simp only [State.mem_len, hmem, List.length_append, hrl]
    push_cast
    omega
  · intro k hk
    have hk' : k < (redmem s start «end»).length := by rw [hrl]; omega
    rw [← hP, readmem_splice s' P _ Q hmem k hk', redmem_getD s start «end» k h0 (by omega)]
    have : start + (k : Int) = ((start.toNat + k : Nat) : Int) := by push_cast; omega
    rw [this, readmem_eq_getD]

/-- Witness of C8: the range `[3, 6]` of a five-byte buffer, whose end lies
past the buffer, moved in front of offset 1. -/
theorem movmem_returns_end_of_moved_witness :
    ∃ s' r, movmem (State.ofBytes [10, 11, 12, 13, 14] 4096) 3 6 1 = .ok (s', r) ∧
      0 ≤ r - (6 - 3 + 1) ∧ r ≤ s'.mem_len ∧
      ∀ k : Nat, (k : Int) < 6 - 3 + 1 →
        readmem s' (r - (6 - 3 + 1) + (k : Int))
          = readmem (State.ofBytes [10, 11, 12, 13, 14] 4096) (3 + (k : Int)) :=
  movmem_returns_end_of_moved (State.ofBytes [10, 11, 12, 13, 14] 4096) 3 6 1 (by decide)
    (by decide) (by decide) (by decide) (Or.inl (by decide)) (by decide) (by decide) (by decide)

/-- C9. For every buffer and every `start <= dest <= end`,
`movmem(start, end, dest)` returns `end + 1` and changes nothing: the buffer
content, the buffer length and the clip register are as before. -/
theorem movmem_into_itself (s : State) (start «end» dest : Int) (h1 : start ≤ dest)
    (h2 : dest ≤ «end») :
    movmem s start «end» dest = .ok (s, «end» + 1) := by
  unfold movmem
  rw [if_pos ⟨h1, h2⟩]

/-- Witness of C9: moving `[1, 3]` to offset 2. -/
theorem movmem_into_itself_witness :
    movmem (State.ofBytes [10, 11, 12, 13, 14] 4096) 1 3 2
      = .ok (State.ofBytes [10, 11, 12, 13, 14] 4096, 3 + 1) :=
  movmem_into_itself (State.ofBytes [10, 11, 12, 13, 14] 4096) 1 3 2 (by decide) (by decide)

end Bi

/-! ## Shifting single bytes -/

namespace Bi

/-- C10, what the code does. For every offset `x` inside the buffer and every
shift-in bit `c` in `{0, 1}`, `left_shift_byte(x, x, c)` returns and leaves
at `x` the value `2*v + c` when the byte `v` was below `0x80`, and `0` when
it was `0x80` or more: `setmem` is handed `(v << 1) | c` unmasked and stores
`0` for a value above 255. -/
theorem left_shift_byte_single (s : State) (x c : Int) (h0 : 0 ≤ x) (hm : x < MAX_MEM_SIZE)
    (hc : c = 0 ∨ c = 1) :
    ∃ s', left_shift_byte s x x c = .ok s' ∧
      readmem s' x = (if readmem s x < 128 then 2 * readmem s x + c else 0) := by
  have hr := readmem_range s x
  have hbit : (c % 2).toNat < 2 ^ 1 := by omega
  have hdata : ((((readmem s x).toNat <<< 1 ||| (c % 2).toNat : Nat)) : Int)
      = 2 * readmem s x + c := by
    rw [Nat.shiftLeft_eq, Nat.mul_comm, ← Nat.mul_add_lt_is_or hbit]
    push_cast
    omega
  obtain ⟨s', h1, h2⟩ := setmem_readmem_any s x
    (((readmem s x).toNat <<< 1 ||| (c % 2).toNat : Nat) : Int) h0 hm
  refine ⟨s', ?_, ?_⟩
  · unfold left_shift_byte
    have : (x - x + 1).toNat = 1 := by omega
    rw [this]
    simp only [left_shift_byte_loop, bind, Except.bind]
    rw [h1]
  · rw [h2, hdata]
    by_cases hv : readmem s x < 128
    · rw [if_pos hv, if_pos (by omega)]
    · rw [if_neg hv, if_neg (by omega)]

/-- The failing input of C10: the byte `0x81` shifted left with shift-in bit
1 becomes `0`, where `((0x81 << 1) | 1) & 0xFF` is `3`. -/
theorem left_shift_byte_single_witness :
    ∃ s', left_shift_byte (State.ofBytes [0x81] 4096) 0 0 1 = .ok s' ∧
      readmem s' 0 = 0 ∧ (((0x81 <<< 1) ||| 1) &&& 0xFF : Nat) = 3 :=
  let ⟨s', h1, h2⟩ := left_shift_byte_single (State.ofBytes [0x81] 4096) 0 1 (by decide)
    (by decide) (Or.inr rfl)
  ⟨s', h1, h2.trans (by decide), by decide⟩

end Bi

/-! ## The byte store: contents after insert, delete, write, overwrite, copy -/

namespace Bi

/-- `readmem` inside the buffer or past its end, in terms of the list. -/
theorem readmem_nonneg (s : State) (i : Int) (h : 0 ≤ i) :
    readmem s i = (((s.mem.getD i.toNat 0).val : Nat) : Int) := by
  have := readmem_eq_getD s i.toNat
  rwa [Int.toNat_of_nonneg h] at this

/-- What `setmem` leaves in the buffer: the zero fill up to the offset and
the byte (or `0` for a value that is no byte) at the offset. -/
theorem setmem_ok (s : State) (addr data : Int) (h0 : 0 ≤ addr) (hc : addr < MAX_MEM_SIZE) :
    ∃ s' b, setmem s addr data = .ok s' ∧
      s'.mem = (s.mem ++ List.replicate (addr - s.mem_len + 1).toNat (0 : Byte)).set addr.toNat b ∧
      s'.yank = s.yank ∧ s'.mark = s.mark := by
  obtain ⟨cap, hcap, hle⟩ := ensure_mem_capacity_ok s (addr + 1) (by omega)
  unfold setmem
  rw [if_neg (not_lt.mpr h0), hcap]
  simp only [bind, Except.bind]
  rw [if_neg (by simpa using hle)]
  refine ⟨_, (if h : 0 ≤ data ∧ data ≤ 255 then ⟨data.toNat, by omega⟩ else 0), rfl, ?_,
    rfl, rfl⟩
  simp only [State.mem_len]
  by_cases hlen : addr ≥ (s.mem.length : Int)
  · rw [if_pos hlen]
  · rw [if_neg hlen]
    have : (addr - (s.mem.length : Int) + 1).toNat = 0 := by omega
    rw [this]
    simp

/-- What `ovwmem` leaves in the buffer, in one formula for its three cases. -/
theorem ovwmem_ok (s : State) (start : Int) (mem0 : List Byte) (h0 : 0 ≤ start)
    (hne : mem0 ≠ []) (hc : start + (mem0.length : Int) ≤ MAX_MEM_SIZE) :
    ∃ s', ovwmem s start mem0 = .ok s' ∧
      s'.mem = (s.mem ++ List.replicate (start - s.mem_len).toNat (0 : Byte)).take start.toNat
        ++ mem0 ++ s.mem.drop (start.toNat + mem0.length) ∧
      s'.yank = s.yank ∧ s'.mark = s.mark := by
  obtain ⟨cap, hcap, hle⟩ := ensure_mem_capacity_ok s _ hc
  have hpos : 0 < mem0.length := List.length_pos.mpr hne
  unfold ovwmem
  simp only [State.mem_len] at *
  rw [if_neg (by omega), hcap]
  simp only [bind, Except.bind]
  rw [if_neg (by omega)]
  refine ⟨_, rfl, ?_, rfl, rfl⟩
  show List.take _ _ ++ mem0 ++ List.drop _ _ = _
  have e : (start + (mem0.length : Int)).toNat = start.toNat + mem0.length := by omega
  rw [e]
  by_cases h1 : start + (mem0.length : Int) > (s.mem.length : Int)
  · rw [if_pos h1]
    by_cases h2 : start > (s.mem.length : Int)
    · rw [if_pos h2]
      have hD : List.drop (start.toNat + mem0.length) s.mem = [] :=
        List.drop_eq_nil_of_le (by omega)
      have hD' : List.drop (start.toNat + mem0.length)
          (s.mem ++ List.replicate (start - (s.mem.length : Int)).toNat (0 : Byte)) = [] :=
        List.drop_eq_nil_of_le (by simp; omega)
      rw [hD, hD']
    · rw [if_neg h2]
      have : (start - (s.mem.length : Int)).toNat = 0 := by omega
      rw [this]
      simp
  · rw [if_neg h1]
    have : (start - (s.mem.length : Int)).toNat = 0 := by omega
    rw [this]
    simp

/-- The bytes of a buffer that was overwritten at `o` with `bs`: length,
the new bytes, the old bytes beside them, and the zero fill of the gap. -/
theorem ovw_points (old bs new : List Byte) (o : Nat)
    (h : new = (old ++ List.replicate (o - old.length) (0 : Byte)).take o ++ bs
      ++ old.drop (o + bs.length)) :
    new.length = max old.length (o + bs.length) ∧
    (∀ k, k < bs.length → new.getD (o + k) 0 = bs.getD k 0) ∧
    (∀ i, i < old.length → (i < o ∨ o + bs.length ≤ i) → new.getD i 0 = old.getD i 0) ∧
    (∀ i, old.length ≤ i → i < o → new.getD i 0 = 0) := by
  have hP : ((old ++ List.replicate (o - old.length) (0 : Byte)).take o).length = o := by
    simp; omega
  refine ⟨?_, ?_, ?_, ?_⟩
  · rw [h, List.length_append, List.length_append, hP, List.length_drop]
    omega
  · intro k hk
    rw [h, List.append_assoc, List.getD_eq_getElem?_getD, List.getD_eq_getElem?_getD,
      List.getElem?_append_right (by omega), hP, Nat.add_sub_cancel_left,
      List.getElem?_append_left hk]
  · intro i hi hcase
    rw [h, List.getD_eq_getElem?_getD, List.getD_eq_getElem?_getD]
    rcases hcase with hlt | hge
    · rw [List.append_assoc, List.getElem?_append_left (by omega),
        List.getElem?_take_of_lt hlt, List.getElem?_append_left hi]
    · rw [List.getElem?_append_right (by simp; omega), List.getElem?_drop]
      congr 2
      simp
      omega
  · intro i hi hlt
    rw [h, List.getD_eq_getElem?_getD, List.append_assoc,
      List.getElem?_append_left (by omega), List.getElem?_take_of_lt hlt,
      List.getElem?_append_right hi, List.getElem?_replicate, if_pos (by omega)]
    rfl


/-- C16, the case the code gets wrong. `insmem` reserves room for
`mem_len + len2` bytes only; when that fits the allocation, an insert past
the end of the buffer whose last byte lies beyond the allocation writes
outside it instead of yielding `old ++ zeros ++ bs`. -/
theorem insmem_past_end_overflow (s : State) (offset : Int) (bs : List Byte) (hne : bs ≠ [])
    (hfit : s.mem_len + (bs.length : Int) ≤ (s.mem_cap : Int))
    (hcap : (s.mem_cap : Int) ≤ MAX_MEM_SIZE) (hgt : s.mem_len < offset)
    (hover : (s.mem_cap : Int) < offset + (bs.length : Int)) :
    insmem s offset bs = .error Fault.outOfBounds := by
  have hpos : 0 < bs.length := List.length_pos.mpr hne
  have hens : ensure_mem_capacity s (s.mem_len + (bs.length : Int)) = .ok s := by
    unfold ensure_mem_capacity
    rw [if_neg (by omega), if_neg (by omega)]
  unfold insmem
  simp only []
  rw [if_neg (by omega), hens]
  simp only [bind, Except.bind]
  rw [if_pos (by omega), if_pos hover]

/-- The failing input of C16: one byte inserted at offset 5000 of a one-byte
buffer held in a 4096-byte allocation (a one-byte file, then `1388I/x`). -/
theorem insmem_past_end_overflow_witness :
    insmem (State.ofBytes [1] 4096) 5000 [0x78] = .error Fault.outOfBounds :=
  insmem_past_end_overflow (State.ofBytes [1] 4096) 5000 [0x78] (by decide) (by decide)
    (by decide) (by decide) (by decide)

set_option maxRecDepth 100000 in
/-- C17. For every buffer of length `L` and every range with
`0 <= start < L` and `start <= end` that ends below the memory ceiling,
`delmem(start, end, yf)` returns and yields exactly
`old[0,start) ++ old[end+1,L)`, the second part empty when `end >= L-1`; the
length decreases by `min(end, L-1) - start + 1`.  With an end far beyond the
buffer it does not: on `01 02 03 04 05`, `delmem(1, 2^63 - 2, true)`
overflows the doubling of the clip register's capacity, where
`delmem(1, 2^63 - 2, false)` leaves `01`; and the length of `[0, 2^63 - 1]`
overflows with or without the yank. -/
theorem delmem_content (s : State) (start «end» : Int) (yf : Bool) (h0 : 0 ≤ start)
    (hs : start < s.mem_len) (he : start ≤ «end») (hend : «end» < MAX_MEM_SIZE) :
    (∃ s', delmem s start «end» yf = .ok s' ∧
      s'.mem = s.mem.take start.toNat ++ s.mem.drop («end» + 1).toNat ∧
      («end» ≥ s.mem_len - 1 → s.mem.drop («end» + 1).toNat = []) ∧
      s'.mem_len = s.mem_len - (min «end» (s.mem_len - 1) - start + 1)) ∧
    delmem (State.ofBytes [1, 2, 3, 4, 5] 4096) 1 (2 ^ 63 - 2) true
      = .error Fault.overflow ∧
    (∃ s', delmem (State.ofBytes [1, 2, 3, 4, 5] 4096) 1 (2 ^ 63 - 2) false = .ok s' ∧
      s'.mem = [1]) ∧
    delmem (State.ofBytes [1, 2, 3, 4, 5] 4096) 0 (2 ^ 63 - 1) true = .error Fault.overflow ∧
    delmem (State.ofBytes [1, 2, 3, 4, 5] 4096) 0 (2 ^ 63 - 1) false
      = .error Fault.overflow := by
  refine ⟨?_, rfl, ⟨_, rfl, rfl⟩, rfl, rfl⟩
  obtain ⟨s', h1, hmem, -, -, -⟩ := delmem_ok s start «end» yf h0 hs he (by omega)
  simp only [State.mem_len] at *
  refine ⟨s', h1, hmem, ?_, ?_⟩
  · intro hge
    exact List.drop_eq_nil_of_le (by omega)
  · rw [hmem, List.length_append, List.length_take, List.length_drop]
    omega

/-- Witness of C17: `[1, 9]` deleted from a five-byte buffer, the end being
beyond the buffer. -/
theorem delmem_content_witness :
    ∃ s', delmem (State.ofBytes [10, 11, 12, 13, 14] 4096) 1 9 true = .ok s' ∧
      s'.mem = (State.ofBytes [10, 11, 12, 13, 14] 4096).mem.take (1 : Int).toNat
        ++ (State.ofBytes [10, 11, 12, 13, 14] 4096).mem.drop ((9 : Int) + 1).toNat ∧
      ((9 : Int) ≥ (State.ofBytes [10, 11, 12, 13, 14] 4096).mem_len - 1 →
        (State.ofBytes [10, 11, 12, 13, 14] 4096).mem.drop ((9 : Int) + 1).toNat = []) ∧
      s'.mem_len = (State.ofBytes [10, 11, 12, 13, 14] 4096).mem_len
        - (min 9 ((State.ofBytes [10, 11, 12, 13, 14] 4096).mem_len - 1) - 1 + 1) :=
  (delmem_content (State.ofBytes [10, 11, 12, 13, 14] 4096) 1 9 true (by decide) (by decide)
    (by decide) (by decide)).1

/-- C18. For every buffer of length `L`, every offset `>= 0` below the
memory ceiling and every value `b`: `setmem(offset, b)` returns, the length
is then `max(L, offset+1)`, every offset in `[L, offset)` holds `0`, every
offset below `L` other than `offset` holds its previous byte, and the mark
table is unchanged. -/
theorem setmem_frame (s : State) (offset b : Int) (h0 : 0 ≤ offset)
    (hc : offset < MAX_MEM_SIZE) :
    ∃ s', setmem s offset b = .ok s' ∧
      s'.mem_len = max s.mem_len (offset + 1) ∧
      (∀ i : Int, s.mem_len ≤ i → i < offset → readmem s' i = 0) ∧
      (∀ i : Int, 0 ≤ i → i < s.mem_len → i ≠ offset → readmem s' i = readmem s i) ∧
      s'.mark = s.mark := by
  obtain ⟨s', v, h1, hmem, -, hmark⟩ := setmem_ok s offset b h0 hc
  simp only [State.mem_len] at *
  refine ⟨s', h1, ?_, ?_, ?_, hmark⟩
  · rw [hmem, List.length_set, List.length_append, List.length_replicate]
    omega
  · intro i hi hlt
    rw [readmem_nonneg s' i (by omega), hmem, List.getD_eq_getElem?_getD,
      List.getElem?_set_ne (by omega), List.getElem?_append_right (by omega),
      List.getElem?_replicate, if_pos (by omega)]
    rfl
  · intro i hi hlt hne
    rw [readmem_nonneg s' i hi, readmem_nonneg s i hi, hmem, List.getD_eq_getElem?_getD,
      List.getD_eq_getElem?_getD, List.getElem?_set_ne (by omega),
      List.getElem?_append_left (by omega)]

/-- Witness of C18: a write at offset 6 of a three-byte buffer. -/
theorem setmem_frame_witness :
    ∃ s', setmem (State.ofBytes [1, 2, 3] 4096) 6 0x41 = .ok s' ∧
      s'.mem_len = max (State.ofBytes [1, 2, 3] 4096).mem_len (6 + 1) ∧
      (∀ i : Int, (State.ofBytes [1, 2, 3] 4096).mem_len ≤ i → i < 6 → readmem s' i = 0) ∧
      (∀ i : Int, 0 ≤ i → i < (State.ofBytes [1, 2, 3] 4096).mem_len → i ≠ 6 →
        readmem s' i = readmem (State.ofBytes [1, 2, 3] 4096) i) ∧
      s'.mark = (State.ofBytes [1, 2, 3] 4096).mark :=
  setmem_frame (State.ofBytes [1, 2, 3] 4096) 6 0x41 (by decide) (by decide)

/-- The four facts about an overwrite, read through `readmem`. -/
theorem ovwmem_readmem (s s' : State) (o : Int) (bs : List Byte) (h0 : 0 ≤ o)
    (hmem : s'.mem = (s.mem ++ List.replicate (o - s.mem_len).toNat (0 : Byte)).take o.toNat
      ++ bs ++ s.mem.drop (o.toNat + bs.length)) :
    s'.mem_len = max s.mem_len (o + (bs.length : Int)) ∧
    (∀ k : Nat, k < bs.length → readmem s' (o + (k : Int)) = ((bs.getD k 0).val : Int)) ∧
    (∀ i : Int, 0 ≤ i → i < s.mem_len → (i < o ∨ o + (bs.length : Int) ≤ i) →
      readmem s' i = readmem s i) ∧
    (∀ i : Int, s.mem_len ≤ i → i < o → readmem s' i = 0) := by
  have e : (o - s.mem_len).toNat = o.toNat - s.mem.length := by
    simp only [State.mem_len]; omega
  rw [e] at hmem
  obtain ⟨p1, p2, p3, p4⟩ := ovw_points s.mem bs s'.mem o.toNat hmem
  simp only [State.mem_len]
  refine ⟨by omega, ?_, ?_, ?_⟩
  · intro k hk
    rw [readmem_nonneg s' _ (by omega)]
    have : (o + (k : Int)).toNat = o.toNat + k := by omega
    rw [this, p2 k hk]
  · intro i hi hlt hcase
    rw [readmem_nonneg s' i hi, readmem_nonneg s i hi, p3 i.toNat (by omega) (by omega)]
  · intro i hi hlt
    rw [readmem_nonneg s' i (by omega), p4 i.toNat (by omega) (by omega)]
    rfl


/-- C19. For every buffer of length `L`, every offset `>= 0` and every
non-empty byte sequence `bs` of length `n` (with `offset + n` within the
memory ceiling): `ovwmem(offset, bs)` returns, the length is then
`max(L, offset+n)`, offsets `[offset, offset+n)` hold `bs`, every offset
below `L` outside `[offset, offset+n)` holds its previous byte, and any gap
`[L, offset)` holds `0`. -/
theorem ovwmem_frame (s : State) (offset : Int) (bs : List Byte) (h0 : 0 ≤ offset)
    (hne : bs ≠ []) (hc : offset + (bs.length : Int) ≤ MAX_MEM_SIZE) :
    ∃ s', ovwmem s offset bs = .ok s' ∧
      s'.mem_len = max s.mem_len (offset + (bs.length : Int)) ∧
      (∀ k : Nat, k < bs.length → readmem s' (offset + (k : Int)) = ((bs.getD k 0).val : Int)) ∧
      (∀ i : Int, 0 ≤ i → i < s.mem_len → (i < offset ∨ offset + (bs.length : Int) ≤ i) →
        readmem s' i = readmem s i) ∧
      (∀ i : Int, s.mem_len ≤ i → i < offset → readmem s' i = 0) := by
  obtain ⟨s', h1, hmem, -, -⟩ := ovwmem_ok s offset bs h0 hne hc
  exact ⟨s', h1, ovwmem_readmem s s' offset bs h0 hmem⟩

/-- Witness of C19: two bytes written at offset 5 of a three-byte buffer,
leaving a gap of two. -/
theorem ovwmem_frame_witness :
    ∃ s', ovwmem (State.ofBytes [1, 2, 3] 4096) 5 [8, 9] = .ok s' ∧
      s'.mem_len = max (State.ofBytes [1, 2, 3] 4096).mem_len
        (5 + ((([8, 9] : List Byte).length : Nat) : Int)) ∧
      (∀ k : Nat, k < ([8, 9] : List Byte).length →
        readmem s' (5 + (k : Int)) = (((([8, 9] : List Byte).getD k 0).val : Nat) : Int)) ∧
      (∀ i : Int, 0 ≤ i → i < (State.ofBytes [1, 2, 3] 4096).mem_len →
        (i < 5 ∨ 5 + ((([8, 9] : List Byte).length : Nat) : Int) ≤ i) →
        readmem s' i = readmem (State.ofBytes [1, 2, 3] 4096) i) ∧
      (∀ i : Int, (State.ofBytes [1, 2, 3] 4096).mem_len ≤ i → i < 5 → readmem s' i = 0) :=
  ovwmem_frame (State.ofBytes [1, 2, 3] 4096) 5 [8, 9] (by decide) (by decide) (by decide)

/-- C20. For every buffer and every `0 <= start <= end` and `dest >= 0`
(with `dest + n` within the memory ceiling, `n = end-start+1`):
`cpymem(start, end, dest)` returns, the bytes at `[dest, dest+n)` are then
the bytes that were at `[start, end]` before the call (`0` for source
offsets past the end), whether or not source and destination overlap; the
length does not decrease and the bytes below the old length outside
`[dest, dest+n)` are unchanged. -/
theorem cpymem_copies (s : State) (start «end» dest : Int) (h0 : 0 ≤ start)
    (he : start ≤ «end») (hd : 0 ≤ dest) (hc : dest + («end» - start + 1) ≤ MAX_MEM_SIZE) :
    ∃ s', cpymem s start «end» dest = .ok s' ∧
      (∀ k : Nat, (k : Int) < «end» - start + 1 →
        readmem s' (dest + (k : Int)) = readmem s (start + (k : Int))) ∧
      s.mem_len ≤ s'.mem_len ∧
      (∀ i : Int, 0 ≤ i → i < s.mem_len → (i < dest ∨ dest + («end» - start + 1) ≤ i) →
        readmem s' i = readmem s i) := by
  have hrl := redmem_length s start «end»
  have hne : redmem s start «end» ≠ [] := by
    intro h; rw [h] at hrl; simp at hrl; omega
  obtain ⟨s', h1, hmem, -, -⟩ := ovwmem_ok s dest (redmem s start «end») hd hne
    (by rw [hrl]; omega)
  obtain ⟨p1, p2, p3, -⟩ := ovwmem_readmem s s' dest (redmem s start «end») hd hmem
  refine ⟨s', h1, ?_, by omega, ?_⟩
  · intro k hk
    rw [p2 k (by omega), redmem_getD s start «end» k h0 (by omega),
      readmem_nonneg s _ (by omega)]
    have : (start + (k : Int)).toNat = start.toNat + k := by omega
    rw [this]
  · intro i hi hlt hcase
    exact p3 i hi hlt (by rw [hrl]; omega)

/-- Witness of C20: `[0, 2]` copied to offset 1 of a five-byte buffer, source
and destination overlapping. -/
theorem cpymem_copies_witness :
    ∃ s', cpymem (State.ofBytes [1, 2, 3, 4, 5] 4096) 0 2 1 = .ok s' ∧
      (∀ k : Nat, (k : Int) < 2 - 0 + 1 →
        readmem s' (1 + (k : Int)) = readmem (State.ofBytes [1, 2, 3, 4, 5] 4096) (0 + (k : Int))) ∧
      (State.ofBytes [1, 2, 3, 4, 5] 4096).mem_len ≤ s'.mem_len ∧
      (∀ i : Int, 0 ≤ i → i < (State.ofBytes [1, 2, 3, 4, 5] 4096).mem_len →
        (i < 1 ∨ 1 + (2 - 0 + 1) ≤ i) →
        readmem s' i = readmem (State.ofBytes [1, 2, 3, 4, 5] 4096) i) :=
  cpymem_copies (State.ofBytes [1, 2, 3, 4, 5] 4096) 0 2 1 (by decide) (by decide) (by decide)
    (by decide)

end Bi

/-! ## Searching -/

namespace Bi

/-- After `jump(a)` the current position is `a`. -/
theorem fpos_jump (s : State) (a : Int) : fpos (jump s a) = a := by
  unfold fpos jump
  simp only []
  have key : ∀ h : Int, 0 ≤ a - h → a - h < 304 →
      h + (Int.tdiv (a - h) 16 * 16 + Int.tdiv ((a - h) % 16 * 2) 2) = a := by
    intro h h1 h2
    rw [Int.tdiv_eq_ediv h1 (by norm_num), Int.tdiv_eq_ediv (by omega) (by norm_num)]
    omega
  unfold LENONSCR
  split
  · exact key _ (by omega) (by omega)
  · exact key _ (by omega) (by omega)

@[simp] theorem stdmm_smem (s : State) (m : String) : (stdmm s m).smem = s.smem := by
  unfold stdmm; split <;> rfl

@[simp] theorem stdmm_regexpMode (s : State) (m : String) :
    (stdmm s m).regexpMode = s.regexpMode := by
  unfold stdmm; split <;> rfl

@[simp] theorem stdmm_nff (s : State) (m : String) : (stdmm s m).nff = s.nff := by
  unfold stdmm; split <;> rfl

@[simp] theorem stdmm_homeaddr (s : State) (m : String) : (stdmm s m).homeaddr = s.homeaddr := by
  unfold stdmm; split <;> rfl

@[simp] theorem stdmm_curx (s : State) (m : String) : (stdmm s m).curx = s.curx := by
  unfold stdmm; split <;> rfl

@[simp] theorem stdmm_cury (s : State) (m : String) : (stdmm s m).cury = s.cury := by
  unfold stdmm; split <;> rfl

theorem Agree.refl (s : State) : Agree s s := ⟨rfl, rfl, rfl, rfl, rfl, rfl, rfl⟩

theorem Agree.of_stdmm {s t : State} (h : Agree s t) (m : String) : Agree s (stdmm t m) := by
  obtain ⟨h1, h2, h3, h4, h5, h6, h7⟩ := h
  exact ⟨by simp [h1], by simp [h2], by simp [h3], by simp [h4], by simp [h5], by simp [h6],
    by simp [h7]⟩

theorem Agree.of_stdmm_if {s t : State} (h : Agree s t) (c : Prop) [Decidable c] (m : String) :
    Agree s (if c then stdmm t m else t) := by
  split
  · exact h.of_stdmm m
  · exact h

theorem Agree.fpos_eq {s t : State} (h : Agree s t) : fpos t = fpos s := by
  obtain ⟨-, -, -, -, h5, h6, h7⟩ := h
  unfold Bi.fpos
  rw [h5, h6, h7]

theorem Agree.mem_len_eq {s t : State} (h : Agree s t) : t.mem_len = s.mem_len := by
  unfold State.mem_len
  rw [h.1]

theorem hit_from_congr (s t : State) (hm : t.mem = s.mem) (addr : Int) (p : List Byte) :
    ∀ i : Int, hit_from t addr p i = hit_from s addr p i := by
  induction p with
  | nil => intro i; rfl
  | cons b rest ih =>
    intro i
    simp only [hit_from, State.mem_len, hm, ih]

theorem Agree.hit_eq {s t : State} (h : Agree s t) (addr : Int) : hit t addr = hit s addr := by
  unfold Bi.hit
  rw [h.2.1]
  exact hit_from_congr s t h.1 addr _ 0

/-- For an index that is not negative `hit_from` reads inside the buffer and
answers `0` or `1`. -/
theorem hit_from_zero_or_one (s : State) (addr : Int) (p : List Byte) :
    ∀ i : Int, 0 ≤ addr + i → hit_from s addr p i = .ok 0 ∨ hit_from s addr p i = .ok 1 := by
  induction p with
  | nil => intro i _; right; rfl
  | cons b rest ih =>
    intro i hi
    unfold hit_from
    split
    · rw [if_neg (by omega)]
      split
      · exact ih (i + 1) (by omega)
      · left; rfl
    · left; rfl

theorem hit_zero_or_one (s : State) (addr : Int) (h : 0 ≤ addr) :
    hit s addr = .ok 0 ∨ hit s addr = .ok 1 :=
  hit_from_zero_or_one s addr s.smem 0 (by omega)

/-- A non-empty pattern does not match at or past the end of the buffer. -/
theorem hit_past_end (s : State) (addr : Int) (hp : s.smem ≠ []) (h : s.mem_len ≤ addr) :
    hit s addr = .ok 0 := by
  unfold hit
  cases hs : s.smem with
  | nil => exact absurd hs hp
  | cons b rest =>
    unfold hit_from
    rw [if_neg (by omega)]

theorem probe_literal (re : RegexLib) (t : State) (c f : Int) (hre : t.regexpMode = false)
    (hh : hit t c = .ok f) : probe re t c = .ok (t, f) := by
  unfold probe
  rw [hre, hh]
  rfl

theorem searchnext_loop_hit (re : RegexLib) (start : Int) (fuel : Nat) (t : State) (c : Int)
    (hre : t.regexpMode = false) (hh : hit t c = .ok 1) :
    searchnext_loop re start (fuel + 1) t c = some (.ok (jump t c, true)) := by
  unfold searchnext_loop
  rw [probe_literal re t c 1 hre hh]
  rfl

/-- One round of `searchnext` that misses: the next probe offset and the
possible notice, or the end of the scan. -/
theorem searchnext_loop_miss (re : RegexLib) (start : Int) (fuel : Nat) (t : State) (c : Int)
    (hre : t.regexpMode = false) (hh : hit t c = .ok 0) :
    searchnext_loop re start (fuel + 1) t c =
      if c + 1 ≥ t.mem_len then
        if 0 = start then
          some (.ok ((if t.nff then
            stdmm (if t.nff then stdmm t "Search reached to bottom, continuing from top." else t)
              "Not found."
            else t), false))
        else searchnext_loop re start fuel
          (if t.nff then stdmm t "Search reached to bottom, continuing from top." else t) 0
      else
        if c + 1 = start then some (.ok ((if t.nff then stdmm t "Not found." else t), false))
        else searchnext_loop re start fuel t (c + 1) := by
  conv_lhs => unfold searchnext_loop
  rw [probe_literal re t c 0 hre hh]
  simp only []
  rw [if_neg (by decide), if_neg (by decide)]
  by_cases hw : c + 1 ≥ t.mem_len
  · simp only [if_pos hw]
    by_cases hn : t.nff = true
    · simp [hn]
    · simp [hn]
  · simp only [if_neg hw]


theorem ok_zero_ne_one : (Except.ok 0 : Except Fault Int) ≠ .ok 1 := by
  intro h; cases h

/-- The part of a literal `searchnext(fp)` after the wrap: from `c` up to
`fp - 1`. -/
theorem searchnext_second_part (re : RegexLib) (s : State) (fp : Int)
    (hre : s.regexpMode = false) (hfp : fp < s.mem_len)
    (hno1 : ∀ x : Int, fp ≤ x → x < s.mem_len → hit s x = .ok 0) :
    ∀ (d : Nat) (c : Int) (t : State) (fuel : Nat), Agree s t → 0 ≤ c →
      c + (d : Int) + 1 = fp → d + 1 ≤ fuel →
      (∀ x : Int, 0 ≤ x → x < c → hit s x = .ok 0) →
      SearchOutcome s fp (searchnext_loop re fp fuel t c) := by
  intro d
  induction d with
  | zero =>
    intro c t fuel hag hc hd hf hno2
    obtain ⟨fuel', rfl⟩ : ∃ k, fuel = k + 1 := ⟨fuel - 1, by omega⟩
    have htre : t.regexpMode = false := by rw [hag.2.2.1, hre]
    rcases hit_zero_or_one s c hc with h0 | h1
    · rw [searchnext_loop_miss re fp fuel' t c htre (by rw [hag.hit_eq, h0]), hag.mem_len_eq,
        if_neg (by omega), if_pos (by omega)]
      refine Or.inr ⟨_, hag.of_stdmm_if _ _, ?_, rfl⟩
      intro x hx0 hxl
      by_cases hxc : x < c
      · exact hno2 x hx0 hxc
      · by_cases hxe : x = c
        · rw [hxe]; exact h0
        · exact hno1 x (by omega) hxl
    · rw [searchnext_loop_hit re fp fuel' t c htre (by rw [hag.hit_eq, h1])]
      refine Or.inl ⟨c, t, hag, ⟨hc, by omega, h1, Or.inr ⟨by omega, ?_, ?_⟩⟩, rfl⟩
      · intro x hx1 hx2; rw [hno1 x hx1 hx2]; exact ok_zero_ne_one
      · intro x hx1 hx2; rw [hno2 x hx1 hx2]; exact ok_zero_ne_one
  | succ d ih =>
    intro c t fuel hag hc hd hf hno2
    obtain ⟨fuel', rfl⟩ : ∃ k, fuel = k + 1 := ⟨fuel - 1, by omega⟩
    have htre : t.regexpMode = false := by rw [hag.2.2.1, hre]
    rcases hit_zero_or_one s c hc with h0 | h1
    · rw [searchnext_loop_miss re fp fuel' t c htre (by rw [hag.hit_eq, h0]), hag.mem_len_eq,
        if_neg (by omega), if_neg (by push_cast at hd; omega)]
      refine ih (c + 1) t fuel' hag (by omega) (by push_cast at hd ⊢; omega) (by omega) ?_
      intro x hx0 hxl
      by_cases hxc : x < c
      · exact hno2 x hx0 hxc
      · have : x = c := by omega
        rw [this]; exact h0
    · rw [searchnext_loop_hit re fp fuel' t c htre (by rw [hag.hit_eq, h1])]
      refine Or.inl ⟨c, t, hag, ⟨hc, by omega, h1, Or.inr ⟨by omega, ?_, ?_⟩⟩, rfl⟩
      · intro x hx1 hx2; rw [hno1 x hx1 hx2]; exact ok_zero_ne_one
      · intro x hx1 hx2; rw [hno2 x hx1 hx2]; exact ok_zero_ne_one

/-- The part of a literal `searchnext(fp)` before the wrap: from `c` up to
the end of the buffer, then on from offset 0. -/
theorem searchnext_first_part (re : RegexLib) (s : State) (fp : Int)
    (hre : s.regexpMode = false) (h0fp : 0 ≤ fp) (hfp : fp < s.mem_len) :
    ∀ (d : Nat) (c : Int) (t : State) (fuel : Nat), Agree s t → fp ≤ c →
      c + (d : Int) + 1 = s.mem_len → d + 1 + fp.toNat ≤ fuel →
      (∀ x : Int, fp ≤ x → x < c → hit s x = .ok 0) →
      SearchOutcome s fp (searchnext_loop re fp fuel t c) := by
  intro d
  induction d with
  | zero =>
    intro c t fuel hag hc hd hf hno
    obtain ⟨fuel', rfl⟩ : ∃ k, fuel = k + 1 := ⟨fuel - 1, by omega⟩
    have htre : t.regexpMode = false := by rw [hag.2.2.1, hre]
    have hno1 : (∀ x : Int, fp ≤ x → x < s.mem_len → hit s x = .ok 0) ∨ hit s c = .ok 1 := by
      rcases hit_zero_or_one s c (by omega) with h0 | h1
      · left
        intro x hx1 hx2
        by_cases hxc : x < c
        · exact hno x hx1 hxc
        · have : x = c := by omega
          rw [this]; exact h0
      · right; exact h1
    rcases hno1 with hall | h1
    · have h0 : hit s c = .ok 0 := hall c hc (by omega)
      rw [searchnext_loop_miss re fp fuel' t c htre (by rw [hag.hit_eq, h0]), hag.mem_len_eq,
        if_pos (by omega)]
      by_cases hz : 0 = fp
      · rw [if_pos hz]
        refine Or.inr ⟨_, ?_, ?_, rfl⟩
        · split
          · exact (hag.of_stdmm _).of_stdmm _
          · exact hag
        · intro x hx0 hxl
          exact hall x (by omega) hxl
      · rw [if_neg hz]
        obtain ⟨k, hk⟩ : ∃ k : Nat, (0 : Int) + (k : Int) + 1 = fp := ⟨fp.toNat - 1, by omega⟩
        exact searchnext_second_part re s fp hre hfp hall k 0 _ fuel' (hag.of_stdmm_if _ _)
          (le_refl 0) hk (by omega) (by intro x hx1 hx2; omega)
    · rw [searchnext_loop_hit re fp fuel' t c htre (by rw [hag.hit_eq, h1])]
      refine Or.inl ⟨c, t, hag, ⟨by omega, by omega, h1, Or.inl ⟨hc, ?_⟩⟩, rfl⟩
      intro x hx1 hx2; rw [hno x hx1 hx2]; exact ok_zero_ne_one
  | succ d ih =>
    intro c t fuel hag hc hd hf hno
    obtain ⟨fuel', rfl⟩ : ∃ k, fuel = k + 1 := ⟨fuel - 1, by omega⟩
    have htre : t.regexpMode = false := by rw [hag.2.2.1, hre]
    rcases hit_zero_or_one s c (by omega) with h0 | h1
    · rw [searchnext_loop_miss re fp fuel' t c htre (by rw [hag.hit_eq, h0]), hag.mem_len_eq,
        if_neg (by push_cast at hd; omega), if_neg (by omega)]
      refine ih (c + 1) t fuel' hag (by omega) (by push_cast at hd ⊢; omega) (by omega) ?_
      intro x hx1 hx2
      by_cases hxc : x < c
      · exact hno x hx1 hxc
      · have : x = c := by omega
        rw [this]; exact h0
    · rw [searchnext_loop_hit re fp fuel' t c htre (by rw [hag.hit_eq, h1])]
      refine Or.inl ⟨c, t, hag, ⟨by omega, by push_cast at hd; omega, h1, Or.inl ⟨hc, ?_⟩⟩, rfl⟩
      intro x hx1 hx2; rw [hno x hx1 hx2]; exact ok_zero_ne_one

/-- C13. For every buffer of length `n`, every non-empty literal pattern and
every start offset `0 <= fp < n`, `searchnext(fp)` returns (within `n`
rounds); it returns true iff `hit(a)` holds for some `a` in `[0, n)`; when it
returns true the current position `fpos()` is the first such `a` in the
cyclic order `fp, ..., n-1, 0, ..., fp-1`; when it returns false the current
position is unchanged. -/
theorem searchnext_cyclic (re : RegexLib) (s : State) (fp : Int) (fuel : Nat)
    (hre : s.regexpMode = false) (hp : s.smem ≠ []) (h0 : 0 ≤ fp) (hfp : fp < s.mem_len)
    (hfuel : s.mem.length ≤ fuel) :
    ∃ s' b, searchnext re fuel s fp = some (.ok (s', b)) ∧
      (b = true ↔ ∃ a : Int, 0 ≤ a ∧ a < s.mem_len ∧ hit s a = .ok 1) ∧
      (b = true → FirstCyclicHit s fp (fpos s')) ∧
      (b = false → fpos s' = fpos s) := by
  have hlen : s.smem.length ≠ 0 := by
    intro h; exact hp (List.length_eq_zero.mp h)
  have hstart : searchnext re fuel s fp = searchnext_loop re fp fuel s fp := by
    unfold searchnext
    rw [if_neg]
    simp [hre, State.smem_len, hlen]
  obtain ⟨d, hd⟩ : ∃ d : Nat, fp + (d : Int) + 1 = s.mem_len :=
    ⟨(s.mem_len - fp - 1).toNat, by omega⟩
  have hout := searchnext_first_part re s fp hre h0 hfp d fp s fuel (Agree.refl s) (le_refl fp)
    hd (by simp only [State.mem_len] at hd; omega) (by intro x hx1 hx2; omega)
  rw [← hstart] at hout
  rcases hout with ⟨a, t, hag, hfirst, hr⟩ | ⟨t, hag, hnone, hr⟩
  · refine ⟨jump t a, true, hr, ?_, ?_, ?_⟩
    · exact ⟨fun _ => ⟨a, hfirst.1, hfirst.2.1, hfirst.2.2.1⟩, fun _ => rfl⟩
    · intro _; rw [fpos_jump]; exact hfirst
    · intro h; cases h
  · refine ⟨t, false, hr, ?_, ?_, ?_⟩
    · constructor
      · intro h; cases h
      · rintro ⟨a, ha0, hal, hah⟩
        rw [hnone a ha0 hal] at hah
        exact absurd hah ok_zero_ne_one
    · intro h; cases h
    · intro _; exact hag.fpos_eq


/-- `hit` for a pattern of one byte, inside the buffer. -/
theorem hit_single (s : State) (b : Byte) (c : Int) (hp : s.smem = [b]) (h0 : 0 ≤ c)
    (hc : c < s.mem_len) :
    hit s c = if s.mem.getD c.toNat 0 = b then .ok 1 else .ok 0 := by
  unfold hit
  rw [hp]
  unfold hit_from
  rw [if_pos (by omega), if_neg (by omega)]
  have : (c + 0).toNat = c.toNat := by omega
  rw [this]
  split
  · rfl
  · rfl

/-- C12 as stated fails: in the two-byte buffer `00 FF`, with notices on, a
search for `FF` from offset 0 ends at offset 1 without any wrap; no "reached
bottom" notice is logged, where one wrap would have logged one. -/
theorem searchnext_last_byte_no_wrap :
    ∃ s', searchnext noRegex 2 (State.ofSearch [0x00, 0xFF] [0xFF]) 0 = some (.ok (s', true)) ∧
      fpos s' = 1 ∧ (State.ofSearch [0x00, 0xFF] [0xFF]).nff = true ∧
      (State.ofSearch [0x00, 0xFF] [0xFF]).scriptingflag = false ∧
      s'.out = [] ∧
      Msg.std "Search reached to bottom, continuing from top." ∉ s'.out := by
  refine ⟨_, rfl, ?_, rfl, rfl, rfl, ?_⟩
  · decide
  · decide

/-- C12, amended. For every buffer of length `n >= 1` that contains byte
`0xFF` only at offset `n-1`, a forward literal search for the one-byte
pattern `0xFF` started at offset 0 returns true (within `n` rounds) with the
current position at `n-1`, and the scan does not wrap: the resulting state
is the starting state after `jump(n-1)`, with no notice added. -/
theorem searchnext_last_byte (re : RegexLib) (s : State) (fuel : Nat)
    (hre : s.regexpMode = false) (hp : s.smem = [0xFF]) (hn : 1 ≤ s.mem.length)
    (hlast : s.mem.getD (s.mem.length - 1) 0 = 0xFF)
    (honly : ∀ i : Nat, i < s.mem.length - 1 → s.mem.getD i 0 ≠ 0xFF)
    (hfuel : s.mem.length ≤ fuel) :
    searchnext re fuel s 0 = some (.ok (jump s (s.mem_len - 1), true)) ∧
      fpos (jump s (s.mem_len - 1)) = s.mem_len - 1 ∧
      (jump s (s.mem_len - 1)).out = s.out := by
  refine ⟨?_, fpos_jump _ _, rfl⟩
  have hstart : searchnext re fuel s 0 = searchnext_loop re 0 fuel s 0 := by
    unfold searchnext
    rw [if_neg]
    simp [hre, State.smem_len, hp]
  rw [hstart]
  have key : ∀ (d : Nat) (c : Int) (fuel : Nat), 0 ≤ c → c + (d : Int) + 1 = s.mem_len →
      d + 1 ≤ fuel →
      searchnext_loop re 0 fuel s c = some (.ok (jump s (s.mem_len - 1), true)) := by
    intro d
    induction d with
    | zero =>
      intro c fuel hc hd hf
      obtain ⟨fuel', rfl⟩ : ∃ k, fuel = k + 1 := ⟨fuel - 1, by omega⟩
      have hcl : c = s.mem_len - 1 := by omega
      have hh : hit s c = .ok 1 := by
        rw [hit_single s 0xFF c hp hc (by omega)]
        have : c.toNat = s.mem.length - 1 := by simp only [State.mem_len] at hcl; omega
        rw [this, if_pos hlast]
      rw [searchnext_loop_hit re 0 fuel' s c hre hh, hcl]
    | succ d ih =>
      intro c fuel hc hd hf
      obtain ⟨fuel', rfl⟩ : ∃ k, fuel = k + 1 := ⟨fuel - 1, by omega⟩
      have hh : hit s c = .ok 0 := by
        rw [hit_single s 0xFF c hp hc (by push_cast at hd; omega)]
        rw [if_neg (honly c.toNat (by simp only [State.mem_len] at hd; push_cast at hd; omega))]
      rw [searchnext_loop_miss re 0 fuel' s c hre hh, if_neg (by push_cast at hd; omega),
        if_neg (by omega)]
      exact ih (c + 1) fuel' (by omega) (by push_cast at hd ⊢; omega) (by omega)
  obtain ⟨d, hd⟩ : ∃ d : Nat, (0 : Int) + (d : Int) + 1 = s.mem_len :=
    ⟨s.mem.length - 1, by simp only [State.mem_len]; omega⟩
  exact key d 0 fuel (le_refl 0) hd (by simp only [State.mem_len] at hd; omega)

/-- Witness of C12 (amended): the three-byte buffer `01 02 FF`. -/
theorem searchnext_last_byte_witness :
    searchnext noRegex 3 (State.ofSearch [1, 2, 0xFF] [0xFF]) 0
        = some (.ok (jump (State.ofSearch [1, 2, 0xFF] [0xFF])
            ((State.ofSearch [1, 2, 0xFF] [0xFF]).mem_len - 1), true)) ∧
      fpos (jump (State.ofSearch [1, 2, 0xFF] [0xFF])
        ((State.ofSearch [1, 2, 0xFF] [0xFF]).mem_len - 1))
          = (State.ofSearch [1, 2, 0xFF] [0xFF]).mem_len - 1 ∧
      (jump (State.ofSearch [1, 2, 0xFF] [0xFF])
        ((State.ofSearch [1, 2, 0xFF] [0xFF]).mem_len - 1)).out
          = (State.ofSearch [1, 2, 0xFF] [0xFF]).out :=
  searchnext_last_byte noRegex (State.ofSearch [1, 2, 0xFF] [0xFF]) 3 rfl rfl (by decide)
    (by decide) (by decide) (by decide)

/-- Witness of C13: the pattern `02` in the buffer `02 01 03 02`, searched
from offset 1. -/
theorem searchnext_cyclic_witness :
    ∃ s' b, searchnext noRegex 4 (State.ofSearch [2, 1, 3, 2] [2]) 1 = some (.ok (s', b)) ∧
      (b = true ↔ ∃ a : Int, 0 ≤ a ∧ a < (State.ofSearch [2, 1, 3, 2] [2]).mem_len ∧
        hit (State.ofSearch [2, 1, 3, 2] [2]) a = .ok 1) ∧
      (b = true → FirstCyclicHit (State.ofSearch [2, 1, 3, 2] [2]) 1 (fpos s')) ∧
      (b = false → fpos s' = fpos (State.ofSearch [2, 1, 3, 2] [2])) :=
  searchnext_cyclic noRegex (State.ofSearch [2, 1, 3, 2] [2]) 1 4 rfl (by decide) (by decide)
    (by decide) (by decide)


theorem searchnext_start (re : RegexLib) (fuel : Nat) (s : State) (fp : Int)
    (hre : s.regexpMode = false) (hp : s.smem ≠ []) :
    searchnext re fuel s fp = searchnext_loop re fp fuel s fp := by
  have hlen : s.smem.length ≠ 0 := by
    intro h; exact hp (List.length_eq_zero.mp h)
  unfold searchnext
  rw [if_neg]
  simp [hre, State.smem_len, hlen]

theorem searchlast_start (re : RegexLib) (fuel : Nat) (s : State) (fp : Int)
    (hre : s.regexpMode = false) (hp : s.smem ≠ []) :
    searchlast re fuel s fp = searchlast_loop re fp fuel s fp := by
  have hlen : s.smem.length ≠ 0 := by
    intro h; exact hp (List.length_eq_zero.mp h)
  unfold searchlast
  rw [if_neg]
  simp [hre, State.smem_len, hlen]

/-- One round of `searchlast` that misses. -/
theorem searchlast_loop_miss (re : RegexLib) (start : Int) (fuel : Nat) (t : State) (c : Int)
    (hre : t.regexpMode = false) (hh : hit t c = .ok 0) :
    searchlast_loop re start (fuel + 1) t c =
      if c - 1 < 0 then
        if t.mem_len - 1 = start then
          some (.ok (stdmm (stdmm t "Search reached to top, continuing from bottom.")
            "Not found.", false))
        else searchlast_loop re start fuel
          (stdmm t "Search reached to top, continuing from bottom.") (t.mem_len - 1)
      else
        if c - 1 = start then some (.ok (stdmm t "Not found.", false))
        else searchlast_loop re start fuel t (c - 1) := by
  conv_lhs => unfold searchlast_loop
  rw [probe_literal re t c 0 hre hh]
  simp only []
  rw [if_neg (by decide), if_neg (by decide)]
  by_cases hw : c - 1 < 0
  · simp only [if_pos hw]
  · simp only [if_neg hw]

/-- C14, what the code does past the end. For a non-empty literal pattern
that matches at no offset, `searchnext(fp)` started at an offset `fp >= 1`
at or past the end of the buffer never returns: the probe offset wraps to 0
before it is compared with `fp`, so it never equals `fp` again, whatever the
number of rounds. -/
theorem searchnext_never_returns (re : RegexLib) (s : State) (fp : Int)
    (hre : s.regexpMode = false) (hp : s.smem ≠ [])
    (hno : ∀ a : Int, 0 ≤ a → a < s.mem_len → hit s a = .ok 0)
    (hfp : s.mem_len ≤ fp) (h1 : 1 ≤ fp) :
    ∀ fuel : Nat, searchnext re fuel s fp = none := by
  have hall : ∀ a : Int, 0 ≤ a → hit s a = .ok 0 := by
    intro a ha
    by_cases hl : a < s.mem_len
    · exact hno a ha hl
    · exact hit_past_end s a hp (by omega)
  have key : ∀ (fuel : Nat) (t : State) (c : Int), Agree s t → 0 ≤ c →
      searchnext_loop re fp fuel t c = none := by
    intro fuel
    induction fuel with
    | zero => intro t c _ _; rfl
    | succ fuel ih =>
      intro t c hag hc
      have htre : t.regexpMode = false := by rw [hag.2.2.1, hre]
      rw [searchnext_loop_miss re fp fuel t c htre (by rw [hag.hit_eq, hall c hc]),
        hag.mem_len_eq]
      by_cases hw : c + 1 ≥ s.mem_len
      · rw [if_pos hw, if_neg (by omega)]
        exact ih _ 0 (hag.of_stdmm_if _ _) (le_refl 0)
      · rw [if_neg hw, if_neg (by omega)]
        exact ih t (c + 1) hag (by omega)
  intro fuel
  rw [searchnext_start re fuel s fp hre hp]
  exact key fuel s fp (Agree.refl s) (by omega)

/-- The failing input of C14: the buffer `01 02 03`, the pattern `09`, and
the command `n` with the cursor on the last byte, which calls
`searchnext(3)`; a million rounds are not enough, nor is any other number. -/
theorem searchnext_never_returns_witness :
    searchnext noRegex 1000000 (State.ofSearch [1, 2, 3] [9]) 3 = none :=
  searchnext_never_returns noRegex (State.ofSearch [1, 2, 3] [9]) 3 rfl (by decide)
    (by
      intro a h0 h3
      have h3' : a < 3 := h3
      interval_cases a <;> rfl)
    (by decide) (by decide) 1000000

/-- C15, what the code does. For a non-empty literal pattern: `searchlast(-1)`
(the command `N` with the cursor at offset 0) probes offset `-1` first and so
reads `mem[-1]`, outside the buffer; and when the pattern matches at no
offset of a non-empty buffer, `searchlast(fp)` started at or past the end of
the buffer never returns, because the probe offset wraps to `mem_len - 1`
before it is compared with `fp`. -/
theorem searchlast_never_returns (re : RegexLib) (s : State) (hre : s.regexpMode = false)
    (hp : s.smem ≠ []) :
    (∀ fuel : Nat, searchlast re (fuel + 1) s (-1) = some (.error Fault.outOfBounds)) ∧
    (∀ fp : Int, (∀ a : Int, 0 ≤ a → a < s.mem_len → hit s a = .ok 0) → 1 ≤ s.mem_len →
      s.mem_len ≤ fp → ∀ fuel : Nat, searchlast re fuel s fp = none) := by
  constructor
  · intro fuel
    rw [searchlast_start re _ s _ hre hp]
    unfold searchlast_loop probe
    rw [hre]
    have : hit s (-1) = .error Fault.outOfBounds := by
      unfold hit
      cases hs : s.smem with
      | nil => exact absurd hs hp
      | cons b rest =>
        unfold hit_from
        have hl : (0 : Int) ≤ s.mem_len := by simp [State.mem_len]
        rw [if_pos (by omega), if_pos (by omega)]
    simp [this]
  · intro fp hno hn hfp
    have hall : ∀ a : Int, 0 ≤ a → hit s a = .ok 0 := by
      intro a ha
      by_cases hl : a < s.mem_len
      · exact hno a ha hl
      · exact hit_past_end s a hp (by omega)
    have key : ∀ (fuel : Nat) (t : State) (c : Int), Agree s t → 0 ≤ c → c ≤ fp →
        searchlast_loop re fp fuel t c = none := by
      intro fuel
      induction fuel with
      | zero => intro t c _ _ _; rfl
      | succ fuel ih =>
        intro t c hag hc hcf
        have htre : t.regexpMode = false := by rw [hag.2.2.1, hre]
        rw [searchlast_loop_miss re fp fuel t c htre (by rw [hag.hit_eq, hall c hc]),
          hag.mem_len_eq]
        by_cases hw : c - 1 < 0
        · rw [if_pos hw, if_neg (by omega)]
          exact ih _ _ (hag.of_stdmm _) (by omega) (by omega)
        · rw [if_neg hw, if_neg (by omega)]
          exact ih t (c - 1) hag (by omega) (by omega)
    intro fuel
    rw [searchlast_start re fuel s fp hre hp]
    exact key fuel s fp (Agree.refl s) (by omega) (le_refl fp)

/-- The failing inputs of C15: the buffer `01 02 03` and the pattern `09`;
`N` with the cursor at offset 0 calls `searchlast(-1)`, `N` with the cursor
at offset 4 calls `searchlast(3)`. -/
theorem searchlast_never_returns_witness :
    searchlast noRegex (0 + 1) (State.ofSearch [1, 2, 3] [9]) (-1)
        = some (.error Fault.outOfBounds) ∧
    searchlast noRegex 1000000 (State.ofSearch [1, 2, 3] [9]) 3 = none :=
  let h := searchlast_never_returns noRegex (State.ofSearch [1, 2, 3] [9]) rfl (by decide)
  ⟨h.1 0, h.2 3
    (by
      intro a h0 h3
      have h3' : a < 3 := h3
      interval_cases a <;> rfl)
    (by decide) (by decide) 1000000⟩

end Bi

/-! ## Substituting -/

namespace Bi

/-- A library that answers like `re`, written so that its answers for the
pattern `ab` on the three windows of the `ababab` example can be computed. -/
theorem regex_ab_eq (re : RegexLib) (hcomp : re.regcomp "ab" = true)
    (h1 : re.regexec "ab" [0x61, 0x62, 0x61, 0x62, 0x61, 0x62] = .found 0 2)
    (h2 : re.regexec "ab" [0x61, 0x62, 0x61, 0x62] = .found 0 2)
    (h3 : re.regexec "ab" [0x61, 0x62] = .found 0 2) :
    re = { regcomp := fun p => if p = "ab" then true else re.regcomp p,
           regexec := fun p w =>
             if p = "ab" then
               if w = [0x61, 0x62, 0x61, 0x62, 0x61, 0x62] then .found 0 2
               else if w = [0x61, 0x62, 0x61, 0x62] then .found 0 2
               else if w = [0x61, 0x62] then .found 0 2
               else re.regexec p w
             else re.regexec p w } := by
  obtain ⟨rc, rx⟩ := re
  simp only [] at hcomp h1 h2 h3
  congr
  · funext p
    split
    · next h => rw [h, hcomp]
    · rfl
  · funext p w
    split
    · next hp =>
      subst hp
      split
      · next h => rw [h, h1]
      · split
        · next h => rw [h, h2]
        · split
          · next h => rw [h, h3]
          · rfl
    · rfl

set_option maxRecDepth 100000 in
/-- C11, evaluated at the instance the claim names. On the buffer `ababab`
with no range given, the substitute of `ab` by `xyz` stops after two
replacements and leaves `xyzxyzab`: the end of the range stays at the
original last offset 5 while the third occurrence has moved to offset 6.
This holds for the literal pattern `61 62` and, with any library that finds
`ab` at the start of the windows `ababab`, `abab` and `ab`, for the regular
expression `ab`; any number of rounds from 8 on gives this result. -/
theorem scommand_ababab (re : RegexLib) (k : Nat) :
    (∃ s', scommand re (k + 8)
        (State.ofBytes [0x61, 0x62, 0x61, 0x62, 0x61, 0x62] 4096) 0 0 false false
        (SPattern.hex [0x61, 0x62]) [0x78, 0x79, 0x7A] = some (.ok s') ∧
      s'.mem = [0x78, 0x79, 0x7A, 0x78, 0x79, 0x7A, 0x61, 0x62] ∧
      s'.out = [Msg.std "  2 times replaced."]) ∧
    (re.regcomp "ab" = true →
      re.regexec "ab" [0x61, 0x62, 0x61, 0x62, 0x61, 0x62] = .found 0 2 →
      re.regexec "ab" [0x61, 0x62, 0x61, 0x62] = .found 0 2 →
      re.regexec "ab" [0x61, 0x62] = .found 0 2 →
      ∃ s', scommand re (k + 8)
        (State.ofBytes [0x61, 0x62, 0x61, 0x62, 0x61, 0x62] 4096) 0 0 false false
        (SPattern.regex "ab") [0x78, 0x79, 0x7A] = some (.ok s') ∧
      s'.mem = [0x78, 0x79, 0x7A, 0x78, 0x79, 0x7A, 0x61, 0x62] ∧
      s'.out = [Msg.std "  2 times replaced."]) := by
  constructor
  · exact ⟨_, rfl, rfl, rfl⟩
  · intro hcomp h1 h2 h3
    rw [regex_ab_eq re hcomp h1 h2 h3]
    exact ⟨_, rfl, rfl, rfl⟩

/-- The failing input of C11 with the library `abRegex`: the literal and the
regular-expression substitute of `ab` by `xyz` on `ababab` both leave
`xyzxyzab` and report 2. -/
theorem scommand_ababab_witness :
    (∃ s', scommand abRegex (0 + 8)
        (State.ofBytes [0x61, 0x62, 0x61, 0x62, 0x61, 0x62] 4096) 0 0 false false
        (SPattern.hex [0x61, 0x62]) [0x78, 0x79, 0x7A] = some (.ok s') ∧
      s'.mem = [0x78, 0x79, 0x7A, 0x78, 0x79, 0x7A, 0x61, 0x62] ∧
      s'.out = [Msg.std "  2 times replaced."]) ∧
    (∃ s', scommand abRegex (0 + 8)
        (State.ofBytes [0x61, 0x62, 0x61, 0x62, 0x61, 0x62] 4096) 0 0 false false
        (SPattern.regex "ab") [0x78, 0x79, 0x7A] = some (.ok s') ∧
      s'.mem = [0x78, 0x79, 0x7A, 0x78, 0x79, 0x7A, 0x61, 0x62] ∧
      s'.out = [Msg.std "  2 times replaced."]) :=
  let h := scommand_ababab abRegex 0
  ⟨h.1, h.2 (by decide) (by decide) (by decide) (by decide)⟩

end Bi

/-! ## The clip register and the literal probe -/

namespace Bi

theorem hit_from_iff (s : State) (a : Int) (p : List Byte) :
    ∀ i : Int, 0 ≤ a + i →
      (hit_from s a p i = .ok 1 ↔
        ∀ k : Nat, k < p.length →
          a + i + k < s.mem_len ∧ s.mem.getD (a + i + k).toNat 0 = p.getD k 0) := by
  induction p with
  | nil => intro i _; simp [hit_from]
  | cons b rest ih =>
    intro i hi
    unfold hit_from
    constructor
    · intro h
      split at h
      · next hlt =>
        rw [if_neg (by omega)] at h
        split at h
        · next hb =>
          have hr := (ih (i + 1) (by omega)).mp h
          intro k hk
          cases k with
          | zero =>
            have e0 : a + i + ((0 : Nat) : Int) = a + i := by simp
            rw [e0]
            exact ⟨hlt, hb⟩
          | succ k =>
            have := hr k (by simpa using hk)
            have e : a + (i + 1) + (k : Int) = a + i + ((k + 1 : Nat) : Int) := by push_cast; omega
            rw [e] at this
            exact this
        · exact absurd h ok_zero_ne_one
      · exact absurd h ok_zero_ne_one
    · intro h
      have h0 := h 0 (by simp)
      have e0 : a + i + ((0 : Nat) : Int) = a + i := by simp
      rw [e0] at h0
      have h02 : s.mem.getD (a + i).toNat 0 = b := h0.2
      rw [if_pos h0.1, if_neg (by omega), if_pos h02]
      apply (ih (i + 1) (by omega)).mpr
      intro k hk
      have := h (k + 1) (by simpa using hk)
      have e : a + (i + 1) + (k : Int) = a + i + ((k + 1 : Nat) : Int) := by push_cast; omega
      rw [e]
      exact this

set_option maxRecDepth 100000 in
/-- C21. For every buffer and every range with `0 <= start < mem_len` and
`start <= end` that ends below the memory ceiling, `yankmem(start, end)`
returns and leaves in the clip register exactly the bytes
`mem[start .. min(end, mem_len - 1)]` (their number and each of them), the
buffer being unchanged; for `start >= mem_len` or `end < start` it reports
"Invalid range." and leaves the clip register and the buffer unchanged.
With an end far beyond the buffer it does not return: the clip register is
allocated for `end - start + 1` bytes, not for the bytes that are copied, so
on `01 02 03 04 05` the call `yankmem(1, 2^48)` ends with the allocation
failure and `yankmem(1, 2^63 - 2)` overflows the doubling of the capacity. -/
theorem yankmem_spec (s : State) (start «end» : Int) :
    (0 ≤ start → start < s.mem_len → start ≤ «end» → «end» < MAX_MEM_SIZE →
      ∃ s', yankmem s start «end» = .ok s' ∧
        s'.yank = (s.mem.drop start.toNat).take (min «end» (s.mem_len - 1) - start + 1).toNat ∧
        s'.yank.length = (min «end» (s.mem_len - 1) - start + 1).toNat ∧
        (∀ k : Nat, k < s'.yank.length → s'.yank.getD k 0 = s.mem.getD (start.toNat + k) 0) ∧
        s'.mem = s.mem) ∧
    (start ≥ s.mem_len ∨ «end» < start →
      yankmem s start «end» = .ok (stderr_msg s "Invalid range.") ∧
        (stderr_msg s "Invalid range.").yank = s.yank ∧
        (stderr_msg s "Invalid range.").mem = s.mem) ∧
    (yankmem (State.ofBytes [1, 2, 3, 4, 5] 4096) 1 (2 ^ 48) = .error Fault.yankAlloc ∧
      yankmem (State.ofBytes [1, 2, 3, 4, 5] 4096) 1 (2 ^ 63 - 2)
        = .error Fault.overflow) := by
  refine ⟨?_, ?_, rfl, rfl⟩
  · intro h0 hs he hend
    obtain ⟨s', h1, hm, hy, -, -⟩ := yankmem_ok s start «end» h0 hs he (by omega)
    have hy2 : s'.yank
        = (s.mem.drop start.toNat).take (min «end» (s.mem_len - 1) - start + 1).toNat := by
      rw [hy]
      simp only [State.mem_len] at *
      apply List.ext_getElem
      · simp only [List.length_take, List.length_drop]; omega
      · intro n h1 h2
        simp
    have hl : s'.yank.length = (min «end» (s.mem_len - 1) - start + 1).toNat := by
      rw [hy2]
      simp only [State.mem_len] at *
      simp only [List.length_take, List.length_drop]; omega
    refine ⟨s', h1, hy2, hl, ?_, hm⟩
    intro k hk
    rw [hy2] at hk ⊢
    simp only [List.length_take, List.length_drop] at hk
    rw [List.getD_eq_getElem _ _ (by simp only [List.length_take, List.length_drop]; omega)]
    rw [List.getD_eq_getElem _ _ (by omega)]
    simp
  · intro h
    refine ⟨?_, rfl, rfl⟩
    unfold yankmem
    rw [if_pos]
    rcases h with h | h
    · right; exact h
    · left; omega

/-- Witness of C21: on the buffer `01 02 03 04 05`, `yankmem(1, 9)` stores
the four bytes from offset 1 on, and `yankmem(7, 9)` changes nothing. -/
theorem yankmem_spec_witness :
    (∃ s', yankmem (State.ofBytes [1, 2, 3, 4, 5] 4096) 1 9 = .ok s' ∧
        s'.yank = [2, 3, 4, 5] ∧ s'.yank.length = 4 ∧
        (∀ k : Nat, k < s'.yank.length →
          s'.yank.getD k 0 = (State.ofBytes [1, 2, 3, 4, 5] 4096).mem.getD (1 + k) 0) ∧
        s'.mem = [1, 2, 3, 4, 5]) ∧
    (yankmem (State.ofBytes [1, 2, 3, 4, 5] 4096) 7 9
        = .ok (stderr_msg (State.ofBytes [1, 2, 3, 4, 5] 4096) "Invalid range.") ∧
      (stderr_msg (State.ofBytes [1, 2, 3, 4, 5] 4096) "Invalid range.").yank = [] ∧
      (stderr_msg (State.ofBytes [1, 2, 3, 4, 5] 4096) "Invalid range.").mem = [1, 2, 3, 4, 5]) :=
  ⟨(yankmem_spec (State.ofBytes [1, 2, 3, 4, 5] 4096) 1 9).1 (by decide) (by decide) (by decide)
      (by decide),
    (yankmem_spec (State.ofBytes [1, 2, 3, 4, 5] 4096) 7 9).2.1 (Or.inl (by decide))⟩

/-- C22. For every buffer, every literal pattern and every offset `a >= 0`,
`hit(a)` returns 1 exactly when for every `i` below the pattern length the
offset `a + i` is below `mem_len` and `mem[a + i]` is the pattern byte `i`;
otherwise it returns 0.  It always returns: no byte outside the buffer is
read. -/
theorem hit_spec (s : State) (a : Int) (h0 : 0 ≤ a) :
    (hit s a = .ok 1 ↔
      ∀ i : Nat, i < s.smem.length →
        a + i < s.mem_len ∧ s.mem.getD (a + i).toNat 0 = s.smem.getD i 0) ∧
    (hit s a = .ok 1 ∨ hit s a = .ok 0) := by
  constructor
  · have := hit_from_iff s a s.smem 0 (by omega)
    simpa [hit] using this
  · exact (hit_zero_or_one s a h0).symm

/-- Witness of C22: the pattern `02 03` at offset 1 of the buffer
`01 02 03`. -/
theorem hit_spec_witness :
    (hit (State.ofSearch [1, 2, 3] [2, 3]) 1 = .ok 1 ↔
      ∀ i : Nat, i < (State.ofSearch [1, 2, 3] [2, 3]).smem.length →
        (1 : Int) + i < (State.ofSearch [1, 2, 3] [2, 3]).mem_len ∧
          (State.ofSearch [1, 2, 3] [2, 3]).mem.getD ((1 : Int) + i).toNat 0
            = (State.ofSearch [1, 2, 3] [2, 3]).smem.getD i 0) ∧
    (hit (State.ofSearch [1, 2, 3] [2, 3]) 1 = .ok 1 ∨
      hit (State.ofSearch [1, 2, 3] [2, 3]) 1 = .ok 0) :=
  hit_spec (State.ofSearch [1, 2, 3] [2, 3]) 1 (by decide)

end Bi

/-! ## Numbers and expressions of the command line -/

namespace Bi

theorem wrap64_id (x : Int) (h0 : -2 ^ 63 ≤ x) (h1 : x < 2 ^ 63) : wrap64 x = x := by
  unfold wrap64
  omega

theorem charAt_drop (s : List Char) (idx j : Nat) :
    charAt s (idx + j) = charAt (s.drop idx) j := by
  unfold charAt
  simp [List.getD_eq_getElem?_getD, List.getElem?_drop]

theorem charAt_of_drop (s : List Char) (idx : Nat) (c : Char) (r : List Char)
    (h : s.drop idx = c :: r) : charAt s idx = c := by
  have := charAt_drop s idx 0
  rw [Nat.add_zero, h] at this
  rw [this]; rfl

theorem lt_length_of_drop (s : List Char) (idx : Nat) (c : Char) (r : List Char)
    (h : s.drop idx = c :: r) : idx < s.length := by
  by_contra hn
  rw [List.drop_eq_nil_of_le (by omega)] at h
  cases h

theorem length_of_drop (s : List Char) (idx : Nat) (r : List Char) (hi : idx ≤ s.length)
    (h : s.drop idx = r) : s.length = idx + r.length := by
  rw [← h, List.length_drop]; omega

theorem drop_drop_of (s : List Char) (idx j : Nat) (a r : List Char)
    (h : s.drop idx = a ++ r) (hj : j = a.length) : s.drop (idx + j) = r := by
  rw [← List.drop_drop, h, hj, List.drop_left]

theorem skipspc_from_blanks (k : Nat) (t : List Char) (i : Nat) :
    skipspc_from (List.replicate k ' ' ++ t) i = skipspc_from t (i + k) := by
  induction k generalizing i with
  | zero => rfl
  | succ k ih =>
    rw [List.replicate_succ, List.cons_append, skipspc_from, if_pos rfl, ih]
    congr 1; omega

theorem skipspc_of_drop (s : List Char) (idx k : Nat) (c : Char) (r : List Char)
    (h : s.drop idx = List.replicate k ' ' ++ c :: r) (hc : c ≠ ' ') :
    skipspc s idx = idx + k := by
  unfold skipspc
  rw [h, skipspc_from_blanks, skipspc_from, if_neg hc]

theorem skipspc_of_drop_zero (s : List Char) (idx : Nat) (c : Char) (r : List Char)
    (h : s.drop idx = c :: r) (hc : c ≠ ' ') : skipspc s idx = idx :=
  skipspc_of_drop s idx 0 c r h hc

theorem skipspc_of_drop_nil (s : List Char) (idx k : Nat)
    (h : s.drop idx = List.replicate k ' ') : skipspc s idx = idx + k := by
  unfold skipspc
  have := skipspc_from_blanks k [] idx
  rw [List.append_nil] at this
  rw [h, this]; rfl

/-- The digit value of the hexadecimal loop is the value of the digit. -/
theorem hexVal_eq (c : Char) (h : isHexDigit c = true) :
    hexVal c = digitValue c ∧ 0 ≤ digitValue c ∧ digitValue c < 16 := by
  have key : ∀ d ∈ "0123456789abcdefABCDEF".toList,
      hexVal d = digitValue d ∧ 0 ≤ digitValue d ∧ digitValue d < 16 := by decide
  exact key c (by simpa [isHexDigit] using h)

/-- The digit value of the decimal loop is the value of the digit. -/
theorem decVal_eq (c : Char) (h : isDecDigit c = true) :
    ('0' ≤ c ∧ c ≤ '9') ∧ ((c.toNat : Int) - ('0'.toNat : Int)) = digitValue c ∧
      0 ≤ digitValue c ∧ digitValue c < 10 := by
  have key : ∀ d ∈ "0123456789".toList,
      ('0' ≤ d ∧ d ≤ '9') ∧ ((d.toNat : Int) - ('0'.toNat : Int)) = digitValue d ∧
        0 ≤ digitValue d ∧ digitValue d < 10 := by decide
  exact key c (by simpa [isDecDigit] using h)

/-- A hexadecimal digit is none of the characters the parsers give a meaning
of their own. -/
theorem isHexDigit_ne (c : Char) (h : isHexDigit c = true) :
    c ≠ ' ' ∧ c ≠ '$' ∧ c ≠ lbrace ∧ c ≠ '.' ∧ c ≠ Char.ofNat 39 ∧ c ≠ '%' ∧ c ≠ '#' ∧
      c ≠ backslash ∧ c ≠ 'q' ∧ c ≠ 'w' ∧ c ≠ 'r' ∧ c ≠ 'T' ∧ c ≠ 't' ∧ c ≠ 'n' ∧ c ≠ 'N' ∧
      c ≠ '!' ∧ c ≠ '?' ∧ c ≠ '/' ∧ c ≠ ',' ∧ c ≠ '*' ∧ c ≠ '+' ∧ c ≠ '-' := by
  have key : ∀ d ∈ "0123456789abcdefABCDEF".toList,
      d ≠ ' ' ∧ d ≠ '$' ∧ d ≠ lbrace ∧ d ≠ '.' ∧ d ≠ Char.ofNat 39 ∧ d ≠ '%' ∧ d ≠ '#' ∧
        d ≠ backslash ∧ d ≠ 'q' ∧ d ≠ 'w' ∧ d ≠ 'r' ∧ d ≠ 'T' ∧ d ≠ 't' ∧ d ≠ 'n' ∧ d ≠ 'N' ∧
        d ≠ '!' ∧ d ≠ '?' ∧ d ≠ '/' ∧ d ≠ ',' ∧ d ≠ '*' ∧ d ≠ '+' ∧ d ≠ '-' := by decide
  exact key c (by simpa [isHexDigit] using h)

theorem dec_range (c : Char) (h : '0' ≤ c ∧ c ≤ '9') : isDecDigit c = true := by
  obtain ⟨h1, h2⟩ := h
  have e : c = Char.ofNat c.toNat := (Char.ofNat_toNat c).symm
  have h1' : 48 ≤ c.toNat := Char.le_def.mp h1
  have h2' : c.toNat ≤ 57 := Char.le_def.mp h2
  generalize c.toNat = n at e h1' h2'
  subst e
  interval_cases n <;> decide

/-- The hexadecimal loop on a run of digits: no wrap-around while the run
and the digits read before it stay within 15 digits. -/
theorem hex_loop_run (rest : List Char) (hrest : ∀ c ∈ rest.head?, isHexDigit c = false) :
    ∀ (ds : List Char), (∀ c ∈ ds, isHexDigit c = true) →
      ∀ (x : Int) (idx j : Nat), 0 ≤ x → x < 16 ^ j → j + ds.length ≤ 15 →
        hex_loop (ds ++ rest) x idx
            = (ds.foldl (fun x d => 16 * x + digitValue d) x, idx + ds.length) ∧
          0 ≤ ds.foldl (fun x d => 16 * x + digitValue d) x ∧
          ds.foldl (fun x d => 16 * x + digitValue d) x < 16 ^ (j + ds.length) := by
  intro ds
  induction ds with
  | nil =>
    intro _ x idx j h0 h1 _
    refine ⟨?_, h0, h1⟩
    cases rest with
    | nil => rfl
    | cons c r =>
      have := hrest c (by simp)
      simp [hex_loop, this]
  | cons d ds ih =>
    intro hds x idx j h0 h1 hj
    have hd := hds d (by simp)
    obtain ⟨hv, hv0, hv1⟩ := hexVal_eq d hd
    have hp : (16 : Int) ^ (j + 1) = 16 * 16 ^ j := by rw [pow_succ]; ring
    have hle : (16 : Int) ^ (j + 1) ≤ 16 ^ 15 :=
      pow_le_pow_right₀ (by norm_num) (by simp only [List.length_cons] at hj; omega)
    have h15 : (16 : Int) ^ 15 = 1152921504606846976 := by norm_num
    have hx1 : 16 * x + digitValue d < 16 ^ (j + 1) := by rw [hp]; omega
    have hw : wrap64 (16 * x + hexVal d) = 16 * x + digitValue d := by
      rw [hv]
      apply wrap64_id <;> omega
    have := ih (fun c hc => hds c (by simp [hc])) (16 * x + digitValue d) (idx + 1) (j + 1)
      (by omega) hx1 (by simp only [List.length_cons] at hj; omega)
    simp only [List.cons_append, hex_loop, hd, if_true, hw, List.foldl_cons, List.length_cons]
    have e1 : idx + 1 + ds.length = idx + (ds.length + 1) := by omega
    have e2 : j + 1 + ds.length = j + (ds.length + 1) := by omega
    rw [e1, e2] at this
    exact this

theorem dec_fold_ge : ∀ (ds : List Char), (∀ c ∈ ds, isDecDigit c = true) → ∀ x : Int, 0 ≤ x →
    x ≤ ds.foldl (fun x d => 10 * x + digitValue d) x := by
  intro ds
  induction ds with
  | nil => intro _ x _; exact le_refl _
  | cons d ds ih =>
    intro hds x h0
    obtain ⟨-, -, hv0, -⟩ := decVal_eq d (hds d (by simp))
    have := ih (fun c hc => hds c (by simp [hc])) (10 * x + digitValue d) (by omega)
    simp only [List.foldl_cons]
    omega

/-- The decimal loop on a run of digits whose value fits 63 bits. -/
theorem dec_loop_run (rest : List Char) (hrest : ∀ c ∈ rest.head?, isDecDigit c = false) :
    ∀ (ds : List Char), (∀ c ∈ ds, isDecDigit c = true) →
      ∀ (x : Int) (idx : Nat), 0 ≤ x →
        ds.foldl (fun x d => 10 * x + digitValue d) x < 2 ^ 63 →
        dec_loop (ds ++ rest) x idx
          = (ds.foldl (fun x d => 10 * x + digitValue d) x, idx + ds.length) := by
  intro ds
  induction ds with
  | nil =>
    intro _ x idx _ _
    cases rest with
    | nil => rfl
    | cons c r =>
      have := hrest c (by simp)
      have hn : ¬ ('0' ≤ c ∧ c ≤ '9') := by
        intro h
        rw [dec_range c h] at this
        cases this
      simp only [List.nil_append, dec_loop, if_neg hn, List.foldl_nil, List.length_nil,
        Nat.add_zero]
  | cons d ds ih =>
    intro hds x idx h0 hb
    obtain ⟨hr, hv, hv0, hv1⟩ := decVal_eq d (hds d (by simp))
    simp only [List.foldl_cons] at hb
    have hge := dec_fold_ge ds (fun c hc => hds c (by simp [hc])) (10 * x + digitValue d)
      (by omega)
    have hw : wrap64 (x * 10 + ((d.toNat : Int) - ('0'.toNat : Int))) = 10 * x + digitValue d := by
      rw [hv, mul_comm]
      apply wrap64_id <;> omega
    have := ih (fun c hc => hds c (by simp [hc])) (10 * x + digitValue d) (idx + 1)
      (by omega) hb
    simp only [List.cons_append, dec_loop, if_pos hr, hw, List.foldl_cons, List.length_cons]
    have e : idx + 1 + ds.length = idx + (ds.length + 1) := by omega
    rw [e] at this
    exact this

theorem numeral_hex_bound (ds : List Char) (hds : ∀ c ∈ ds, isHexDigit c = true)
    (hlen : ds.length ≤ 15) : 0 ≤ numeral 16 ds ∧ numeral 16 ds < 2 ^ 60 := by
  have := (hex_loop_run [] (by simp) ds hds 0 0 0 (le_refl _) (by norm_num) (by omega)).2
  have hle : (16 : Int) ^ (0 + ds.length) ≤ 16 ^ 15 := pow_le_pow_right₀ (by norm_num) (by omega)
  have h15 : (16 : Int) ^ 15 = 2 ^ 60 := by norm_num
  unfold numeral
  omega

/-- `get_value` at a run of hexadecimal digits, after blanks. -/
theorem get_value_hex (env : Env) (st : State) (s : List Char) (idx sp : Nat)
    (ds rest : List Char) (hd : s.drop idx = List.replicate sp ' ' ++ (ds ++ rest))
    (hne : ds ≠ []) (hds : ∀ c ∈ ds, isHexDigit c = true) (hlen : ds.length ≤ 15)
    (hrest : ∀ c ∈ rest.head?, isHexDigit c = false) :
    get_value env st s idx = (st, numeral 16 ds, idx + sp + ds.length) := by
  obtain ⟨d, ds', rfl⟩ := List.exists_cons_of_ne_nil hne
  have hdh := hds d (by simp)
  obtain ⟨n1, n2, n3, n4, n5, -⟩ := isHexDigit_ne d hdh
  have hlt : idx < s.length := by
    by_contra hn
    rw [List.drop_eq_nil_of_le (by omega)] at hd
    have := congrArg List.length hd
    simp at this
    omega
  have hsk : skipspc s idx = idx + sp := skipspc_of_drop s idx sp d (ds' ++ rest) hd n1
  have hd2 : s.drop (idx + sp) = d :: ds' ++ rest :=
    drop_drop_of s idx sp _ _ hd (by simp)
  have hlt2 : idx + sp < s.length := lt_length_of_drop s _ d _ hd2
  have hch : charAt s (idx + sp) = d := charAt_of_drop s _ d _ hd2
  obtain ⟨hrun, h0, -⟩ := hex_loop_run rest hrest (d :: ds') hds 0 (idx + sp) 0 (le_refl _)
    (by norm_num) (by omega)
  unfold get_value
  rw [if_neg (by omega)]
  simp only [hsk]
  rw [if_neg (by omega)]
  simp only [hch, if_neg n2, if_neg n3, if_neg n4]
  rw [if_neg (fun h => n5 h.1)]
  simp only [hdh, if_true, hd2, hrun]
  rw [if_neg (by omega)]
  rfl

/-- `get_value` at a `%` and a run of decimal digits, after blanks. -/
theorem get_value_dec (env : Env) (st : State) (s : List Char) (idx sp : Nat)
    (ds rest : List Char) (hd : s.drop idx = List.replicate sp ' ' ++ '%' :: (ds ++ rest))
    (hds : ∀ c ∈ ds, isDecDigit c = true) (hval : numeral 10 ds < 2 ^ 63)
    (hrest : ∀ c ∈ rest.head?, isDecDigit c = false) :
    get_value env st s idx = (st, numeral 10 ds, idx + sp + 1 + ds.length) := by
  have hlt : idx < s.length := by
    by_contra hn
    rw [List.drop_eq_nil_of_le (by omega)] at hd
    have := congrArg List.length hd
    simp at this
    omega
  have hsk : skipspc s idx = idx + sp :=
    skipspc_of_drop s idx sp '%' (ds ++ rest) hd (by decide)
  have hd2 : s.drop (idx + sp) = '%' :: (ds ++ rest) :=
    drop_drop_of s idx sp _ _ hd (by simp)
  have hd3 : s.drop (idx + sp + 1) = ds ++ rest :=
    drop_drop_of s (idx + sp) 1 ['%'] _ hd2 rfl
  have hlt2 : idx + sp < s.length := lt_length_of_drop s _ '%' _ hd2
  have hch : charAt s (idx + sp) = '%' := charAt_of_drop s _ '%' _ hd2
  have hrun := dec_loop_run rest hrest ds hds 0 (idx + sp + 1) (le_refl _) hval
  have h0 := dec_fold_ge ds hds 0 (le_refl _)
  unfold get_value
  rw [if_neg (by omega)]
  simp only [hsk]
  rw [if_neg (by omega)]
  simp only [hch]
  rw [if_neg (by decide), if_neg (by decide), if_neg (by decide),
    if_neg (fun h => absurd h.1 (by decide))]
  simp only [show isHexDigit '%' = false from by decide, Bool.false_eq_true, if_false, if_true,
    hd3, hrun]
  rw [if_neg (by omega)]
  rfl

/-- `expression` at a run of hexadecimal digits that no `+` or `-` follows. -/
theorem expression_hex (env : Env) (st : State) (s : List Char) (idx sp : Nat)
    (ds rest : List Char) (hd : s.drop idx = List.replicate sp ' ' ++ (ds ++ rest))
    (hne : ds ≠ []) (hds : ∀ c ∈ ds, isHexDigit c = true) (hlen : ds.length ≤ 15)
    (hrest : ∀ c ∈ rest.head?, isHexDigit c = false ∧ c ≠ '+' ∧ c ≠ '-') :
    expression env st s idx = (st, numeral 16 ds, idx + sp + ds.length) := by
  have hg := get_value_hex env st s idx sp ds rest hd hne hds hlen (fun c hc => (hrest c hc).1)
  have hd2 : s.drop (idx + sp + ds.length) = rest := by
    have h1 : s.drop (idx + sp) = ds ++ rest := drop_drop_of s idx sp _ _ hd (by simp)
    exact drop_drop_of s (idx + sp) ds.length _ _ h1 rfl
  have hnext : ∀ c : Char, c = '+' ∨ c = '-' →
      ¬ (idx + sp + ds.length < s.length ∧ numeral 16 ds ≠ UNKNOWN ∧
        charAt s (idx + sp + ds.length) = c) := by
    rintro c hc ⟨h1, -, h3⟩
    cases hr : rest with
    | nil =>
      rw [hr] at hd2
      have := congrArg List.length hd2
      simp only [List.length_drop, List.length_nil] at this
      omega
    | cons r rs =>
      rw [hr] at hd2
      rw [charAt_of_drop s _ r rs hd2] at h3
      have := hrest r (by simp [hr])
      rcases hc with hc | hc
      · exact this.2.1 (h3.trans hc)
      · exact this.2.2 (h3.trans hc)
  unfold expression
  simp only [hg]
  rw [if_neg (hnext '+' (Or.inl rfl)), if_neg (hnext '-' (Or.inr rfl))]

/-- C23. In every string, at every index at which (after any number of
blanks) a run of 1 to 15 hexadecimal digits starts, `get_value` returns the
base-16 value of the run and the index just past it; at a `%` followed by a
run of decimal digits whose value is below `2^62` it returns the base-10
value of the digits and the index just past them.  The run ends where the
string ends or the next character is no digit. -/
theorem get_value_numeral (env : Env) (st : State) (pre : List Char) (sp : Nat)
    (ds rest : List Char) :
    (ds ≠ [] → ds.length ≤ 15 → (∀ c ∈ ds, isHexDigit c = true) →
      (∀ c ∈ rest.head?, isHexDigit c = false) →
      get_value env st (pre ++ (List.replicate sp ' ' ++ (ds ++ rest))) pre.length
        = (st, numeral 16 ds, pre.length + sp + ds.length)) ∧
    ((∀ c ∈ ds, isDecDigit c = true) → numeral 10 ds < 2 ^ 62 →
      (∀ c ∈ rest.head?, isDecDigit c = false) →
      get_value env st (pre ++ (List.replicate sp ' ' ++ '%' :: (ds ++ rest))) pre.length
        = (st, numeral 10 ds, pre.length + sp + 1 + ds.length)) := by
  constructor
  · intro hne hlen hds hrest
    exact get_value_hex env st _ pre.length sp ds rest (List.drop_left _ _) hne hds hlen hrest
  · intro hds hval hrest
    exact get_value_dec env st _ pre.length sp ds rest (List.drop_left _ _) hds
      (by omega) hrest

set_option maxRecDepth 100000 in
/-- Witness of C23: `  1f,` gives 31 and index 4, `%255y` gives 255 and
index 4. -/
theorem get_value_numeral_witness :
    get_value Env.bare State.init [' ', ' ', '1', 'f', ','] 0 = (State.init, 31, 4) ∧
    get_value Env.bare State.init ['%', '2', '5', '5', 'y'] 0 = (State.init, 255, 4) :=
  ⟨(get_value_numeral Env.bare State.init [] 2 ['1', 'f'] [',']).1 (by decide) (by decide)
      (by decide) (by decide),
    (get_value_numeral Env.bare State.init [] 0 ['2', '5', '5'] ['y']).2 (by decide) (by decide)
      (by decide)⟩

set_option maxRecDepth 100000 in
/-- C24, the failing input. The sum `7fffffffffffffff+1` wraps to `-2^63`
and `expression` returns it as it is: the `+` branch has no clamp.  The
difference `0-1` is clamped to 0 by the `-` branch. -/
theorem expression_sum_negative (env : Env) (st : State) :
    expression env st ['7', 'f', 'f', 'f', 'f', 'f', 'f', 'f', 'f', 'f', 'f', 'f', 'f', 'f',
        'f', 'f', '+', '1'] 0 = (st, -9223372036854775808, 18) ∧
    expression env st ['0', '-', '1'] 0 = (st, 0, 3) :=
  ⟨rfl, rfl⟩

end Bi

/-! ## The address clause -/

namespace Bi

theorem charAt_lt (s : List Char) (idx : Nat) (h : idx < s.length) : charAt s idx = s[idx] := by
  unfold charAt
  exact List.getD_eq_getElem _ _ h

theorem comment_loop_id (s : List Char) (hs : ∀ c ∈ s, c ≠ '#' ∧ c ≠ backslash) :
    ∀ (fuel idx : Nat) (out : List Char), idx ≤ s.length → s.length - idx < fuel →
      comment_loop s fuel idx out = out ++ s.drop idx := by
  intro fuel
  induction fuel with
  | zero => intro idx out _ h; omega
  | succ fuel ih =>
    intro idx out hle hf
    unfold comment_loop
    by_cases hlt : idx < s.length
    · have hc := hs (s[idx]) (List.getElem_mem hlt)
      rw [if_pos hlt, charAt_lt s idx hlt, if_neg hc.1, if_neg (fun h => hc.2 h.2.1),
        if_neg (fun h => hc.2 h.2.1), ih (idx + 1) _ (by omega) (by omega)]
      rw [List.append_assoc]
      congr 1
      exact (List.drop_eq_getElem_cons hlt).symm
    · rw [if_neg hlt, List.drop_eq_nil_of_le (by omega), List.append_nil]

/-- A line without `#` and without `\` is its own `comment`. -/
theorem comment_id (s : List Char) (hs : ∀ c ∈ s, c ≠ '#' ∧ c ≠ backslash) : comment s = s := by
  unfold comment
  rw [comment_loop_id s hs _ 0 [] (by omega) (by omega)]
  rfl

/-- A line that `comment` leaves as it is and whose first character starts
none of the commands without an address goes to the address clause. -/
theorem commandline_step_address (env : Env) (fuel : Nat)
    (run : State → List Char → Option (Except Fault (State × Int))) (s : State)
    (c : Char) (r : List Char) (hcom : comment (c :: r) = c :: r)
    (hc : c ≠ 'q' ∧ c ≠ 'w' ∧ c ≠ 'r' ∧ c ≠ 'T' ∧ c ≠ 't' ∧ c ≠ 'n' ∧ c ≠ 'N' ∧ c ≠ '!' ∧
      c ≠ '?' ∧ c ≠ '/')
    (s1 : State) (x x2 : Int) (xf xf2 : Bool) (idx : Nat)
    (ha : address_clause env { s with cp := fpos s } (c :: r) = (s1, x, x2, xf, xf2, idx)) :
    commandline_step env fuel run s (c :: r)
      = address_command env fuel s1 x x2 xf xf2 (c :: r) idx := by
  obtain ⟨h1, h2, h3, h4, h5, h6, h7, h8, h9, h10⟩ := hc
  unfold commandline_step
  simp only [hcom, ha]
  have hch : charAt (c :: r) 0 = c := rfl
  simp [hch, h1, h2, h3, h4, h5, h6, h7, h8, h9, h10]


theorem head_blanks (k : Nat) (c : Char) (r : List Char) :
    ∀ x ∈ (List.replicate k ' ' ++ c :: r).head?, x = ' ' ∨ x = c := by
  intro x hx
  cases k with
  | zero => right; simpa using hx.symm
  | succ k => left; simpa [List.replicate_succ] using hx.symm

/-- The address clause `A,*N` and `A,B` in hexadecimal digits, followed by
blanks and a command character `c`. -/
theorem address_clause_hex (env : Env) (s : State) (dA dN : List Char) (k : Nat) (c : Char)
    (r : List Char) (star : Bool)
    (hA : dA ≠ [] ∧ dA.length ≤ 15 ∧ ∀ d ∈ dA, isHexDigit d = true)
    (hN : dN ≠ [] ∧ dN.length ≤ 15 ∧ ∀ d ∈ dN, isHexDigit d = true)
    (hc : c ≠ ' ' ∧ isHexDigit c = false ∧ c ≠ '+' ∧ c ≠ '-') :
    address_clause env s
        (dA ++ ',' :: ((if star then ['*'] else []) ++ (dN ++ (List.replicate k ' ' ++ c :: r))))
      = (s, numeral 16 dA,
          if star then max (numeral 16 dA) (numeral 16 dA + numeral 16 dN - 1)
          else max (numeral 16 dA) (numeral 16 dN),
          true, !star, dA.length + 1 + (if star then 1 else 0) + dN.length + k) := by
  obtain ⟨hAne, hAlen, hAd⟩ := hA
  obtain ⟨hNne, hNlen, hNd⟩ := hN
  obtain ⟨hc1, hc2, hc3, hc4⟩ := hc
  obtain ⟨hA0, hA1⟩ := numeral_hex_bound dA hAd hAlen
  obtain ⟨hN0, hN1⟩ := numeral_hex_bound dN hNd hNlen
  obtain ⟨a, dA', rfl⟩ := List.exists_cons_of_ne_nil hAne
  obtain ⟨n, dN', rfl⟩ := List.exists_cons_of_ne_nil hNne
  have han := isHexDigit_ne a (hAd a (by simp))
  have hnn := isHexDigit_ne n (hNd n (by simp))
  have hU : UNKNOWN = 2 ^ 62 := rfl
  have hAU : ¬ (numeral 16 (a :: dA') = UNKNOWN) := by omega
  have hNU : ¬ (numeral 16 (n :: dN') = UNKNOWN) := by omega
  have hrest2 : ∀ x ∈ (List.replicate k ' ' ++ c :: r).head?,
      isHexDigit x = false ∧ x ≠ '+' ∧ x ≠ '-' := by
    intro x hx
    rcases head_blanks k c r x hx with h | h
    · subst h; decide
    · subst h; exact ⟨hc2, hc3, hc4⟩
  cases star with
  | true =>
    simp only [if_true, Bool.not_true]
    generalize hline : (a :: dA') ++ ',' :: (['*'] ++ (n :: dN' ++ (List.replicate k ' ' ++ c :: r)))
      = line
    have hd0 : line.drop 0 = List.replicate 0 ' '
        ++ ((a :: dA') ++ ',' :: '*' :: (n :: dN' ++ (List.replicate k ' ' ++ c :: r))) := by
      rw [← hline]; rfl
    have hdA : line.drop (a :: dA').length
        = ',' :: '*' :: (n :: dN' ++ (List.replicate k ' ' ++ c :: r)) := by
      rw [← hline]; exact List.drop_left _ _
    have hd1 : line.drop ((a :: dA').length + 1)
        = '*' :: (n :: dN' ++ (List.replicate k ' ' ++ c :: r)) :=
      drop_drop_of line _ 1 [','] _ hdA rfl
    have hd2 : line.drop ((a :: dA').length + 1 + 1)
        = n :: dN' ++ (List.replicate k ' ' ++ c :: r) :=
      drop_drop_of line _ 1 ['*'] _ hd1 rfl
    have hd3 : line.drop ((a :: dA').length + 1 + 1 + (n :: dN').length)
        = List.replicate k ' ' ++ c :: r :=
      drop_drop_of line _ _ (n :: dN') _ hd2 rfl
    have hs0 : skipspc line 0 = 0 := skipspc_of_drop_zero line 0 a _ hd0 han.1
    have he1 : expression env s line 0 = (s, numeral 16 (a :: dA'), 0 + 0 + (a :: dA').length) :=
      expression_hex env s line 0 0 (a :: dA') _ hd0 (by simp) hAd hAlen
        (by intro x hx; simp at hx; subst hx; decide)
    have hs1 : skipspc line (a :: dA').length = (a :: dA').length :=
      skipspc_of_drop_zero line _ ',' _ hdA (by decide)
    have hs2 : skipspc line ((a :: dA').length + 1) = (a :: dA').length + 1 :=
      skipspc_of_drop_zero line _ '*' _ hd1 (by decide)
    have hs3 : skipspc line ((a :: dA').length + 1 + 1) = (a :: dA').length + 1 + 1 :=
      skipspc_of_drop_zero line _ n _ hd2 hnn.1
    have he2 : expression env s line ((a :: dA').length + 1 + 1)
        = (s, numeral 16 (n :: dN'), (a :: dA').length + 1 + 1 + 0 + (n :: dN').length) :=
      expression_hex env s line _ 0 (n :: dN') _ hd2 (by simp) hNd hNlen hrest2
    have hs4 : skipspc line ((a :: dA').length + 1 + 1 + (n :: dN').length)
        = (a :: dA').length + 1 + 1 + (n :: dN').length + k :=
      skipspc_of_drop line _ k c r hd3 hc1
    have hl1 : (a :: dA').length < line.length := lt_length_of_drop line _ _ _ hdA
    have hl2 : (a :: dA').length + 1 < line.length := lt_length_of_drop line _ _ _ hd1
    have hc1 : charAt line (a :: dA').length = ',' := charAt_of_drop line _ _ _ hdA
    have hc2 : charAt line ((a :: dA').length + 1) = '*' := charAt_of_drop line _ _ _ hd1
    have hw : wrap64 (numeral 16 (a :: dA') + numeral 16 (n :: dN') - 1)
        = numeral 16 (a :: dA') + numeral 16 (n :: dN') - 1 := by
      apply wrap64_id <;> omega
    unfold address_clause
    simp only [hs0, he1, Nat.zero_add, Nat.add_zero, hs1, hl1, hc1, true_and, if_true, hs2, hl2,
      hc2, hs3, he2, hAU, hNU, if_false, hw, hs4, ne_eq, not_false_eq_true, decide_True]
    refine Prod.ext rfl (Prod.ext rfl (Prod.ext ?_ rfl))
    simp only [max_def]
    split <;> split <;> omega
  | false =>
    simp only [Bool.false_eq_true, if_false, Bool.not_false, List.nil_append, Nat.add_zero]
    generalize hline : (a :: dA') ++ ',' :: (n :: dN' ++ (List.replicate k ' ' ++ c :: r)) = line
    have hd0 : line.drop 0 = List.replicate 0 ' '
        ++ ((a :: dA') ++ ',' :: (n :: dN' ++ (List.replicate k ' ' ++ c :: r))) := by
      rw [← hline]; rfl
    have hdA : line.drop (a :: dA').length
        = ',' :: (n :: dN' ++ (List.replicate k ' ' ++ c :: r)) := by
      rw [← hline]; exact List.drop_left _ _
    have hd2 : line.drop ((a :: dA').length + 1)
        = n :: dN' ++ (List.replicate k ' ' ++ c :: r) :=
      drop_drop_of line _ 1 [','] _ hdA rfl
    have hd3 : line.drop ((a :: dA').length + 1 + (n :: dN').length)
        = List.replicate k ' ' ++ c :: r :=
      drop_drop_of line _ _ (n :: dN') _ hd2 rfl
    have hs0 : skipspc line 0 = 0 := skipspc_of_drop_zero line 0 a _ hd0 han.1
    have he1 : expression env s line 0 = (s, numeral 16 (a :: dA'), 0 + 0 + (a :: dA').length) :=
      expression_hex env s line 0 0 (a :: dA') _ hd0 (by simp) hAd hAlen
        (by intro x hx; simp at hx; subst hx; decide)
    have hs1 : skipspc line (a :: dA').length = (a :: dA').length :=
      skipspc_of_drop_zero line _ ',' _ hdA (by decide)
    have hs3 : skipspc line ((a :: dA').length + 1) = (a :: dA').length + 1 :=
      skipspc_of_drop_zero line _ n _ hd2 hnn.1
    have he2 : expression env s line ((a :: dA').length + 1)
        = (s, numeral 16 (n :: dN'), (a :: dA').length + 1 + 0 + (n :: dN').length) :=
      expression_hex env s line _ 0 (n :: dN') _ hd2 (by simp) hNd hNlen hrest2
    have hs4 : skipspc line ((a :: dA').length + 1 + (n :: dN').length)
        = (a :: dA').length + 1 + (n :: dN').length + k :=
      skipspc_of_drop line _ k c r hd3 hc1
    have hl1 : (a :: dA').length < line.length := lt_length_of_drop line _ _ _ hdA
    have hl2 : (a :: dA').length + 1 < line.length := lt_length_of_drop line _ _ _ hd2
    have hc1 : charAt line (a :: dA').length = ',' := charAt_of_drop line _ _ _ hdA
    have hc2 : charAt line ((a :: dA').length + 1) = n := charAt_of_drop line _ _ _ hd2
    unfold address_clause
    have hstar : ¬ (n = '*') := hnn.2.2.2.2.2.2.2.2.2.2.2.2.2.2.2.2.2.2.2.1
    simp only [hs0, he1, Nat.zero_add, Nat.add_zero, hs1, hl1, hc1, true_and, if_true, hs3, hl2,
      hc2, hstar, he2, hAU, hNU, if_false, hs4, ne_eq, not_false_eq_true, decide_True]
    refine Prod.ext rfl (Prod.ext rfl (Prod.ext ?_ rfl))
    simp only [max_def]
    split <;> split <;> omega
theorem get_value_unset_mark (env : Env) (s : State) (l : Char) (rest : List Char)
    (hl : 'a' ≤ l ∧ l ≤ 'z') (hm : markOf s l = UNKNOWN) :
    get_value env s (Char.ofNat 39 :: l :: rest) 0
      = (stderr_msg s "Unknown mark.", UNKNOWN, 1) := by
  have hc0 : charAt (Char.ofNat 39 :: l :: rest) 0 = Char.ofNat 39 := rfl
  have hc1 : charAt (Char.ofNat 39 :: l :: rest) (0 + 1) = l := rfl
  have hs : skipspc (Char.ofNat 39 :: l :: rest) 0 = 0 :=
    skipspc_of_drop_zero _ 0 (Char.ofNat 39) (l :: rest) rfl (by decide)
  have hlen : 0 + 1 < (Char.ofNat 39 :: l :: rest).length := by
    simp only [List.length_cons]; omega
  unfold get_value
  rw [if_neg (by simp)]
  simp only [hs]
  rw [if_neg (by simp), hc0, if_neg (by decide), if_neg (by decide), if_neg (by decide),
    if_pos ⟨rfl, hlen, by rw [hc1]; exact hl.1, by rw [hc1]; exact hl.2⟩]
  simp only [hc1, hm, if_true]

theorem address_clause_unset_mark (env : Env) (s : State) (l : Char)
    (hl : 'a' ≤ l ∧ l ≤ 'z') (hm : markOf s l = UNKNOWN) :
    address_clause env s [Char.ofNat 39, l]
      = (stderr_msg s "Unknown mark.", fpos s, fpos s, false, false, 1) := by
  have hg := get_value_unset_mark env s l [] hl hm
  have hl1 : l ≠ ',' := by intro h; subst h; revert hl; decide
  have hl2 : l ≠ ' ' := by intro h; subst h; revert hl; decide
  have hs : skipspc [Char.ofNat 39, l] 0 = 0 :=
    skipspc_of_drop_zero _ 0 (Char.ofNat 39) [l] rfl (by decide)
  have hs1 : skipspc [Char.ofNat 39, l] 1 = 1 :=
    skipspc_of_drop_zero _ 1 l [] rfl hl2
  have hc1 : charAt [Char.ofNat 39, l] 1 = l := rfl
  have he : expression env s [Char.ofNat 39, l] 0
      = (stderr_msg s "Unknown mark.", UNKNOWN, 1) := by
    unfold expression
    rw [hg]
    simp only [ne_eq, not_true_eq_false, false_and, and_false, if_false]
  have hf : fpos (stderr_msg s "Unknown mark.") = fpos s := rfl
  unfold address_clause
  dsimp only
  rw [hs, he]
  dsimp only
  rw [hs1, hc1, if_neg (fun h => hl1 h.2)]
  dsimp only
  rw [hs1, hf, if_neg (lt_irrefl _)]
  simp

set_option maxRecDepth 100000 in
/-- C26, what the code does. For every state and every letter `l` whose mark
is unset, the two-character line made of an apostrophe and `l` reports
"Unknown mark." and then runs the letter `l` as the command, at the cursor
and with no address (`xf` and `xf2` false).  On the buffer `01 02 03 04 05`
with the cursor at 0 and no mark set: with `d` the byte at the cursor is
deleted and yanked, with `y` the clip register is emptied, with `p` the clip
register is pasted over the buffer. -/
theorem unset_mark_runs_command (env : Env) (fuel : Nat) (s : State) (l : Char)
    (hl : 'a' ≤ l ∧ l ≤ 'z') (hm : markOf s l = UNKNOWN) :
    commandline_ env (fuel + 1) s [Char.ofNat 39, l]
      = address_command env fuel (stderr_msg { s with cp := fpos s } "Unknown mark.")
          (fpos s) (fpos s) false false [Char.ofNat 39, l] 1 ∧
    (∃ s', commandline_ env (fuel + 1) (State.ofBytes [1, 2, 3, 4, 5] 4096) [Char.ofNat 39, 'd']
        = some (.ok (s', -1)) ∧
      s'.mem = [2, 3, 4, 5] ∧ s'.yank = [1] ∧
      s'.out = [Msg.err "Unknown mark.", Msg.std "1 bytes yanked.",
        Msg.std "1 bytes deleted."]) ∧
    (∃ s', commandline_ env (fuel + 1) { State.ofBytes [1, 2, 3, 4, 5] 4096 with yank := [7] }
        [Char.ofNat 39, 'y'] = some (.ok (s', -1)) ∧
      s'.mem = [1, 2, 3, 4, 5] ∧ s'.yank = []) ∧
    (∃ s', commandline_ env (fuel + 1) { State.ofBytes [1, 2, 3, 4, 5] 4096 with yank := [9, 9] }
        [Char.ofNat 39, 'p'] = some (.ok (s', -1)) ∧
      s'.mem = [9, 9, 3, 4, 5]) := by
  refine ⟨?_, ⟨_, rfl, rfl, rfl, rfl⟩, ⟨_, rfl, rfl, rfl⟩, ⟨_, rfl, rfl⟩⟩
  have hcom : comment [Char.ofNat 39, l] = [Char.ofNat 39, l] := by
    apply comment_id
    intro c hc
    simp only [List.mem_cons, List.mem_singleton, List.not_mem_nil, or_false] at hc
    rcases hc with h | h
    · subst h; decide
    · subst h; constructor <;> (intro h; subst h; revert hl; decide)
  exact commandline_step_address env fuel (commandline_ env fuel) s (Char.ofNat 39) [l] hcom
    (by decide) _ _ _ _ _ _ (address_clause_unset_mark env { s with cp := fpos s } l hl hm)

set_option maxRecDepth 100000 in
/-- Witness of C26 for the letter `d`. -/
theorem unset_mark_runs_command_witness :
    commandline_ Env.bare (0 + 1) (State.ofBytes [1, 2, 3, 4, 5] 4096) [Char.ofNat 39, 'd']
      = address_command Env.bare 0
          (stderr_msg { State.ofBytes [1, 2, 3, 4, 5] 4096 with cp := 0 } "Unknown mark.")
          0 0 false false [Char.ofNat 39, 'd'] 1 :=
  (unset_mark_runs_command Env.bare 0 (State.ofBytes [1, 2, 3, 4, 5] 4096) 'd' (by decide)
    (by decide)).1

end Bi

/-! ## Multi-byte shifts, quitting, substituting in a range -/

namespace Bi

set_option maxRecDepth 100000 in
/-- C27, the failing input. On nine bytes the value is read into 64 bits and
the ninth byte is lost: `00 00 00 00 00 00 00 00 01` shifted left by one bit
becomes nine zero bytes (the nine-byte integer `2^64` should become `2^65`,
byte 8 = `02`), also through the command line `0,8<<1,0`; and
`01 02 03 04 05 06 07 c8 09` with shift-in bit 1 gets `ff` as its ninth
byte.  On eight bytes the result is the one of the claim: `80 .. 81` with
shift-in bit 1 becomes `01 01 00 00 00 00 00 02`. -/
theorem left_shift_multibyte_nine :
    (∃ s', left_shift_multibyte (State.ofBytes [0, 0, 0, 0, 0, 0, 0, 0, 1] 4096) 0 8 0 = .ok s' ∧
      s'.mem = [0, 0, 0, 0, 0, 0, 0, 0, 0]) ∧
    (∃ s', left_shift_multibyte (State.ofBytes [1, 2, 3, 4, 5, 6, 7, 0xC8, 9] 4096) 0 8 1
        = .ok s' ∧
      s'.mem = [3, 4, 6, 8, 10, 12, 14, 0x90, 0xFF]) ∧
    (∃ s', left_shift_multibyte (State.ofBytes [0x80, 0, 0, 0, 0, 0, 0, 0x81] 4096) 0 7 1
        = .ok s' ∧
      s'.mem = [1, 1, 0, 0, 0, 0, 0, 2]) ∧
    (∀ env fuel, ∃ s', commandline_ env (fuel + 1)
        (State.ofBytes [0, 0, 0, 0, 0, 0, 0, 0, 1] 4096)
        ['0', ',', '8', '<', '<', '1', ',', '0'] = some (.ok (s', -1)) ∧
      s'.mem = [0, 0, 0, 0, 0, 0, 0, 0, 0]) :=
  ⟨⟨_, rfl, rfl⟩, ⟨_, rfl, rfl⟩, ⟨_, rfl, rfl⟩, fun _ _ => ⟨_, rfl, rfl⟩⟩

theorem setmem_lastchange (s s' : State) (addr data : Int) (h0 : 0 ≤ addr)
    (h : setmem s addr data = .ok s') : s'.lastchange = true := by
  unfold setmem at h
  rw [if_neg (by omega)] at h
  cases hc : ensure_mem_capacity s (addr + 1) with
  | error e => rw [hc] at h; cases h
  | ok s1 =>
    rw [hc] at h
    simp only [bind, Except.bind] at h
    split at h
    · cases h
    · cases h; rfl

theorem insmem_lastchange (s s' : State) (start : Int) (mem2 : List Byte) (hne : mem2 ≠ [])
    (h : insmem s start mem2 = .ok s') : s'.lastchange = true := by
  have hpos : 0 < mem2.length := List.length_pos.mpr hne
  unfold insmem at h
  dsimp only at h
  rw [if_neg (by omega)] at h
  cases hc : ensure_mem_capacity s (s.mem_len + (mem2.length : Int)) with
  | error e => rw [hc] at h; cases h
  | ok s1 =>
    rw [hc] at h
    simp only [bind, Except.bind] at h
    split_ifs at h <;> first | (cases h; done) | (cases h; rfl)

theorem ovwmem_lastchange (s s' : State) (start : Int) (mem0 : List Byte) (hne : mem0 ≠ [])
    (h : ovwmem s start mem0 = .ok s') : s'.lastchange = true := by
  have hpos : 0 < mem0.length := List.length_pos.mpr hne
  unfold ovwmem at h
  dsimp only at h
  rw [if_neg (by omega)] at h
  cases hc : ensure_mem_capacity s (start + (mem0.length : Int)) with
  | error e => rw [hc] at h; cases h
  | ok s1 =>
    rw [hc] at h
    simp only [bind, Except.bind] at h
    split_ifs at h <;> first | (cases h; done) | (cases h; rfl)

theorem delmem_lastchange (s s' : State) (start «end» : Int) (yf : Bool)
    (hs : start < s.mem_len) (he : start ≤ «end») (h : delmem s start «end» yf = .ok s') :
    s'.lastchange = true := by
  unfold delmem at h
  dsimp only at h
  rw [if_neg (by omega)] at h
  split at h
  · cases h
  · cases yf with
    | false =>
      simp only [Bool.false_eq_true, if_false, bind, Except.bind] at h
      split_ifs at h <;> first | (cases h; done) | (cases h; rfl)
    | true =>
      simp only [if_true] at h
      cases hy : yankmem s start «end» with
      | error e => rw [hy] at h; cases h
      | ok y =>
        rw [hy] at h
        simp only [bind, Except.bind] at h
        split_ifs at h <;> first | (cases h; done) | (cases h; rfl)

theorem comment_q : comment ['q'] = ['q'] := rfl

theorem comment_q_bang : comment ['q', '!'] = ['q', '!'] := rfl

theorem commandline_q_changed (env : Env) (fuel : Nat) (s : State) (h : s.lastchange = true) :
    commandline_ env (fuel + 1) s ['q'] = some (.ok (stderr_msg { s with cp := fpos s }
      "No write since last change. To overriding quit, use 'q!'.", -1)) := by
  simp [commandline_, commandline_step, comment_q, h]

theorem commandline_q_clean (env : Env) (fuel : Nat) (s : State) (h : s.lastchange = false) :
    commandline_ env (fuel + 1) s ['q'] = some (.ok ({ s with cp := fpos s }, 0)) := by
  simp [commandline_, commandline_step, comment_q, h]

theorem commandline_q_bang (env : Env) (fuel : Nat) (s : State) :
    commandline_ env (fuel + 1) s ['q', '!'] = some (.ok ({ s with cp := fpos s }, 0)) := by
  simp [commandline_, commandline_step, comment_q_bang]

theorem quitRefused_of_lastchange (env : Env) (fuel : Nat) (s : State)
    (h : s.lastchange = true) : QuitRefused env fuel s :=
  ⟨⟨_, commandline_q_changed env fuel s h⟩, ⟨_, commandline_q_bang env fuel s⟩⟩

/-- C28. After a `setmem` at an offset `>= 0`, an `insmem` or an `ovwmem` of
a non-empty sequence, or a `delmem` of a valid range, the line `q` is refused
(`commandline_` returns -1) and the line `q!` returns 0; and in a state whose
unsaved-change flag is clear the line `q` returns 0. -/
theorem quit_after_change (env : Env) (fuel : Nat) (s s' : State) :
    (∀ addr data : Int, 0 ≤ addr → setmem s addr data = .ok s' → QuitRefused env fuel s') ∧
    (∀ (start : Int) (mem2 : List Byte), mem2 ≠ [] → insmem s start mem2 = .ok s' →
      QuitRefused env fuel s') ∧
    (∀ (start : Int) (mem0 : List Byte), mem0 ≠ [] → ovwmem s start mem0 = .ok s' →
      QuitRefused env fuel s') ∧
    (∀ (start «end» : Int) (yf : Bool), start < s.mem_len → start ≤ «end» →
      delmem s start «end» yf = .ok s' → QuitRefused env fuel s') ∧
    (s.lastchange = false →
      commandline_ env (fuel + 1) s ['q'] = some (.ok ({ s with cp := fpos s }, 0))) :=
  ⟨fun addr data h0 h =>
      quitRefused_of_lastchange env fuel s' (setmem_lastchange s s' addr data h0 h),
    fun start mem2 hne h =>
      quitRefused_of_lastchange env fuel s' (insmem_lastchange s s' start mem2 hne h),
    fun start mem0 hne h =>
      quitRefused_of_lastchange env fuel s' (ovwmem_lastchange s s' start mem0 hne h),
    fun start e yf hs he h =>
      quitRefused_of_lastchange env fuel s' (delmem_lastchange s s' start e yf hs he h),
    commandline_q_clean env fuel s⟩

set_option maxRecDepth 100000 in
/-- Witness of C28: after writing one byte `q` is refused, on a fresh buffer
it quits. -/
theorem quit_after_change_witness :
    (∃ s', setmem (State.ofBytes [1] 4096) 0 7 = .ok s' ∧ QuitRefused Env.bare 0 s') ∧
    commandline_ Env.bare (0 + 1) (State.ofBytes [1] 4096) ['q']
      = some (.ok ({ State.ofBytes [1] 4096 with cp := 0 }, 0)) :=
  ⟨⟨_, rfl, (quit_after_change Env.bare 0 (State.ofBytes [1] 4096) _).1 0 7 (by decide) rfl⟩,
    (quit_after_change Env.bare 0 (State.ofBytes [1] 4096) (State.ofBytes [1] 4096)).2.2.2.2 rfl⟩

set_option maxRecDepth 100000 in
theorem address_clause_s (env : Env) (s : State) (rest : List Char) :
    address_clause env s ('s' :: rest) = (s, fpos s, fpos s, false, false, 0) := by
  have h1 : expression env s ('s' :: rest) 0 = (s, UNKNOWN, 0) := by
    simp [expression, get_value, skipspc, skipspc_from, charAt, lbrace, isHexDigit]
  simp [address_clause, skipspc, skipspc_from, h1, charAt]

/-- C29. A substitute whose match span is zero is rejected with
"Specify search object." before the replacement loop starts (for every number
of rounds, 0 included) and with the buffer as it was: with an empty hex
pattern, with no pattern when the recorded span is 0, and for the command
lines `s//` and `s`. -/
theorem substitute_zero_span (env : Env) (fuel : Nat) (s : State) :
    (∀ (start «end» : Int) (xf xf2 : Bool) (n : List Byte),
      scommand env.re fuel s start «end» xf xf2 (SPattern.hex []) n
        = some (.ok (stderr_msg
            { s with nff := false, regexpMode := false, remem := "", smem := [], span := 0 }
            "Specify search object."))) ∧
    (s.span = 0 → ∀ (start «end» : Int) (xf xf2 : Bool) (n : List Byte),
      scommand env.re fuel s start «end» xf xf2 SPattern.absent n
        = some (.ok (stderr_msg { s with nff := false } "Specify search object."))) ∧
    commandline_ env (fuel + 1) s ['s', '/', '/']
      = some (.ok (stderr_msg
          { s with
            cp := fpos s, nff := false, regexpMode := false, remem := "", smem := [], span := 0 }
          "Specify search object.", -1)) ∧
    (s.span = 0 → commandline_ env (fuel + 1) s ['s']
      = some (.ok (stderr_msg { s with cp := fpos s, nff := false } "Specify search object.",
          -1))) := by
  refine ⟨?_, ?_, ?_, ?_⟩
  · intro start e xf xf2 n
    simp [scommand]
  · intro h start e xf xf2 n
    simp [scommand, h]
  · have hcom : comment ['s', '/', '/'] = ['s', '/', '/'] := rfl
    have hstep := commandline_step_address env fuel (commandline_ env fuel) s 's' ['/', '/'] hcom
      (by decide) _ _ _ _ _ _ (address_clause_s env _ _)
    have hg : get_hexs env { s with cp := fpos s, nff := false } ['s', '/', '/'] 3
        = ({ s with cp := fpos s, nff := false }, [], 3) := rfl
    show commandline_step env fuel (commandline_ env fuel) s ['s', '/', '/'] = _
    rw [hstep]
    simp [address_command, command_char, charAt, scommand_line, skipspc, skipspc_from, hg,
      scommand_replace, Except.map]
  · intro h
    have hcom : comment ['s'] = ['s'] := rfl
    have hstep := commandline_step_address env fuel (commandline_ env fuel) s 's' [] hcom
      (by decide) _ _ _ _ _ _ (address_clause_s env _ _)
    show commandline_step env fuel (commandline_ env fuel) s ['s'] = _
    rw [hstep]
    simp [address_command, command_char, charAt, scommand_line, skipspc, skipspc_from,
      scommand_replace, h, Except.map]

/-- Witness of C29: the line `s` on a fresh one-byte buffer, whose span is
0. -/
theorem substitute_zero_span_witness :
    commandline_ Env.bare (0 + 1) (State.ofBytes [0x61] 4096) ['s']
      = some (.ok (stderr_msg
          { State.ofBytes [0x61] 4096 with cp := fpos (State.ofBytes [0x61] 4096), nff := false }
          "Specify search object.", -1)) :=
  (substitute_zero_span Env.bare 0 (State.ofBytes [0x61] 4096)).2.2.2 rfl

set_option maxRecDepth 100000 in
/-- C30, the failing input. On the buffer `ababab` with the range `[0, 1]`,
the substitute of `ab` by `x` replaces two occurrences and leaves `xxab`: the
occurrence that began at offset 2, outside the range, has moved to offset 1
after the first replacement and is replaced too.  This is shown for
`scommand` with the parsed pattern and for the command line
`0,1s//61 62/x`; 8 rounds or more give this result. -/
theorem scommand_range_ababab (env : Env) (k : Nat) :
    (∃ s', scommand env.re (k + 8)
        (State.ofBytes [0x61, 0x62, 0x61, 0x62, 0x61, 0x62] 4096) 0 1 true true
        (SPattern.hex [0x61, 0x62]) [0x78] = some (.ok s') ∧
      s'.mem = [0x78, 0x78, 0x61, 0x62] ∧
      s'.out = [Msg.std "  2 times replaced."]) ∧
    (∃ s', commandline_ env (k + 9)
        (State.ofBytes [0x61, 0x62, 0x61, 0x62, 0x61, 0x62] 4096)
        ['0', ',', '1', 's', '/', '/', '6', '1', ' ', '6', '2', '/', 'x'] = some (.ok (s', -1)) ∧
      s'.mem = [0x78, 0x78, 0x61, 0x62] ∧
      s'.out = [Msg.std "  2 times replaced."]) :=
  ⟨⟨_, rfl, rfl, rfl⟩, ⟨_, rfl, rfl, rfl⟩⟩

end Bi

namespace Bi

/-! ## A single address, and the mark table -/

/-- The address clause of a line that holds one address in hexadecimal
digits, then blanks, then nothing or a command character. -/
theorem address_clause_single (env : Env) (s : State) (dA : List Char) (k : Nat)
    (rest : List Char)
    (hA : dA ≠ [] ∧ dA.length ≤ 15 ∧ ∀ d ∈ dA, isHexDigit d = true)
    (hrest : ∀ c ∈ rest.head?, c ≠ ' ' ∧ c ≠ ',' ∧ isHexDigit c = false ∧ c ≠ '+' ∧ c ≠ '-') :
    address_clause env s (dA ++ (List.replicate k ' ' ++ rest))
      = (s, numeral 16 dA, numeral 16 dA, true, false, dA.length + k) := by
  obtain ⟨hAne, hAlen, hAd⟩ := hA
  obtain ⟨hA0, hA1⟩ := numeral_hex_bound dA hAd hAlen
  obtain ⟨a, dA', rfl⟩ := List.exists_cons_of_ne_nil hAne
  have han := isHexDigit_ne a (hAd a (by simp))
  have hU : UNKNOWN = 2 ^ 62 := rfl
  have hAU : ¬ (numeral 16 (a :: dA') = UNKNOWN) := by omega
  generalize hline : (a :: dA') ++ (List.replicate k ' ' ++ rest) = line
  have hd0 : line.drop 0 = List.replicate 0 ' '
      ++ ((a :: dA') ++ (List.replicate k ' ' ++ rest)) := by
    rw [← hline]; rfl
  have hdA : line.drop (a :: dA').length = List.replicate k ' ' ++ rest := by
    rw [← hline]; exact List.drop_left _ _
  have hdk : line.drop ((a :: dA').length + k) = rest :=
    drop_drop_of line _ k _ _ hdA (by simp)
  have hrest2 : ∀ x ∈ (List.replicate k ' ' ++ rest).head?,
      isHexDigit x = false ∧ x ≠ '+' ∧ x ≠ '-' := by
    intro x hx
    cases k with
    | zero =>
      have := hrest x (by simpa using hx)
      exact ⟨this.2.2.1, this.2.2.2.1, this.2.2.2.2⟩
    | succ k =>
      have : x = ' ' := by simpa [List.replicate_succ] using hx.symm
      subst this; decide
  have hs0 : skipspc line 0 = 0 := skipspc_of_drop_zero line 0 a _ hd0 han.1
  have he1 : expression env s line 0 = (s, numeral 16 (a :: dA'), 0 + 0 + (a :: dA').length) :=
    expression_hex env s line 0 0 (a :: dA') _ hd0 (by simp) hAd hAlen hrest2
  have hs1 : skipspc line (a :: dA').length = (a :: dA').length + k := by
    cases hr : rest with
    | nil =>
      rw [hr, List.append_nil] at hdA
      exact skipspc_of_drop_nil line _ k hdA
    | cons c r =>
      rw [hr] at hdA
      exact skipspc_of_drop line _ k c r hdA (hrest c (by simp [hr])).1
  have hs2 : skipspc line ((a :: dA').length + k) = (a :: dA').length + k := by
    cases hr : rest with
    | nil =>
      rw [hr] at hdk
      exact skipspc_of_drop_nil line _ 0 hdk
    | cons c r =>
      rw [hr] at hdk
      exact skipspc_of_drop_zero line _ c r hdk (hrest c (by simp [hr])).1
  have hcomma : ¬ ((a :: dA').length + k < line.length ∧
      charAt line ((a :: dA').length + k) = ',') := by
    rintro ⟨h1, h2⟩
    cases hr : rest with
    | nil =>
      rw [hr] at hdk
      have := congrArg List.length hdk
      simp only [List.length_drop, List.length_nil] at this
      omega
    | cons c r =>
      rw [hr] at hdk
      rw [charAt_of_drop line _ c r hdk] at h2
      exact (hrest c (by simp [hr])).2.1 h2
  unfold address_clause
  simp only [hs0, he1, Nat.zero_add, hs1, hcomma, if_false, hAU, ne_eq, not_false_eq_true,
    decide_True, lt_self_iff_false, hs2]

/-- The `'l` atom of a set mark. -/
theorem get_value_set_mark (env : Env) (s : State) (l : Char) (rest : List Char)
    (hl : 'a' ≤ l ∧ l ≤ 'z') (hm : markOf s l ≠ UNKNOWN) :
    get_value env s (Char.ofNat 39 :: l :: rest) 0 = (s, markOf s l, 2) := by
  have hc0 : charAt (Char.ofNat 39 :: l :: rest) 0 = Char.ofNat 39 := rfl
  have hc1 : charAt (Char.ofNat 39 :: l :: rest) (0 + 1) = l := rfl
  have hs : skipspc (Char.ofNat 39 :: l :: rest) 0 = 0 :=
    skipspc_of_drop_zero _ 0 (Char.ofNat 39) (l :: rest) rfl (by decide)
  have hlen : 0 + 1 < (Char.ofNat 39 :: l :: rest).length := by
    simp only [List.length_cons]; omega
  unfold get_value
  rw [if_neg (by simp)]
  simp only [hs]
  rw [if_neg (by simp), hc0, if_neg (by decide), if_neg (by decide), if_neg (by decide),
    if_pos ⟨rfl, hlen, by rw [hc1]; exact hl.1, by rw [hc1]; exact hl.2⟩]
  simp only [hc1, hm, if_false]

theorem letter_index (c : Char) (hc : 'a' ≤ c ∧ c ≤ 'z') :
    97 ≤ c.toNat ∧ c.toNat ≤ 122 :=
  ⟨Char.le_def.mp hc.1, Char.le_def.mp hc.2⟩

theorem toNat_ne_of_ne (c l : Char) (h : c ≠ l) : c.toNat ≠ l.toNat := by
  intro e
  apply h
  rw [← Char.ofNat_toNat c, ← Char.ofNat_toNat l, e]

/-- What `mark[letter - 'a'] = x` does to the table as `get_value` reads
it. -/
theorem markOf_cmd_m (s : State) (x : Int) (l : Char) (hl : 'a' ≤ l ∧ l ≤ 'z')
    (hlen : s.mark.length = 26) :
    markOf (cmd_m s x l) l = x ∧
    (∀ c : Char, 'a' ≤ c ∧ c ≤ 'z' → c ≠ l → markOf (cmd_m s x l) c = markOf s c) ∧
    (cmd_m s x l).mem = s.mem ∧ (cmd_m s x l).yank = s.yank ∧
    (cmd_m s x l).mark.length = 26 := by
  obtain ⟨h1, h2⟩ := letter_index l hl
  have ha : 'a'.toNat = 97 := rfl
  unfold cmd_m markOf
  rw [if_pos hl]
  simp only [ha]
  refine ⟨?_, ?_, trivial, trivial, by simpa using hlen⟩
  · rw [List.getD_eq_getElem?_getD, List.getElem?_set_self (by omega)]
    rfl
  · intro c hc hne
    obtain ⟨h3, h4⟩ := letter_index c hc
    have := toNat_ne_of_ne c l hne
    rw [List.getD_eq_getElem?_getD, List.getD_eq_getElem?_getD,
      List.getElem?_set_ne (by omega)]

/-! ## Single-byte rotation; a failed read -/

set_option maxRecDepth 100000 in
theorem rotl_bits : ∀ v : Nat, v < 256 →
    ((v <<< 1) ||| ((v &&& 0x80) >>> 7)) = if v < 128 then 2 * v else 2 * v + 1 := by
  decide

set_option maxRecDepth 100000 in
theorem rotr_bits : ∀ v : Nat, v < 256 →
    ((v >>> 1) ||| ((v &&& 0x01) <<< 7)) = v / 2 + (v % 2) * 128 := by
  decide

set_option maxRecDepth 100000 in
/-- C35. One single-byte left rotation of the byte `v` at an offset `x >= 0`
returns, and leaves `2 * v` when `v < 128` and `0` otherwise: the rotated
value `(v << 1) | (v >> 7)` is handed to `setmem` unmasked, and `setmem` stores
0 for a value above 255.  `right_rotate_byte` leaves
`(v >> 1) | ((v & 1) << 7)`.  So `81` rotated left gives `00`, eight left
rotations of `01` (the `<` command, eight times, no operand) give `00`, and a
left rotation of `C0` followed by a right rotation gives `00`. -/
theorem left_rotate_byte_single (s : State) (x : Int) (h0 : 0 ≤ x) (hm : x < MAX_MEM_SIZE) :
    (∃ s', left_rotate_byte s x x = .ok s' ∧
      readmem s' x = (if readmem s x < 128 then 2 * readmem s x else 0)) ∧
    (∃ s', right_rotate_byte s x x = .ok s' ∧
      readmem s' x = readmem s x / 2 + (readmem s x % 2) * 128) ∧
    (∃ s', left_rotate_byte (State.ofBytes [0x81] 4096) 0 0 = .ok s' ∧ s'.mem = [0]) ∧
    (∃ s', shift_rotate (State.ofBytes [0x01] 4096) 0 0 8 UNKNOWN false '<' = .ok s' ∧
      s'.mem = [0]) ∧
    (∃ s1 s2, left_rotate_byte (State.ofBytes [0xC0] 4096) 0 0 = .ok s1 ∧
      right_rotate_byte s1 0 0 = .ok s2 ∧ s2.mem = [0]) := by
  have hr := readmem_range s x
  have hlt : (readmem s x).toNat < 256 := by omega
  have hone : (x - x + 1).toNat = 1 := by omega
  refine ⟨?_, ?_, ⟨_, rfl, rfl⟩, ⟨_, rfl, rfl⟩, ⟨_, _, rfl, rfl, rfl⟩⟩
  · obtain ⟨s', h1, h2⟩ := setmem_readmem_any s x
      ((((readmem s x).toNat <<< 1) ||| (((readmem s x).toNat &&& 0x80) >>> 7) : Nat) : Int)
      h0 hm
    refine ⟨s', ?_, ?_⟩
    · unfold left_rotate_byte
      rw [hone]
      simp only [setmem_loop, bind, Except.bind]
      rw [h1]
    · rw [rotl_bits _ hlt] at h2
      by_cases hv : readmem s x < 128
      · have hv' : (readmem s x).toNat < 128 := by omega
        rw [if_pos hv'] at h2
        rw [if_pos hv, h2, if_pos (by push_cast; omega)]
        push_cast; omega
      · have hv' : ¬ (readmem s x).toNat < 128 := by omega
        rw [if_neg hv'] at h2
        rw [if_neg hv, h2, if_neg (by push_cast; omega)]
  · obtain ⟨s', h1, h2⟩ := setmem_readmem_any s x
      ((((readmem s x).toNat >>> 1) ||| (((readmem s x).toNat &&& 0x01) <<< 7) : Nat) : Int)
      h0 hm
    refine ⟨s', ?_, ?_⟩
    · unfold right_rotate_byte
      rw [hone]
      simp only [setmem_loop, bind, Except.bind]
      rw [h1]
    · rw [rotr_bits _ hlt] at h2
      rw [h2, if_pos (by push_cast; omega)]
      push_cast
      omega

set_option maxRecDepth 100000 in
/-- Witness of C35: the byte `81` at offset 0. -/
theorem left_rotate_byte_single_witness :
    (∃ s', left_rotate_byte (State.ofBytes [0x81] 4096) 0 0 = .ok s' ∧
      readmem s' 0 = (if readmem (State.ofBytes [0x81] 4096) 0 < 128
        then 2 * readmem (State.ofBytes [0x81] 4096) 0 else 0)) :=
  (left_rotate_byte_single (State.ofBytes [0x81] 4096) 0 (by decide) (by decide)).1

/-- A failed `r` or `R` goes on to the command character. -/
theorem address_command_r_fails (env : Env) (fuel : Nat) (s : State) (x x2 : Int)
    (xf xf2 : Bool) (line : List Char) (idx : Nat) (hidx : idx + 1 < line.length)
    (hch : charAt line idx = 'r' ∨ charAt line idx = 'R')
    (hfn : skip_blanks (line.drop (idx + 1)) ≠ [])
    (hopen : env.readfile (skip_blanks (line.drop (idx + 1))) = none) :
    address_command env fuel s x x2 xf xf2 line idx
      = command_char env fuel (stderr_msg s "File read error.") x x2 xf xf2 line (idx + 1) := by
  have hy : ¬ (charAt line idx = 'y') := by rcases hch with h | h <;> rw [h] <;> decide
  have hp : ¬ (charAt line idx = 'p') := by rcases hch with h | h <;> rw [h] <;> decide
  have hP : ¬ (charAt line idx = 'P') := by rcases hch with h | h <;> rw [h] <;> decide
  have hmm : ¬ (charAt line idx = 'm') := by rcases hch with h | h <;> rw [h] <;> decide
  have hl : ¬ ((skip_blanks (line.drop (idx + 1))).length = 0) := by
    intro h; exact hfn (List.length_eq_zero.mp h)
  unfold address_command
  rw [if_neg (by omega), if_neg (fun h => hy h.2), if_neg (fun h => hp h.2),
    if_neg (fun h => hP h.2), if_neg (fun h => hmm h.2), if_pos ⟨by omega, hch⟩]
  simp only []
  rw [if_neg (by omega), if_neg hl, hopen]

set_option maxRecDepth 100000 in
/-- C33. When no auxiliary file can be opened, the `r` and `R` branches report
`File read error.` and go on to the command characters, which take the first
character of the file name as a command: on the buffer `01 02 03` the line
`0rdx` deletes the byte at 0 and puts it in the clip register, the line `0R~`
complements it, and the line `0rx` leaves the buffer and the clip register
unchanged and reports `Unrecognized command.` as well. -/
theorem read_failure_runs_command (env : Env) (hopen : ∀ fn, env.readfile fn = none)
    (fuel : Nat) :
    (∃ s', commandline_ env (fuel + 1) (State.ofBytes [1, 2, 3] 4096) ['0', 'r', 'd', 'x']
        = some (.ok (s', -1)) ∧ s'.mem = [2, 3] ∧ s'.yank = [1] ∧
      s'.out = [Msg.err "File read error.", Msg.std "1 bytes yanked.",
        Msg.std "1 bytes deleted."]) ∧
    (∃ s', commandline_ env (fuel + 1) (State.ofBytes [1, 2, 3] 4096) ['0', 'R', '~']
        = some (.ok (s', -1)) ∧ s'.mem = [254, 2, 3]) ∧
    (∃ s', commandline_ env (fuel + 1) (State.ofBytes [1, 2, 3] 4096) ['0', 'r', 'x']
        = some (.ok (s', -1)) ∧ s'.mem = [1, 2, 3] ∧ s'.yank = [] ∧
      s'.out = [Msg.err "File read error.", Msg.err "Unrecognized command."]) := by
  have h1 : env.readfile ['d', 'x'] = none := hopen _
  have h2 : env.readfile ['~'] = none := hopen _
  have h3 : env.readfile ['x'] = none := hopen _
  have e1 : commandline_ env (fuel + 1) (State.ofBytes [1, 2, 3] 4096) ['0', 'r', 'd', 'x']
      = command_char env fuel (stderr_msg (State.ofBytes [1, 2, 3] 4096) "File read error.")
          0 0 true false ['0', 'r', 'd', 'x'] 2 := by
    have := address_command_r_fails env fuel (State.ofBytes [1, 2, 3] 4096) 0 0 true false
      ['0', 'r', 'd', 'x'] 1 (by decide) (Or.inl rfl) (by decide) h1
    exact this
  have e2 : commandline_ env (fuel + 1) (State.ofBytes [1, 2, 3] 4096) ['0', 'R', '~']
      = command_char env fuel (stderr_msg (State.ofBytes [1, 2, 3] 4096) "File read error.")
          0 0 true false ['0', 'R', '~'] 2 := by
    have := address_command_r_fails env fuel (State.ofBytes [1, 2, 3] 4096) 0 0 true false
      ['0', 'R', '~'] 1 (by decide) (Or.inr rfl) (by decide) h2
    exact this
  have e3 : commandline_ env (fuel + 1) (State.ofBytes [1, 2, 3] 4096) ['0', 'r', 'x']
      = command_char env fuel (stderr_msg (State.ofBytes [1, 2, 3] 4096) "File read error.")
          0 0 true false ['0', 'r', 'x'] 2 := by
    have := address_command_r_fails env fuel (State.ofBytes [1, 2, 3] 4096) 0 0 true false
      ['0', 'r', 'x'] 1 (by decide) (Or.inl rfl) (by decide) h3
    exact this
  rw [e1, e2, e3]
  exact ⟨⟨_, rfl, rfl, rfl, rfl⟩, ⟨_, rfl, rfl⟩, ⟨_, rfl, rfl, rfl, rfl⟩⟩

set_option maxRecDepth 100000 in
/-- Witness of C33: the environment without files, the line `0rdx`. -/
theorem read_failure_runs_command_witness :
    (∀ fn, Env.bare.readfile fn = none) ∧
      ∃ s', commandline_ Env.bare (0 + 1) (State.ofBytes [1, 2, 3] 4096) ['0', 'r', 'd', 'x']
          = some (.ok (s', -1)) ∧ s'.mem = [2, 3] ∧ s'.yank = [1] ∧
        s'.out = [Msg.err "File read error.", Msg.std "1 bytes yanked.",
          Msg.std "1 bytes deleted."] :=
  ⟨fun _ => rfl, (read_failure_runs_command Env.bare (fun _ => rfl) 0).1⟩

/-! ## An operator without its operand -/

/-- The parts of `expression` on a run of hexadecimal digits followed by an
operator at the very end of the string. -/
theorem expression_hex_operator_parts (env : Env) (st : State) (ds : List Char) (op : Char)
    (hne : ds ≠ []) (hds : ∀ c ∈ ds, isHexDigit c = true) (hlen : ds.length ≤ 15)
    (hop : isHexDigit op = false) :
    get_value env st (ds ++ [op]) 0 = (st, numeral 16 ds, ds.length) ∧
    charAt (ds ++ [op]) ds.length = op ∧ (ds ++ [op]).length = ds.length + 1 ∧
    get_value env st (ds ++ [op]) (ds.length + 1) = (st, UNKNOWN, ds.length + 1) := by
  have hd : (ds ++ [op]).drop 0 = List.replicate 0 ' ' ++ (ds ++ [op]) := rfl
  have hg := get_value_hex env st (ds ++ [op]) 0 0 ds [op] hd hne hds hlen
    (by intro c hc; simp at hc; subst hc; exact hop)
  have e0 : 0 + 0 + ds.length = ds.length := by omega
  rw [e0] at hg
  have hl : (ds ++ [op]).length = ds.length + 1 := by simp
  refine ⟨hg, charAt_of_drop _ _ op [] (List.drop_left _ _), hl, ?_⟩
  unfold get_value
  rw [if_pos (by omega)]

theorem expression_hex_plus (env : Env) (st : State) (ds : List Char)
    (hne : ds ≠ []) (hds : ∀ c ∈ ds, isHexDigit c = true) (hlen : ds.length ≤ 15) :
    expression env st (ds ++ ['+']) 0 = (st, numeral 16 ds + UNKNOWN, ds.length + 1) := by
  obtain ⟨h0, h1⟩ := numeral_hex_bound ds hds hlen
  have hU : UNKNOWN = 2 ^ 62 := rfl
  obtain ⟨hg, hch, hl, hg2⟩ :=
    expression_hex_operator_parts env st ds '+' hne hds hlen (by decide)
  unfold expression
  simp only [hg]
  rw [if_pos ⟨by omega, by omega, hch⟩]
  simp only [hg2]
  rw [wrap64_id _ (by omega) (by omega)]

theorem expression_hex_minus (env : Env) (st : State) (ds : List Char)
    (hne : ds ≠ []) (hds : ∀ c ∈ ds, isHexDigit c = true) (hlen : ds.length ≤ 15) :
    expression env st (ds ++ ['-']) 0 = (st, 0, ds.length + 1) := by
  obtain ⟨h0, h1⟩ := numeral_hex_bound ds hds hlen
  have hU : UNKNOWN = 2 ^ 62 := rfl
  obtain ⟨hg, hch, hl, hg2⟩ :=
    expression_hex_operator_parts env st ds '-' hne hds hlen (by decide)
  have hw : wrap64 (numeral 16 ds - UNKNOWN) = numeral 16 ds - UNKNOWN :=
    wrap64_id _ (by omega) (by omega)
  unfold expression
  simp only [hg]
  rw [if_neg (fun h => absurd (hch.symm.trans h.2.2) (by decide)),
    if_pos ⟨by omega, by omega, hch⟩]
  simp only [hg2, hw]
  rw [if_pos (by omega)]

set_option maxRecDepth 100000 in
/-- C34. For every hex numeral `ds` of 1 to 15 digits followed by an operator
with nothing after it, `expression` returns `numeral + UNKNOWN` for `+` and
`0` for `-` (the negative difference is clamped), not `UNKNOWN`; the sum
differs from `UNKNOWN` unless the numeral is 0.  So the line `5+` moves the
position from 2 to `5 + UNKNOWN`, the line `5-` moves it to 0, and the line
`5+~` ends at the memory limit. -/
theorem expression_missing_operand (env : Env) (st : State) (ds : List Char)
    (hne : ds ≠ []) (hds : ∀ c ∈ ds, isHexDigit c = true) (hlen : ds.length ≤ 15) :
    expression env st (ds ++ ['+']) 0 = (st, numeral 16 ds + UNKNOWN, ds.length + 1) ∧
    expression env st (ds ++ ['-']) 0 = (st, 0, ds.length + 1) ∧
    (numeral 16 ds ≠ 0 → numeral 16 ds + UNKNOWN ≠ UNKNOWN) ∧
    (∀ fuel, ∃ s', commandline_ env (fuel + 1) (jump (State.ofBytes [1, 2, 3] 4096) 2)
        ['5', '+'] = some (.ok (s', -1)) ∧
      fpos (jump (State.ofBytes [1, 2, 3] 4096) 2) = 2 ∧ fpos s' = 5 + UNKNOWN) ∧
    (∀ fuel, ∃ s', commandline_ env (fuel + 1) (jump (State.ofBytes [1, 2, 3] 4096) 2)
        ['5', '-'] = some (.ok (s', -1)) ∧ fpos s' = 0) ∧
    (∀ fuel, commandline_ env (fuel + 1) (jump (State.ofBytes [1, 2, 3] 4096) 2)
        ['5', '+', '~'] = some (.error Fault.memLimit)) :=
  ⟨expression_hex_plus env st ds hne hds hlen, expression_hex_minus env st ds hne hds hlen,
    fun h e => h (by omega), fun _ => ⟨_, rfl, rfl, rfl⟩, fun _ => ⟨_, rfl, rfl⟩,
    fun _ => rfl⟩

set_option maxRecDepth 100000 in
/-- Witness of C34: the numeral `5` followed by `+`. -/
theorem expression_missing_operand_witness :
    ['5'] ≠ [] ∧ (∀ c ∈ ['5'], isHexDigit c = true) ∧ ['5'].length ≤ 15 ∧
      expression Env.bare State.init (['5'] ++ ['+']) 0
        = (State.init, numeral 16 ['5'] + UNKNOWN, ['5'].length + 1) :=
  ⟨by decide, by decide, by decide,
    (expression_missing_operand Env.bare State.init ['5'] (by decide) (by decide)
      (by decide)).1⟩

/-! ## Jumping, marking, and the value of a numeral -/

theorem hex_prelude (a : Char) (h : isHexDigit a = true) :
    a ≠ 'q' ∧ a ≠ 'w' ∧ a ≠ 'r' ∧ a ≠ 'T' ∧ a ≠ 't' ∧ a ≠ 'n' ∧ a ≠ 'N' ∧ a ≠ '!' ∧
      a ≠ '?' ∧ a ≠ '/' := by
  have hh := isHexDigit_ne a h
  exact ⟨hh.2.2.2.2.2.2.2.2.1, hh.2.2.2.2.2.2.2.2.2.1, hh.2.2.2.2.2.2.2.2.2.2.1,
    hh.2.2.2.2.2.2.2.2.2.2.2.1, hh.2.2.2.2.2.2.2.2.2.2.2.2.1,
    hh.2.2.2.2.2.2.2.2.2.2.2.2.2.1, hh.2.2.2.2.2.2.2.2.2.2.2.2.2.2.1,
    hh.2.2.2.2.2.2.2.2.2.2.2.2.2.2.2.1, hh.2.2.2.2.2.2.2.2.2.2.2.2.2.2.2.2.1,
    hh.2.2.2.2.2.2.2.2.2.2.2.2.2.2.2.2.2.1⟩

theorem hex_line_chars (dA : List Char) (k : Nat) (rest : List Char)
    (hA : ∀ d ∈ dA, isHexDigit d = true) (hrest : ∀ c ∈ rest, c ≠ '#' ∧ c ≠ backslash) :
    ∀ c ∈ dA ++ (List.replicate k ' ' ++ rest), c ≠ '#' ∧ c ≠ backslash := by
  intro c hc
  simp only [List.mem_append, List.mem_replicate] at hc
  rcases hc with h | h | h
  · have := isHexDigit_ne c (hA c h); exact ⟨this.2.2.2.2.2.2.1, this.2.2.2.2.2.2.2.1⟩
  · rw [h.2]; decide
  · exact hrest c h

/-- The `m` branch of `commandline_`. -/
theorem address_command_m (env : Env) (fuel : Nat) (s : State) (x x2 : Int) (xf xf2 : Bool)
    (line : List Char) (idx : Nat) (hidx : idx + 1 < line.length)
    (hch : charAt line idx = 'm') :
    address_command env fuel s x x2 xf xf2 line idx
      = some (.ok (cmd_m s x (charAt line (idx + 1)), -1)) := by
  unfold address_command
  rw [if_neg (by omega), if_neg (fun h => absurd (hch.symm.trans h.2) (by decide)),
    if_neg (fun h => absurd (hch.symm.trans h.2) (by decide)),
    if_neg (fun h => absurd (hch.symm.trans h.2) (by decide)), if_pos ⟨hidx, hch⟩]

/-- C38. For every letter `l` in `a..z` and a mark table of 26 entries: after
`cmd_m` with an address `x` other than `UNKNOWN` the atom made of the quote
and `l` evaluates to `x`, the other 25 marks and the buffer are unchanged; and
every command line `A m l` with `A` a hex numeral of 1 to 15 digits (blanks
allowed before `m`) returns and leaves that atom evaluating to the value of
`A`, the other marks and the buffer unchanged. -/
theorem mark_command (env : Env) (fuel : Nat) (s : State) (l : Char)
    (hl : 'a' ≤ l ∧ l ≤ 'z') (hlen : s.mark.length = 26) :
    (∀ x : Int, x ≠ UNKNOWN →
      get_value env (cmd_m s x l) [Char.ofNat 39, l] 0 = (cmd_m s x l, x, 2) ∧
      (∀ c : Char, 'a' ≤ c ∧ c ≤ 'z' → c ≠ l → markOf (cmd_m s x l) c = markOf s c) ∧
      (cmd_m s x l).mem = s.mem) ∧
    (∀ (dA : List Char) (k : Nat),
      (dA ≠ [] ∧ dA.length ≤ 15 ∧ ∀ d ∈ dA, isHexDigit d = true) →
      ∃ s', commandline_ env (fuel + 1) s (dA ++ (List.replicate k ' ' ++ ['m', l]))
          = some (.ok (s', -1)) ∧
        get_value env s' [Char.ofNat 39, l] 0 = (s', numeral 16 dA, 2) ∧
        (∀ c : Char, 'a' ≤ c ∧ c ≤ 'z' → c ≠ l → markOf s' c = markOf s c) ∧
        s'.mem = s.mem) := by
  have hset : ∀ (t : State) (x : Int), t.mark.length = 26 → x ≠ UNKNOWN →
      get_value env (cmd_m t x l) [Char.ofNat 39, l] 0 = (cmd_m t x l, x, 2) ∧
      (∀ c : Char, 'a' ≤ c ∧ c ≤ 'z' → c ≠ l → markOf (cmd_m t x l) c = markOf t c) ∧
      (cmd_m t x l).mem = t.mem := by
    intro t x ht hx
    obtain ⟨h1, h2, h3, -, -⟩ := markOf_cmd_m t x l hl ht
    have := get_value_set_mark env (cmd_m t x l) l [] hl (by rw [h1]; exact hx)
    rw [h1] at this
    exact ⟨this, h2, h3⟩
  constructor
  · intro x hx
    exact hset s x hlen hx
  · intro dA k hA
    obtain ⟨hA0, hA1⟩ := numeral_hex_bound dA hA.2.2 hA.2.1
    obtain ⟨a, dA', hdA⟩ := List.exists_cons_of_ne_nil hA.1
    have hlne : l ≠ '#' ∧ l ≠ backslash := by
      constructor <;> (intro h; subst h; revert hl; decide)
    have hcl := address_clause_single env { s with cp := fpos s } dA k ['m', l] hA
      (by intro c hc; simp at hc; subst hc; decide)
    have hcom := comment_id _ (hex_line_chars dA k ['m', l] hA.2.2
      (by intro c hc; simp at hc; rcases hc with h | h <;> subst h; decide; exact hlne))
    have hd : (dA ++ (List.replicate k ' ' ++ ['m', l])).drop (dA.length + k) = ['m', l] := by
      rw [← List.append_assoc]
      apply List.drop_left'
      simp
    have hcm := charAt_of_drop _ _ _ _ hd
    have hcl1 : charAt (dA ++ (List.replicate k ' ' ++ ['m', l])) (dA.length + k + 1) = l := by
      rw [charAt_drop, hd]; rfl
    have hll : dA.length + k + 1 < (dA ++ (List.replicate k ' ' ++ ['m', l])).length := by
      simp; omega
    have hm := address_command_m env fuel { s with cp := fpos s } (numeral 16 dA)
      (numeral 16 dA) true false _ _ hll hcm
    rw [hcl1] at hm
    have hstep : commandline_ env (fuel + 1) s (dA ++ (List.replicate k ' ' ++ ['m', l]))
        = address_command env fuel { s with cp := fpos s } (numeral 16 dA) (numeral 16 dA)
            true false (dA ++ (List.replicate k ' ' ++ ['m', l])) (dA.length + k) := by
      simp only [hdA, List.cons_append] at hcl hcom ⊢
      exact commandline_step_address env fuel (commandline_ env fuel) s a _ hcom
        (hex_prelude a (hA.2.2 a (by simp [hdA]))) _ _ _ _ _ _ hcl
    have hU : UNKNOWN = 2 ^ 62 := rfl
    obtain ⟨g1, g2, g3⟩ := hset { s with cp := fpos s } (numeral 16 dA) hlen (by omega)
    exact ⟨_, hstep.trans hm, g1, g2, g3⟩

set_option maxRecDepth 100000 in
/-- Witness of C38: the line `2 mk`. -/
theorem mark_command_witness :
    ∃ s', commandline_ Env.bare (0 + 1) (State.ofBytes [1, 2, 3] 4096) ['2', ' ', 'm', 'k']
        = some (.ok (s', -1)) ∧
      get_value Env.bare s' [Char.ofNat 39, 'k'] 0 = (s', 2, 2) ∧
      (∀ c : Char, 'a' ≤ c ∧ c ≤ 'z' → c ≠ 'k' →
        markOf s' c = markOf (State.ofBytes [1, 2, 3] 4096) c) ∧
      s'.mem = [1, 2, 3] :=
  (mark_command Env.bare 0 (State.ofBytes [1, 2, 3] 4096) 'k' (by decide) rfl).2 ['2'] 1
    (by decide)

set_option maxRecDepth 100000 in
/-- C39, the counterexample. The 16-digit numeral `4000000000000000` has the
value `2^62`, which is `UNKNOWN`: `get_value` returns it, and the command line
made of that numeral leaves the position where it was (2), whereas the line
`3fffffffffffffff` jumps to `UNKNOWN - 1`. -/
theorem hex_unknown_collision :
    get_value Env.bare State.init "4000000000000000".toList 0 = (State.init, UNKNOWN, 16) ∧
    (∃ s', commandline_ Env.bare 1 (jump (State.ofBytes [1, 2, 3] 4096) 2)
        "4000000000000000".toList = some (.ok (s', -1)) ∧ fpos s' = 2) ∧
    (∃ s', commandline_ Env.bare 1 (jump (State.ofBytes [1, 2, 3] 4096) 2)
        "3fffffffffffffff".toList = some (.ok (s', -1)) ∧ fpos s' = UNKNOWN - 1) :=
  ⟨rfl, ⟨_, rfl, rfl⟩, ⟨_, rfl, rfl⟩⟩

/-- C39, amended. For every hex numeral of 1 to 15 digits, followed by
nothing or by a character that is not a hex digit, `get_value` returns the
value of the numeral, which lies in `[0, 2^60)` and so differs from `UNKNOWN`;
`address_clause` takes it as a given address. -/
theorem hex_value_known (env : Env) (st : State) (ds rest : List Char)
    (hne : ds ≠ []) (hlen : ds.length ≤ 15) (hds : ∀ c ∈ ds, isHexDigit c = true)
    (hrest : ∀ c ∈ rest.head?, isHexDigit c = false) :
    get_value env st (ds ++ rest) 0 = (st, numeral 16 ds, ds.length) ∧
    0 ≤ numeral 16 ds ∧ numeral 16 ds < 2 ^ 60 ∧ numeral 16 ds ≠ UNKNOWN ∧
    (address_clause env st ds).2.2.2.1 = true := by
  obtain ⟨h0, h1⟩ := numeral_hex_bound ds hds hlen
  have hU : UNKNOWN = 2 ^ 62 := rfl
  have hg := get_value_hex env st (ds ++ rest) 0 0 ds rest rfl hne hds hlen hrest
  have e0 : 0 + 0 + ds.length = ds.length := by omega
  rw [e0] at hg
  have hcl := address_clause_single env st ds 0 [] ⟨hne, hlen, hds⟩ (by simp)
  simp only [List.replicate_zero, List.append_nil] at hcl
  rw [hcl]
  exact ⟨hg, h0, h1, by omega, rfl⟩

set_option maxRecDepth 100000 in
/-- Witness of C39 (amended): the numeral `ff` followed by `y`. -/
theorem hex_value_known_witness :
    get_value Env.bare State.init (['f', 'f'] ++ ['y']) 0 = (State.init, 255, 2) ∧
    0 ≤ numeral 16 ['f', 'f'] ∧ numeral 16 ['f', 'f'] < 2 ^ 60 ∧
    numeral 16 ['f', 'f'] ≠ UNKNOWN ∧
    (address_clause Env.bare State.init ['f', 'f']).2.2.2.1 = true :=
  hex_value_known Env.bare State.init ['f', 'f'] ['y'] (by decide) (by decide) (by decide)
    (by decide)

/-! ## The capacity invariant -/

/-- What a granted request leaves: the buffer, a capacity that covers the
request and the old capacity, and stays within the ceiling. -/
theorem ensure_mem_capacity_cap {s s1 : State} {needed : Int}
    (h : ensure_mem_capacity s needed = .ok s1) (hc : (s.mem_cap : Int) ≤ MAX_MEM_SIZE) :
    s1.mem = s.mem ∧ needed ≤ (s1.mem_cap : Int) ∧ s.mem_cap ≤ s1.mem_cap ∧
      (s1.mem_cap : Int) ≤ MAX_MEM_SIZE := by
  unfold ensure_mem_capacity at h
  split at h
  · cases h
  · next hle =>
    split at h
    · next hgt =>
      have hg := growCap_ge needed.toNat (if s.mem_cap = 0 then 4096 else s.mem_cap * 2)
        needed.toNat (by split <;> omega) (by omega)
      cases h
      unfold MAX_MEM_SIZE at *
      generalize growCap needed.toNat (if s.mem_cap = 0 then 4096 else s.mem_cap * 2)
        needed.toNat = g at hg ⊢
      refine ⟨rfl, ?_, ?_, ?_⟩
      · show needed ≤ ((if (g : Int) > 1024 * 1024 * 1024 * 10
          then (1024 * 1024 * 1024 * 10 : Int).toNat else g : Nat) : Int)
        split <;> omega
      · show s.mem_cap ≤ (if (g : Int) > 1024 * 1024 * 1024 * 10
          then (1024 * 1024 * 1024 * 10 : Int).toNat else g : Nat)
        split <;> omega
      · show ((if (g : Int) > 1024 * 1024 * 1024 * 10
          then (1024 * 1024 * 1024 * 10 : Int).toNat else g : Nat) : Int) ≤ _
        split <;> omega
    · next hgt =>
      cases h
      exact ⟨rfl, by omega, le_refl _, hc⟩

theorem setmem_capacity {s s' : State} {addr data : Int} (hi : CapacityOk s)
    (h : setmem s addr data = .ok s') : CapacityOk s' := by
  unfold setmem at h
  split at h
  · cases h; exact hi
  · cases hE : ensure_mem_capacity s (addr + 1) with
    | error e => rw [hE] at h; cases h
    | ok s1 =>
      obtain ⟨hm, hn, hge, hmax⟩ := ensure_mem_capacity_cap hE hi.2
      rw [hE] at h
      simp only [bind, Except.bind] at h
      split at h
      · cases h
      · cases h
        unfold CapacityOk State.mem_len at *
        simp only [List.length_set, hm]
        refine ⟨?_, hmax⟩
        split
        · simp only [List.length_append, List.length_replicate]; omega
        · omega

theorem insmem_capacity {s s' : State} {start : Int} {mem2 : List Byte} (hi : CapacityOk s)
    (h : insmem s start mem2 = .ok s') : CapacityOk s' := by
  unfold insmem at h
  dsimp only at h
  split at h
  · cases h; exact hi
  · cases hE : ensure_mem_capacity s (s.mem_len + (mem2.length : Int)) with
    | error e => rw [hE] at h; cases h
    | ok s1 =>
      obtain ⟨hm, hn, hge, hmax⟩ := ensure_mem_capacity_cap hE hi.2
      rw [hE] at h
      simp only [bind, Except.bind] at h
      unfold CapacityOk State.mem_len at *
      split_ifs at h
      · cases h
        simp only [List.length_append, List.length_replicate, hm] at *
        exact ⟨by omega, hmax⟩
      · cases h
        simp only [List.length_append, List.length_take, List.length_drop, hm] at *
        exact ⟨by omega, hmax⟩

theorem ovwmem_capacity {s s' : State} {start : Int} {mem0 : List Byte} (hi : CapacityOk s)
    (h : ovwmem s start mem0 = .ok s') : CapacityOk s' := by
  unfold ovwmem at h
  dsimp only at h
  split at h
  · cases h; exact hi
  · cases hE : ensure_mem_capacity s (start + (mem0.length : Int)) with
    | error e => rw [hE] at h; cases h
    | ok s1 =>
      obtain ⟨hm, hn, hge, hmax⟩ := ensure_mem_capacity_cap hE hi.2
      rw [hE] at h
      simp only [bind, Except.bind] at h
      unfold CapacityOk State.mem_len at *
      split at h
      · cases h
      · cases h
        refine ⟨?_, hmax⟩
        simp only [hm]
        split_ifs <;>
          simp only [List.length_append, List.length_take, List.length_drop,
            List.length_replicate] <;> omega

theorem yankmem_capacity {s s' : State} {start «end» : Int} (hi : CapacityOk s)
    (h : yankmem s start «end» = .ok s') : CapacityOk s' := by
  obtain ⟨y, cap, o, rfl⟩ := yankmem_frame h
  exact hi

theorem delmem_capacity {s s' : State} {start «end» : Int} {yf : Bool} (hi : CapacityOk s)
    (h : delmem s start «end» yf = .ok s') : CapacityOk s' := by
  unfold delmem at h
  dsimp only at h
  split at h
  · cases h; exact hi
  · split at h
    · cases h
    have key : ∀ y : State, CapacityOk y → ∀ t : State,
        (if (if «end» ≥ y.mem_len then y.mem_len - 1 else «end») + 1 < 0
          then (Except.error Fault.outOfBounds : Except Fault State)
          else Except.ok { y with
            mem := y.mem.take (if start < 0 then 0 else start).toNat
              ++ y.mem.drop ((if «end» ≥ y.mem_len then y.mem_len - 1 else «end») + 1).toNat,
            lastchange := true, modified := true }) = .ok t → CapacityOk t := by
      intro y hy t ht
      unfold CapacityOk State.mem_len at *
      split_ifs at ht <;> first
        | (cases ht; done)
        | (cases ht
           simp only [List.length_append, List.length_take, List.length_drop]
           exact ⟨by omega, hy.2⟩)
    cases yf with
    | false =>
      simp only [bind, Except.bind, Bool.false_eq_true, if_false] at h
      exact key s hi s' h
    | true =>
      cases hY : yankmem s start «end» with
      | error e => simp only [hY, bind, Except.bind, if_true] at h; cases h
      | ok y =>
        simp only [hY, bind, Except.bind, if_true] at h
        exact key y (yankmem_capacity hi hY) s' h

theorem cpymem_capacity {s s' : State} {start «end» dest : Int} (hi : CapacityOk s)
    (h : cpymem s start «end» dest = .ok s') : CapacityOk s' :=
  ovwmem_capacity hi h

theorem movmem_capacity {s s' : State} {start «end» dest r : Int} (hi : CapacityOk s)
    (h : movmem s start «end» dest = .ok (s', r)) : CapacityOk s' := by
  unfold movmem at h
  split at h
  · cases h; exact hi
  · dsimp only at h
    split at h
    · cases h; exact hi
    · cases hY : yankmem s start «end» with
      | error e => simp only [hY, bind, Except.bind] at h; cases h
      | ok y =>
        simp only [hY, bind, Except.bind] at h
        cases hD : delmem y start «end» false with
        | error e => simp only [hD] at h; cases h
        | ok d =>
          have hd := delmem_capacity (yankmem_capacity hi hY) hD
          simp only [hD] at h
          split at h
          · cases hO : ovwmem d dest (redmem s start «end») with
            | error e => simp only [hO] at h; cases h
            | ok o => simp only [hO] at h; cases h; exact ovwmem_capacity hd hO
          · split at h
            · cases hI : insmem d (dest - («end» - start + 1)) (redmem s start «end») with
              | error e => simp only [hI] at h; cases h
              | ok o => simp only [hI] at h; cases h; exact insmem_capacity hd hI
            · cases hI : insmem d dest (redmem s start «end») with
              | error e => simp only [hI] at h; cases h
              | ok o => simp only [hI] at h; cases h; exact insmem_capacity hd hI

/-- `setmem` never accesses memory outside the allocation. -/
theorem setmem_in_bounds (s : State) (addr data : Int) (hi : CapacityOk s) :
    setmem s addr data ≠ .error Fault.outOfBounds := by
  intro h
  unfold setmem at h
  split at h
  · cases h
  · cases hE : ensure_mem_capacity s (addr + 1) with
    | error e =>
      rw [hE] at h
      unfold ensure_mem_capacity at hE
      split_ifs at hE
      cases hE
      cases h
    | ok s1 =>
      obtain ⟨hm, hn, hge, hmax⟩ := ensure_mem_capacity_cap hE hi.2
      rw [hE] at h
      simp only [bind, Except.bind] at h
      rw [if_neg (by omega)] at h
      cases h

/-- `ovwmem` at an offset `>= 0` never accesses memory outside the
allocation. -/
theorem ovwmem_in_bounds (s : State) (start : Int) (mem0 : List Byte) (hi : CapacityOk s)
    (h0 : 0 ≤ start) : ovwmem s start mem0 ≠ .error Fault.outOfBounds := by
  intro h
  unfold ovwmem at h
  dsimp only at h
  split at h
  · cases h
  · cases hE : ensure_mem_capacity s (start + (mem0.length : Int)) with
    | error e =>
      rw [hE] at h
      unfold ensure_mem_capacity at hE
      split_ifs at hE
      cases hE
      cases h
    | ok s1 =>
      obtain ⟨hm, hn, hge, hmax⟩ := ensure_mem_capacity_cap hE hi.2
      rw [hE] at h
      simp only [bind, Except.bind] at h
      rw [if_neg (by omega)] at h
      cases h

/-! ## Complementing a range twice -/

theorem getD_append_zeros (l : List Byte) (n k : Nat) :
    (l ++ List.replicate n (0 : Byte)).getD k 0 = l.getD k 0 := by
  rw [List.getD_eq_getElem?_getD, List.getD_eq_getElem?_getD]
  by_cases h : k < l.length
  · rw [List.getElem?_append_left h]
  · rw [List.getElem?_append_right (by omega), List.getElem?_eq_none (l := l) (by omega)]
    by_cases h2 : k - l.length < n
    · rw [List.getElem?_replicate_of_lt h2]; rfl
    · rw [List.getElem?_eq_none (by simp; omega)]

/-- One `setmem` read back through `readmem`, at every offset. -/
theorem setmem_readmem_all (s : State) (addr data : Int) (h0 : 0 ≤ addr)
    (hc : addr < MAX_MEM_SIZE) :
    ∃ s', setmem s addr data = .ok s' ∧ s'.mem_len = max s.mem_len (addr + 1) ∧
      (∀ j : Int, readmem s' j
        = if j = addr then (if 0 ≤ data ∧ data ≤ 255 then data else 0) else readmem s j) ∧
      s'.yank = s.yank ∧ s'.mark = s.mark := by
  obtain ⟨s', b, h1, hmem, hy, hk⟩ := setmem_ok s addr data h0 hc
  obtain ⟨s'', h1', h2⟩ := setmem_readmem_any s addr data h0 hc
  have e : s'' = s' := by
    rw [h1] at h1'
    cases h1'
    rfl
  subst e
  have hlen : s''.mem_len = max s.mem_len (addr + 1) := by
    simp only [State.mem_len] at *
    rw [hmem, List.length_set, List.length_append, List.length_replicate]
    omega
  refine ⟨s'', h1, hlen, ?_, hy, hk⟩
  intro j
  by_cases hj : j = addr
  · rw [if_pos hj, hj, h2]
  · rw [if_neg hj]
    by_cases hneg : j < 0
    · unfold readmem
      rw [if_pos (Or.inl hneg), if_pos (Or.inl hneg)]
    · rw [readmem_nonneg s'' j (by omega), readmem_nonneg s j (by omega), hmem]
      congr 2
      rw [List.getD_eq_getElem?_getD, List.getElem?_set_ne (by omega),
        ← List.getD_eq_getElem?_getD, getD_append_zeros]

/-- The loop of the byte-wise operations with a function that maps bytes to
bytes: the length and every byte afterwards. -/
theorem setmem_loop_spec (f : Int → Int)
    (hf : ∀ v : Int, 0 ≤ v → v ≤ 255 → 0 ≤ f v ∧ f v ≤ 255) :
    ∀ (n : Nat) (i : Int) (s : State), 0 ≤ i → i + n ≤ MAX_MEM_SIZE →
      ∃ s', setmem_loop f n i s = .ok s' ∧
        s'.mem_len = (if n = 0 then s.mem_len else max s.mem_len (i + n)) ∧
        (∀ j : Int, readmem s' j
          = if i ≤ j ∧ j < i + n then f (readmem s j) else readmem s j) ∧
        s'.yank = s.yank ∧ s'.mark = s.mark := by
  intro n
  induction n with
  | zero =>
    intro i s _ _
    refine ⟨s, rfl, rfl, ?_, rfl, rfl⟩
    intro j
    rw [if_neg (by push_cast; omega)]
  | succ n ih =>
    intro i s h0 hc
    push_cast at hc
    obtain ⟨s1, h1, hl1, hr1, hy1, hk1⟩ :=
      setmem_readmem_all s i (f (readmem s i)) h0 (by omega)
    obtain ⟨s', h2, hl2, hr2, hy2, hk2⟩ := ih (i + 1) s1 (by omega) (by omega)
    have hfi := hf (readmem s i) (readmem_range s i).1 (readmem_range s i).2
    refine ⟨s', ?_, ?_, ?_, hy2.trans hy1, hk2.trans hk1⟩
    · simp only [setmem_loop, bind, Except.bind, h1]
      exact h2
    · rw [hl2, hl1, if_neg (Nat.succ_ne_zero n)]
      push_cast
      by_cases hn : n = 0
      · rw [if_pos hn, hn]; simp
      · rw [if_neg hn]; omega
    · intro j
      by_cases hj : j = i
      · rw [hj, hr2 i, if_neg (by omega), hr1 i, if_pos rfl, if_pos hfi,
          if_pos (by push_cast; omega)]
      · rw [hr2 j]
        by_cases hin : i + 1 ≤ j ∧ j < i + 1 + n
        · rw [if_pos hin, hr1 j, if_neg hj, if_pos (by push_cast; omega)]
        · rw [if_neg hin, hr1 j, if_neg hj, if_neg (by push_cast; omega)]

/-- Two buffers of the same length that `readmem` cannot tell apart are the
same. -/
theorem mem_eq_of_readmem (l : List Byte) (s : State) (hlen : l.length = s.mem.length)
    (h : ∀ k : Nat, ((l.getD k 0).val : Int) = readmem s k) : l = s.mem := by
  apply List.ext_getElem hlen
  intro k h1 h2
  have := h k
  rw [readmem_eq_getD, List.getD_eq_getElem _ _ h1, List.getD_eq_getElem _ _ h2] at this
  exact Fin.ext (by exact_mod_cast this)

/-- `openot` twice: the bytes are back, and the buffer reaches to the end of
the range. -/
theorem openot_twice (s : State) (x x2 : Int) (h0 : 0 ≤ x) (hle : x ≤ x2)
    (hc : x2 < MAX_MEM_SIZE) :
    ∃ s1 s2, openot s x x2 = .ok s1 ∧ openot s1 x x2 = .ok s2 ∧
      s2.mem = s.mem ++ List.replicate (x2 + 1 - s.mem_len).toNat (0 : Byte) ∧
      s2.yank = s.yank ∧ s2.mark = s.mark := by
  have hf : ∀ v : Int, 0 ≤ v → v ≤ 255 → 0 ≤ (-v - 1) % 256 ∧ (-v - 1) % 256 ≤ 255 := by
    intro v _ _; omega
  have hn : ((x2 - x + 1).toNat : Int) = x2 - x + 1 := by omega
  have hn0 : (x2 - x + 1).toNat ≠ 0 := by omega
  obtain ⟨t1, g1, l1, r1, y1, k1⟩ := setmem_loop_spec _ hf (x2 - x + 1).toNat x s h0 (by omega)
  obtain ⟨t2, g2, l2, r2, y2, k2⟩ := setmem_loop_spec _ hf (x2 - x + 1).toNat x
    (stdmm t1 (toString (x2 - x + 1) ++ " bytes noted.")) h0 (by omega)
  refine ⟨stdmm t1 (toString (x2 - x + 1) ++ " bytes noted."),
    stdmm t2 (toString (x2 - x + 1) ++ " bytes noted."), ?_, ?_, ?_, ?_, ?_⟩
  · unfold openot
    simp only [bind, Except.bind, g1]
  · unfold openot
    simp only [bind, Except.bind, g2]
  · simp only [stdmm_mem]
    symm
    rw [if_neg hn0, hn] at l1 l2
    have hl1' : (stdmm t1 (toString (x2 - x + 1) ++ " bytes noted.")).mem_len
        = max s.mem_len (x2 + 1) := by
      rw [stdmm_mem_len, l1]; congr 1; omega
    rw [hl1'] at l2
    apply mem_eq_of_readmem
    · simp only [State.mem_len] at l2 ⊢
      rw [List.length_append, List.length_replicate]
      omega
    · intro k
      rw [getD_append_zeros, ← readmem_eq_getD, r2 k]
      have hst : readmem (stdmm t1 (toString (x2 - x + 1) ++ " bytes noted.")) k
          = readmem t1 k := by
        unfold readmem
        simp only [stdmm_mem_len, stdmm_mem]
      rw [hst, r1 k, hn]
      have hr := readmem_range s k
      split
      · omega
      · rfl
  · rw [stdmm_yank, y2, stdmm_yank, y1]
  · rw [stdmm_mark, k2, stdmm_mark, k1]

/-! ## What pattern parsing leaves alone -/

/-- `get_value` reports at most a message: the byte store, the clip register
and the marks are the ones it was called with. -/
theorem get_value_frame (env : Env) (st : State) (s : List Char) (idx : Nat) :
    (get_value env st s idx).1.mem = st.mem ∧ (get_value env st s idx).1.yank = st.yank ∧
      (get_value env st s idx).1.mark = st.mark := by
  unfold get_value
  split
  · exact ⟨rfl, rfl, rfl⟩
  · dsimp only
    split
    · exact ⟨rfl, rfl, rfl⟩
    · repeat' (first | exact ⟨rfl, rfl, rfl⟩ | split)

theorem expression_frame (env : Env) (st : State) (s : List Char) (idx : Nat) :
    (expression env st s idx).1.mem = st.mem ∧ (expression env st s idx).1.yank = st.yank ∧
      (expression env st s idx).1.mark = st.mark := by
  have h1 := get_value_frame env st s idx
  have h2 := get_value_frame env (get_value env st s idx).1 s ((get_value env st s idx).2.2 + 1)
  unfold expression
  generalize get_value env st s idx = r at h1 h2
  obtain ⟨t, x, i⟩ := r
  dsimp only at h1 h2 ⊢
  generalize get_value env t s (i + 1) = r2 at h2
  obtain ⟨t2, y, i2⟩ := r2
  dsimp only at h2 ⊢
  split_ifs <;> first
    | exact h1
    | exact ⟨h2.1.trans h1.1, h2.2.1.trans h1.2.1, h2.2.2.trans h1.2.2⟩

theorem get_hexs_loop_frame (env : Env) (s : List Char) :
    ∀ (fuel : Nat) (st : State) (idx : Nat) (out : List Byte),
      (get_hexs_loop env s fuel st idx out).1.mem = st.mem ∧
        (get_hexs_loop env s fuel st idx out).1.yank = st.yank ∧
        (get_hexs_loop env s fuel st idx out).1.mark = st.mark := by
  intro fuel
  induction fuel with
  | zero => intro st idx out; exact ⟨rfl, rfl, rfl⟩
  | succ fuel ih =>
    intro st idx out
    have h1 := expression_frame env st s idx
    unfold get_hexs_loop
    generalize expression env st s idx = r at h1
    obtain ⟨t, v, i⟩ := r
    dsimp only at h1 ⊢
    split_ifs
    · exact h1
    · have h2 := ih t i (out ++ [Fin.ofNat (v % 256).toNat])
      exact ⟨h2.1.trans h1.1, h2.2.1.trans h1.2.1, h2.2.2.trans h1.2.2⟩
    · exact ⟨rfl, rfl, rfl⟩

theorem get_pattern_frame (env : Env) (st : State) (line : List Char) (idx : Nat) :
    (get_pattern env st line idx).1.mem = st.mem ∧
      (get_pattern env st line idx).1.yank = st.yank ∧
      (get_pattern env st line idx).1.mark = st.mark := by
  unfold get_pattern
  dsimp only
  split_ifs
  · exact ⟨rfl, rfl, rfl⟩
  · exact get_hexs_loop_frame env line _ st _ []

/-! ## Filling a range with a pattern -/

/-- The pattern repeated `rep` times and cut after `rem` more bytes: its
length and its bytes. -/
theorem cyclic_fill (m : List Byte) (hm : m ≠ []) (rem : Nat) (hrem : rem < m.length) :
    ∀ rep : Nat,
      ((List.replicate rep m).flatten ++ m.take rem).length = rep * m.length + rem ∧
      ∀ k : Nat, k < rep * m.length + rem →
        ((List.replicate rep m).flatten ++ m.take rem).getD k 0 = m.getD (k % m.length) 0 := by
  have hpos : 0 < m.length := List.length_pos.mpr hm
  intro rep
  induction rep with
  | zero =>
    simp only [List.replicate_zero, List.flatten_nil, List.nil_append, Nat.zero_mul, Nat.zero_add]
    refine ⟨by rw [List.length_take]; omega, ?_⟩
    intro k hk
    rw [Nat.mod_eq_of_lt (by omega), List.getD_eq_getElem?_getD, List.getD_eq_getElem?_getD,
      List.getElem?_take_of_lt hk]
  | succ rep ih =>
    obtain ⟨il, ig⟩ := ih
    rw [List.replicate_succ, List.flatten_cons, List.append_assoc]
    refine ⟨by rw [List.length_append, il]; ring, ?_⟩
    intro k hk
    by_cases hlt : k < m.length
    · rw [Nat.mod_eq_of_lt hlt, List.getD_eq_getElem?_getD, List.getD_eq_getElem?_getD,
        List.getElem?_append_left hlt]
    · have hk2 : k - m.length < rep * m.length + rem := by
        have : (rep + 1) * m.length = rep * m.length + m.length := by ring
        omega
      have e : k % m.length = (k - m.length) % m.length := by
        conv_lhs => rw [show k = (k - m.length) + m.length by omega]
        exact Nat.add_mod_right _ _
      rw [e, ← ig _ hk2, List.getD_eq_getElem?_getD, List.getD_eq_getElem?_getD,
        List.getElem?_append_right (by omega)]

theorem wrap32_id (x : Int) (h0 : -2 ^ 31 ≤ x) (h1 : x < 2 ^ 31) : wrap32 x = x := by
  unfold wrap32
  omega

/-- The `i` branch of `commandline_` with an end address and a non-empty
pattern, for a range shorter than `2^31` bytes. -/
theorem cmd_i_range (env : Env) (s : State) (x x2 : Int) (line : List Char) (idx : Nat)
    (hm : (get_pattern env s line idx).2.1 ≠ []) (h0 : 0 ≤ x) (hle : x ≤ x2)
    (hint : x2 - x + 1 < 2 ^ 31) (hc : x2 + 1 ≤ MAX_MEM_SIZE) :
    ∃ s', cmd_i env s x x2 true line idx = .ok s' ∧
      s'.mem_len = max s.mem_len (x2 + 1) ∧
      (∀ k : Nat, (k : Int) ≤ x2 - x →
        readmem s' (x + k)
          = (((get_pattern env s line idx).2.1.getD
              (k % (get_pattern env s line idx).2.1.length) 0).val : Int)) ∧
      (∀ i : Int, 0 ≤ i → i < s.mem_len → (i < x ∨ x2 < i) → readmem s' i = readmem s i) ∧
      s'.yank = s.yank ∧ s'.mark = s.mark := by
  obtain ⟨f1, f2, f3⟩ := get_pattern_frame env s line idx
  rcases hgp : get_pattern env s line idx with ⟨t, m, i'⟩
  simp only [hgp] at hm f1 f2 f3 ⊢
  have hpos : 0 < m.length := List.length_pos.mpr hm
  have hw : wrap32 (x2 - x + 1) = x2 - x + 1 := wrap32_id _ (by omega) hint
  have hrep : (Int.tdiv (x2 - x + 1) (m.length : Int)) = (x2 - x + 1) / (m.length : Int) :=
    Int.tdiv_eq_ediv (by omega) (by omega)
  have hrem : (Int.tmod (x2 - x + 1) (m.length : Int)) = (x2 - x + 1) % (m.length : Int) :=
    Int.tmod_eq_emod (by omega) (by omega)
  have hrem0 : 0 ≤ (x2 - x + 1) % (m.length : Int) := Int.emod_nonneg _ (by omega)
  have hremlt : (x2 - x + 1) % (m.length : Int) < (m.length : Int) :=
    Int.emod_lt_of_pos _ (by omega)
  have hrep0 : 0 ≤ (x2 - x + 1) / (m.length : Int) := Int.ediv_nonneg (by omega) (by omega)
  have hsum : (m.length : Int) * ((x2 - x + 1) / (m.length : Int))
      + (x2 - x + 1) % (m.length : Int) = x2 - x + 1 := Int.ediv_add_emod _ _
  obtain ⟨cl, cg⟩ := cyclic_fill m hm ((x2 - x + 1) % (m.length : Int)).toNat (by omega)
    ((x2 - x + 1) / (m.length : Int)).toNat
  generalize hdata : (List.replicate ((x2 - x + 1) / (m.length : Int)).toNat m).flatten
    ++ m.take ((x2 - x + 1) % (m.length : Int)).toNat = data at cl cg
  have hdl : (data.length : Int) = x2 - x + 1 := by
    rw [cl]
    push_cast
    rw [Int.toNat_of_nonneg hrep0, Int.toNat_of_nonneg hrem0, mul_comm]
    exact hsum
  have hdne : data ≠ [] := by
    intro h
    rw [h] at hdl
    simp at hdl
    omega
  obtain ⟨o, ho, hmem, hy, hk⟩ := ovwmem_ok t x data h0 hdne (by omega)
  obtain ⟨p1, p2, p3, p4⟩ := ovwmem_readmem t o x data h0 hmem
  have htl : t.mem_len = s.mem_len := by simp only [State.mem_len, f1]
  have htr : ∀ i : Int, readmem t i = readmem s i := by
    intro i; unfold readmem; simp only [State.mem_len, f1]
  refine ⟨jump (stdmm o (toString (x2 - x + 1) ++ " bytes filled.")) (x + (x2 - x + 1)),
    ?_, ?_, ?_, ?_, ?_, ?_⟩
  · unfold cmd_i
    simp only [hgp, if_true, hw, hrep, hrem]
    rw [if_pos (by omega), if_neg (by omega), if_neg (by omega), hdata, ho]
    rfl
  · show (stdmm o _).mem_len = _
    rw [stdmm_mem_len, p1, hdl, htl]
    congr 1; omega
  · intro k hk
    have hkl : k < data.length := by omega
    have := p2 k hkl
    have hr : readmem (jump (stdmm o (toString (x2 - x + 1) ++ " bytes filled."))
        (x + (x2 - x + 1))) (x + k) = readmem o (x + k) := by
      unfold readmem
      simp only [State.mem_len, jump_mem, stdmm_mem]
    rw [hr, this, cg k (by omega)]
  · intro i hi0 hil hout
    have hr : readmem (jump (stdmm o (toString (x2 - x + 1) ++ " bytes filled."))
        (x + (x2 - x + 1))) i = readmem o i := by
      unfold readmem
      simp only [State.mem_len, jump_mem, stdmm_mem]
    rw [hr, p3 i hi0 (by omega) (by omega), htr]
  · rw [jump_yank, stdmm_yank, hy, f2]
  · rw [jump_mark, stdmm_mark, hk, f3]

/-- The `i` branch with an end address and an empty pattern. -/
theorem cmd_i_empty (env : Env) (s : State) (x x2 : Int) (line : List Char) (idx : Nat)
    (hm : (get_pattern env s line idx).2.1 = []) :
    cmd_i env s x x2 true line idx
      = .ok (stderr_msg (get_pattern env s line idx).1 "Invalid syntax.") := by
  unfold cmd_i
  rcases hgp : get_pattern env s line idx with ⟨t, m, i'⟩
  simp only [hgp] at hm ⊢
  rw [hm]
  simp

theorem get_restr_loop_id (s : List Char) :
    ∀ (fuel idx : Nat) (out : List Char), idx ≤ s.length → s.length - idx < fuel →
      (∀ c ∈ s.drop idx, c ≠ '/' ∧ c ≠ backslash) →
      get_restr_loop s fuel idx out = (out ++ s.drop idx, s.length) := by
  intro fuel
  induction fuel with
  | zero => intro idx out _ h; omega
  | succ fuel ih =>
    intro idx out hle hf hs
    unfold get_restr_loop
    by_cases hlt : idx < s.length
    · have hd : s.drop idx = s[idx] :: s.drop (idx + 1) := List.drop_eq_getElem_cons hlt
      have hmem : s[idx] ∈ s.drop idx := by
        rw [hd]; exact List.mem_cons_self _ _
      have hc := hs (s[idx]) hmem
      rw [if_pos hlt, charAt_lt s idx hlt, if_neg hc.1, if_neg (fun h => hc.2 h.2.1),
        if_neg (fun h => hc.2 h.2.1), if_neg (fun h => hc.2 h.1),
        ih (idx + 1) _ (by omega) (by omega)
          (fun c hcm => hs c (by rw [hd]; exact List.mem_cons_of_mem _ hcm)),
        hd, List.append_assoc]
      rfl
    · have : idx = s.length := by omega
      rw [if_neg hlt, List.drop_eq_nil_of_le (by omega), List.append_nil, this]

/-- The pattern `/text` of the `i` and `I` branches. -/
theorem get_pattern_text (env : Env) (s : State) (line : List Char) (idx : Nat)
    (text : List Char) (hd : line.drop idx = '/' :: text)
    (ht : ∀ c ∈ text, c ≠ '/' ∧ c ≠ backslash) :
    get_pattern env s line idx = (s, text.map byteOf, line.length) := by
  have hs := skipspc_of_drop_zero line idx '/' text hd (by decide)
  have hl := lt_length_of_drop line idx '/' text hd
  have hc := charAt_of_drop line idx '/' text hd
  have hd1 : line.drop (idx + 1) = text := drop_drop_of line idx 1 ['/'] text hd rfl
  have hr : get_restr line (idx + 1) = (text, line.length) := by
    unfold get_restr
    rw [get_restr_loop_id line _ (idx + 1) [] (by omega) (by omega) (by rw [hd1]; exact ht),
      hd1]
    rfl
  unfold get_pattern
  simp only [hs]
  rw [if_pos ⟨hl, hc⟩]
  unfold get_str
  rw [hr]

/-- The command character `i` reaches the `i` branch. -/
theorem address_command_i (env : Env) (fuel : Nat) (s : State) (x x2 : Int) (xf xf2 : Bool)
    (line : List Char) (idx : Nat) (hidx : idx < line.length) (hch : charAt line idx = 'i') :
    address_command env fuel s x x2 xf xf2 line idx
      = some ((cmd_i env s x x2 xf2 line (idx + 1)).map fun s1 => (s1, -1)) := by
  have hne : ∀ c : Char, c ≠ 'i' → ¬ (charAt line idx = c) := by
    intro c hc h; exact hc (h.symm.trans hch)
  unfold address_command
  rw [if_neg (by omega), if_neg (fun h => hne 'y' (by decide) h.2),
    if_neg (fun h => hne 'p' (by decide) h.2), if_neg (fun h => hne 'P' (by decide) h.2),
    if_neg (fun h => hne 'm' (by decide) h.2),
    if_neg (fun h => h.2.elim (hne 'r' (by decide)) (hne 'R' (by decide)))]
  unfold command_char
  simp only [hidx, if_true, hch]
  rw [if_neg (by decide), if_neg (by decide), if_neg (by decide),
    if_neg (fun h => absurd h.2 (by decide)), if_pos ⟨trivial, by decide⟩,
    if_neg (by decide)]

set_option maxRecDepth 100000 in
/-- C32. The `i` command with an explicit range `[x, x2]` and a non-empty
pattern `m`, for a range of fewer than `2^31` bytes that ends below the memory
ceiling: it returns, afterwards `buffer[x+k] = m[k mod len(m)]` for every
`0 <= k <= x2 - x`, the length is `max(L, x2 + 1)`, and every offset below `L`
outside the range is unchanged; with an empty pattern it reports
`Invalid syntax.` and changes neither the buffer nor the clip register.  Both
are shown for `cmd_i` and, the first, for every command line
`A,B i/text`.  The range length is kept in an `int`: on `01 02 03` the line
`0,7fffffffi/a` (a range of `2^31` bytes) fills nothing, reports
`-2147483648 bytes filled.` and moves the position to `-2147483648`. -/
theorem fill_range (env : Env) (fuel : Nat) (s : State) :
    (∀ (x x2 : Int) (line : List Char) (idx : Nat),
      (get_pattern env s line idx).2.1 ≠ [] → 0 ≤ x → x ≤ x2 → x2 - x + 1 < 2 ^ 31 →
      x2 + 1 ≤ MAX_MEM_SIZE →
      ∃ s', cmd_i env s x x2 true line idx = .ok s' ∧
        s'.mem_len = max s.mem_len (x2 + 1) ∧
        (∀ k : Nat, (k : Int) ≤ x2 - x →
          readmem s' (x + k)
            = (((get_pattern env s line idx).2.1.getD
                (k % (get_pattern env s line idx).2.1.length) 0).val : Int)) ∧
        (∀ i : Int, 0 ≤ i → i < s.mem_len → (i < x ∨ x2 < i) → readmem s' i = readmem s i)) ∧
    (∀ (x x2 : Int) (line : List Char) (idx : Nat),
      (get_pattern env s line idx).2.1 = [] →
      ∃ s', cmd_i env s x x2 true line idx = .ok s' ∧ s'.mem = s.mem ∧ s'.yank = s.yank ∧
        s'.out = (get_pattern env s line idx).1.out ++ [Msg.err "Invalid syntax."]) ∧
    (∀ (dA dB : List Char) (k : Nat) (text : List Char),
      (dA ≠ [] ∧ dA.length ≤ 15 ∧ ∀ d ∈ dA, isHexDigit d = true) →
      (dB ≠ [] ∧ dB.length ≤ 15 ∧ ∀ d ∈ dB, isHexDigit d = true) →
      text ≠ [] → (∀ c ∈ text, c ≠ '/' ∧ c ≠ backslash ∧ c ≠ '#') →
      numeral 16 dA ≤ numeral 16 dB → numeral 16 dB - numeral 16 dA + 1 < 2 ^ 31 →
      numeral 16 dB + 1 ≤ MAX_MEM_SIZE →
      ∃ s', commandline_ env (fuel + 1) s
          (dA ++ ',' :: (dB ++ (List.replicate k ' ' ++ 'i' :: '/' :: text)))
            = some (.ok (s', -1)) ∧
        s'.mem_len = max s.mem_len (numeral 16 dB + 1) ∧
        (∀ j : Nat, (j : Int) ≤ numeral 16 dB - numeral 16 dA →
          readmem s' (numeral 16 dA + j)
            = (((text.map byteOf).getD (j % text.length) 0).val : Int)) ∧
        (∀ i : Int, 0 ≤ i → i < s.mem_len → (i < numeral 16 dA ∨ numeral 16 dB < i) →
          readmem s' i = readmem s i)) ∧
    (∃ s', commandline_ env (fuel + 1) (State.ofBytes [1, 2, 3] 4096)
        ['0', ',', '7', 'f', 'f', 'f', 'f', 'f', 'f', 'f', 'i', '/', 'a']
          = some (.ok (s', -1)) ∧
      s'.mem = [1, 2, 3] ∧ fpos s' = -2147483648 ∧
      s'.out = [Msg.std "-2147483648 bytes filled."]) := by
  refine ⟨?_, ?_, ?_, ⟨_, rfl, rfl, rfl, rfl⟩⟩
  · intro x x2 line idx hm h0 hle hint hc
    obtain ⟨s', h1, h2, h3, h4, -, -⟩ := cmd_i_range env s x x2 line idx hm h0 hle hint hc
    exact ⟨s', h1, h2, h3, h4⟩
  · intro x x2 line idx hm
    obtain ⟨f1, f2, -⟩ := get_pattern_frame env s line idx
    exact ⟨_, cmd_i_empty env s x x2 line idx hm, f1, f2, rfl⟩
  · intro dA dB k text hA hB htne ht hAB hint hc
    obtain ⟨a, dA', hdA⟩ := List.exists_cons_of_ne_nil hA.1
    have hcl := address_clause_hex env { s with cp := fpos s } dA dB k 'i' ('/' :: text) false
      hA hB (by decide)
    simp only [Bool.false_eq_true, if_false, List.nil_append, Nat.add_zero, Bool.not_false,
      max_eq_right hAB] at hcl
    have hcom : comment (dA ++ ',' :: (dB ++ (List.replicate k ' ' ++ 'i' :: '/' :: text)))
        = dA ++ ',' :: (dB ++ (List.replicate k ' ' ++ 'i' :: '/' :: text)) := by
      apply comment_id
      intro c hcm
      simp only [List.mem_append, List.mem_cons, List.mem_replicate] at hcm
      rcases hcm with h | h | h | h | h | h | h
      · have := isHexDigit_ne c (hA.2.2 c h); exact ⟨this.2.2.2.2.2.2.1, this.2.2.2.2.2.2.2.1⟩
      · subst h; decide
      · have := isHexDigit_ne c (hB.2.2 c h); exact ⟨this.2.2.2.2.2.2.1, this.2.2.2.2.2.2.2.1⟩
      · rw [h.2]; decide
      · subst h; decide
      · subst h; decide
      · exact ⟨(ht c h).2.2, (ht c h).2.1⟩
    have hd : (dA ++ ',' :: (dB ++ (List.replicate k ' ' ++ 'i' :: '/' :: text))).drop
        (dA.length + 1 + dB.length + k) = 'i' :: '/' :: text := by
      have e : dA ++ ',' :: (dB ++ (List.replicate k ' ' ++ 'i' :: '/' :: text))
          = (dA ++ ',' :: (dB ++ List.replicate k ' ')) ++ 'i' :: '/' :: text := by simp
      rw [e]
      apply List.drop_left'
      simp; omega
    have hd1 := drop_drop_of _ _ 1 ['i'] _ hd rfl
    have hstep : commandline_ env (fuel + 1) s
        (dA ++ ',' :: (dB ++ (List.replicate k ' ' ++ 'i' :: '/' :: text)))
        = address_command env fuel { s with cp := fpos s } (numeral 16 dA) (numeral 16 dB)
            true true (dA ++ ',' :: (dB ++ (List.replicate k ' ' ++ 'i' :: '/' :: text)))
            (dA.length + 1 + dB.length + k) := by
      simp only [hdA, List.cons_append] at hcl hcom ⊢
      exact commandline_step_address env fuel (commandline_ env fuel) s a _ hcom
        (hex_prelude a (hA.2.2 a (by simp [hdA]))) _ _ _ _ _ _ hcl
    have hi := address_command_i env fuel { s with cp := fpos s } (numeral 16 dA)
      (numeral 16 dB) true true _ _ (lt_length_of_drop _ _ _ _ hd) (charAt_of_drop _ _ _ _ hd)
    have hp := get_pattern_text env { s with cp := fpos s } _ _ text hd1
      (fun c hcm => ⟨(ht c hcm).1, (ht c hcm).2.1⟩)
    obtain ⟨hA0, -⟩ := numeral_hex_bound dA hA.2.2 hA.2.1
    obtain ⟨s', h1, h2, h3, h4, -, -⟩ := cmd_i_range env { s with cp := fpos s } (numeral 16 dA)
      (numeral 16 dB) _ _ (by rw [hp]; simpa using htne) hA0 hAB hint hc
    rw [hp] at h3
    simp only [List.length_map] at h3
    refine ⟨s', ?_, h2, h3, h4⟩
    rw [hstep, hi, h1]
    rfl

set_option maxRecDepth 100000 in
/-- Witness of C32: the line `1,4 i/abc` on a six-byte buffer. -/
theorem fill_range_witness :
    ∃ s', commandline_ Env.bare (0 + 1) (State.ofBytes [1, 2, 3, 4, 5, 6] 4096)
        ['1', ',', '4', ' ', 'i', '/', 'a', 'b', 'c'] = some (.ok (s', -1)) ∧
      s'.mem_len = max (State.ofBytes [1, 2, 3, 4, 5, 6] 4096).mem_len (4 + 1) ∧
      (∀ j : Nat, (j : Int) ≤ 4 - 1 →
        readmem s' (1 + j) = (((['a', 'b', 'c'].map byteOf).getD (j % 3) 0).val : Int)) ∧
      (∀ i : Int, 0 ≤ i → i < (State.ofBytes [1, 2, 3, 4, 5, 6] 4096).mem_len →
        (i < 1 ∨ 4 < i) → readmem s' i = readmem (State.ofBytes [1, 2, 3, 4, 5, 6] 4096) i) :=
  (fill_range Env.bare 0 (State.ofBytes [1, 2, 3, 4, 5, 6] 4096)).2.2.1 ['1'] ['4'] 1
    ['a', 'b', 'c'] (by decide) (by decide) (by decide) (by decide) (by decide) (by decide)
    (by decide)

/-! ## Termination of the literal substitute loop -/

/-- A granted capacity request changes the capacity only. -/
theorem ensure_mem_capacity_search {s s1 : State} {needed : Int}
    (h : ensure_mem_capacity s needed = .ok s1) :
    s1.mem = s.mem ∧ s1.regexpMode = s.regexpMode ∧ s1.smem = s.smem ∧ s1.span = s.span := by
  unfold ensure_mem_capacity at h
  split at h
  · cases h
  · split at h
    · cases h; exact ⟨rfl, rfl, rfl, rfl⟩
    · cases h; exact ⟨rfl, rfl, rfl, rfl⟩

/-- An insertion inside the buffer that succeeds lengthens the buffer by the
inserted bytes and leaves the search globals alone. -/
theorem insmem_literal {s s' : State} {start : Int} {mem2 p : List Byte}
    (h : insmem s start mem2 = .ok s') (h0 : 0 ≤ start) (hs : start ≤ s.mem_len)
    (hl : LiteralPattern p s) :
    s'.mem_len = s.mem_len + (mem2.length : Int) ∧ LiteralPattern p s' ∧
      s'.mem = s.mem.take start.toNat ++ mem2 ++ s.mem.drop start.toNat := by
  unfold insmem at h
  dsimp only at h
  split at h
  · next hle =>
    cases h
    have h2 : mem2 = [] := List.length_eq_zero.mp (by omega)
    subst h2
    exact ⟨by simp, hl, by simp⟩
  · cases hE : ensure_mem_capacity s (s.mem_len + (mem2.length : Int)) with
    | error e => rw [hE] at h; cases h
    | ok s1 =>
      obtain ⟨hm, hr, hsm, hsp⟩ := ensure_mem_capacity_search hE
      rw [hE] at h
      simp only [bind, Except.bind] at h
      unfold LiteralPattern at *
      unfold State.mem_len at *
      split_ifs at h
      · next hge hcap =>
        cases h
        rw [hm] at hge
        have hst : start.toNat = s.mem.length := by omega
        have hz : (start - (s.mem.length : Int)).toNat = 0 := by omega
        refine ⟨?_, by rw [hr, hsm, hsp]; exact hl, ?_⟩
        · simp only [List.length_append, List.length_replicate, hm]; omega
        · simp only [hm, hst, hz, List.replicate_zero, List.append_nil, List.take_length,
            List.drop_length]
      · cases h
        refine ⟨?_, by rw [hr, hsm, hsp]; exact hl, ?_⟩
        · simp only [List.length_append, List.length_take, List.length_drop, hm]; omega
        · simp only [hm]

/-- Deleting a matched occurrence: when the deletion returns, it has
shortened the buffer by the pattern and left the search globals alone. -/
theorem delmem_literal (s : State) {s2 : State} {a : Int} {p : List Byte} (hp : p ≠ [])
    (h0 : 0 ≤ a) (hfit : a + (p.length : Int) ≤ s.mem_len) (hl : LiteralPattern p s)
    (h : delmem s a (a + s.span - 1) false = .ok s2) :
    s2.mem_len = s.mem_len - (p.length : Int) ∧ LiteralPattern p s2 ∧
      s2.mem = s.mem.take a.toNat ++ s.mem.drop (a + (p.length : Int)).toNat := by
  have hpos : 0 < p.length := List.length_pos.mpr hp
  have hspan : s.span = (p.length : Int) := hl.2.2
  unfold delmem at h
  dsimp only at h
  rw [if_neg (by omega)] at h
  split at h
  · cases h
  · simp only [Bool.false_eq_true, if_false, bind, Except.bind] at h
    rw [if_neg (by omega), if_neg (by omega), if_neg (by omega)] at h
    cases h
    refine ⟨?_, hl, ?_⟩
    · unfold State.mem_len at *
      simp only [List.length_append, List.length_take, List.length_drop]
      omega
    · show s.mem.take a.toNat ++ s.mem.drop (a + s.span - 1 + 1).toNat = _
      rw [hspan, show a + (p.length : Int) - 1 + 1 = a + (p.length : Int) from by omega]

theorem jump_literal (s : State) (a : Int) (p : List Byte) (hl : LiteralPattern p s) :
    LiteralPattern p (jump s a) ∧ (jump s a).mem_len = s.mem_len := ⟨hl, rfl⟩

/-- A literal pattern probed at a negative offset faults. -/
theorem hit_negative (s : State) (c : Int) (hp : s.smem ≠ []) (hc : c < 0) :
    hit s c = .error Fault.outOfBounds := by
  unfold hit
  cases hs : s.smem with
  | nil => exact absurd hs hp
  | cons b rest =>
    unfold hit_from
    have := (show 0 ≤ s.mem_len from by unfold State.mem_len; omega)
    rw [if_pos (by omega), if_pos (by omega)]

/-- The forward scan for a literal pattern ends within `mem_len - c + 1`
probes: with a match at some `a >= c` that lies wholly inside the buffer, or
at the end of the buffer with none. -/
theorem searchnextnoloop_loop_literal (re : RegexLib) (s : State) (p : List Byte) (hp : p ≠ [])
    (hl : LiteralPattern p s) :
    ∀ (fuel : Nat) (c : Int), 0 ≤ c → (s.mem_len - c).toNat < fuel →
      (∃ a, searchnextnoloop_loop re fuel s c = some (.ok (jump s a, 1)) ∧ c ≤ a ∧
          a + (p.length : Int) ≤ s.mem_len) ∨
        searchnextnoloop_loop re fuel s c = some (.ok (jump s s.mem_len, 0)) := by
  have hsm : s.smem ≠ [] := by rw [hl.2.1]; exact hp
  intro fuel
  induction fuel with
  | zero => intro c _ h; omega
  | succ k ih =>
    intro c hc hf
    unfold searchnextnoloop_loop
    rcases hit_zero_or_one s c hc with h | h
    · rw [probe_literal re s c 0 hl.1 h]
      simp only [show ¬ ((0 : Int) = 1) from by decide, if_false,
        show ¬ ((0 : Int) < 0) from by decide]
      by_cases hend : c + 1 ≥ s.mem_len
      · rw [if_pos hend]; exact Or.inr rfl
      · rw [if_neg hend]
        rcases ih (c + 1) (by omega) (by omega) with ⟨a, ha, hca, hfit⟩ | hmiss
        · exact Or.inl ⟨a, ha, by omega, hfit⟩
        · exact Or.inr hmiss
    · rw [probe_literal re s c 1 hl.1 h]
      simp only [if_true]
      refine Or.inl ⟨c, rfl, le_refl _, ?_⟩
      have hpos : 0 < p.length := List.length_pos.mpr hp
      unfold hit at h
      rw [hl.2.1] at h
      have := ((hit_from_iff s c p 0 (by omega)).mp h) (p.length - 1) (by omega)
      have h1 := this.1
      have : ((p.length - 1 : Nat) : Int) = (p.length : Int) - 1 := by omega
      omega

/-- The literal substitute loop returns: `mem_len - fpos + 2` rounds of fuel
are enough, whatever the replacement. -/
theorem scommand_loop_literal (re : RegexLib) («end» : Int) (n p : List Byte) (hp : p ≠ []) :
    ∀ (fuel : Nat) (s : State) (pos cnt : Int), LiteralPattern p s →
      (s.mem_len - fpos s).toNat + 1 < fuel →
      ∃ r, scommand_loop re «end» n fuel s pos cnt = some r := by
  intro fuel
  induction fuel with
  | zero => intro s pos cnt _ h; omega
  | succ k ih =>
    intro s pos cnt hl hf
    have hsm : s.smem ≠ [] := by rw [hl.2.1]; exact hp
    have hpos : 0 < p.length := List.length_pos.mpr hp
    have hsn : searchnextnoloop re k s (fpos s) = searchnextnoloop_loop re k s (fpos s) := by
      unfold searchnextnoloop
      have : s.smem.length ≠ 0 := by rw [hl.2.1]; omega
      simp [hl.1, State.smem_len, this]
    unfold scommand_loop
    rw [hsn]
    by_cases hneg : fpos s < 0
    · have hk : ∃ j, k = j + 1 := ⟨k - 1, by omega⟩
      obtain ⟨j, rfl⟩ := hk
      unfold searchnextnoloop_loop
      unfold probe
      simp only [hl.1, Bool.false_eq_true, if_false, hit_negative s (fpos s) hsm hneg]
      exact ⟨_, rfl⟩
    · rcases searchnextnoloop_loop_literal re s p hp hl k (fpos s) (by omega) (by omega) with
        ⟨a, ha, hca, hfit⟩ | hmiss
      · rw [ha]
        simp only [fpos_jump, show ¬ ((1 : Int) < 0) from by decide, if_false, and_true]
        by_cases hle : a ≤ «end»
        · rw [if_pos hle]
          cases hd : delmem (jump s a) a (a + (jump s a).span - 1) false with
          | error e => exact ⟨_, rfl⟩
          | ok s2 =>
            obtain ⟨hlen2, hl2, _⟩ :=
              delmem_literal (jump s a) hp (by omega) hfit (jump_literal s a p hl).1 hd
            simp only []
            cases hI : insmem s2 a n with
            | error e => exact ⟨_, rfl⟩
            | ok s3 =>
              simp only []
              have hlen2b : s2.mem_len = s.mem_len - (p.length : Int) := hlen2
              obtain ⟨hlen3, hl3, _⟩ := insmem_literal hI (by omega) (by omega) hl2
              apply ih
              · exact (jump_literal s3 _ p hl3).1
              · rw [fpos_jump, (jump_literal s3 _ p hl3).2, hlen3, hlen2b]
                omega
        · rw [if_neg hle]
          exact ⟨_, rfl⟩
      · rw [hmiss]
        simp only [fpos_jump, show ¬ ((0 : Int) < 0) from by decide, if_false,
          show ¬ ((0 : Int) = 1) from by decide, and_false]
        exact ⟨_, rfl⟩

/-- One round of the literal substitute loop that replaces the occurrence at
`a`: the buffer becomes prefix, replacement, old suffix, and the bytes from the
new position on are exactly the old bytes after the occurrence. -/
theorem replace_round (s s2 s3 : State) (a : Int) (n p : List Byte) (hp : p ≠ [])
    (hl : LiteralPattern p s) (h0 : 0 ≤ a) (hfit : a + (p.length : Int) ≤ s.mem_len)
    (hD : delmem (jump s a) a (a + (jump s a).span - 1) false = .ok s2)
    (hI : insmem s2 a n = .ok s3) :
    s3.mem = s.mem.take a.toNat ++ n ++ s.mem.drop (a + (p.length : Int)).toNat ∧
      s3.mem.drop (a + (n.length : Int)).toNat = s.mem.drop (a + (p.length : Int)).toNat ∧
      LiteralPattern p (jump s3 (a + (n.length : Int))) ∧
      fpos (jump s3 (a + (n.length : Int))) = a + (n.length : Int) ∧
      (jump s3 (a + (n.length : Int))).mem_len - fpos (jump s3 (a + (n.length : Int)))
        = s.mem_len - a - (p.length : Int) := by
  obtain ⟨hlen2, hl2, hm2⟩ := delmem_literal (jump s a) hp h0 hfit (jump_literal s a p hl).1 hD
  have hlen2b : s2.mem_len = s.mem_len - (p.length : Int) := hlen2
  have hm2b : s2.mem = s.mem.take a.toNat ++ s.mem.drop (a + (p.length : Int)).toNat := hm2
  obtain ⟨hlen3, hl3, hm3⟩ := insmem_literal hI h0 (by omega) hl2
  have hal : a.toNat ≤ s.mem.length := by unfold State.mem_len at hfit; omega
  have htl : (s.mem.take a.toNat).length = a.toNat := by
    rw [List.length_take]; omega
  have hmem : s3.mem = s.mem.take a.toNat ++ n ++ s.mem.drop (a + (p.length : Int)).toNat := by
    rw [hm3, hm2b, List.take_left' htl, List.drop_left' htl]
  refine ⟨hmem, ?_, (jump_literal s3 _ p hl3).1, fpos_jump _ _, ?_⟩
  · rw [hmem]
    have : (s.mem.take a.toNat ++ n).length = (a + (n.length : Int)).toNat := by
      rw [List.length_append, htl]; omega
    rw [List.drop_left' this]
  · rw [fpos_jump, (jump_literal s3 _ p hl3).2, hlen3, hlen2b]
    omega

/-- The substitute command with a literal pattern returns once the fuel
covers the bytes from the start of the scan to the end of the buffer. -/
theorem scommand_hex_returns (re : RegexLib) (s : State) (start «end» : Int) (xf xf2 : Bool)
    (sm n : List Byte) (hsm : sm ≠ []) (fuel : Nat)
    (hfuel : s.mem.length + start.natAbs + 2 ≤ fuel) :
    ∃ r, scommand re fuel s start «end» xf xf2 (SPattern.hex sm) n = some r := by
  have hpos : 0 < sm.length := List.length_pos.mpr hsm
  unfold scommand
  simp only []
  rw [if_neg (by omega)]
  apply scommand_loop_literal re _ n sm hsm
  · exact ⟨rfl, rfl, rfl⟩
  · rw [fpos_jump]
    show ((s.mem.length : Int) - _).toNat + 1 < fuel
    split <;> omega

/-! ## Capacity, termination and complement: the statements -/

/-- C31. Started in a state with `mem_len <= mem_cap <= MAX_MEM_SIZE`, each of
`setmem`, `insmem`, `ovwmem`, `delmem`, `cpymem`, `movmem` that returns leaves
a state with `mem_len <= mem_cap <= MAX_MEM_SIZE`, and `setmem` and `ovwmem`
(offset `>= 0`) reserve what they write.  The insert past the end does not:
on a two-byte buffer in a 4096-byte allocation `insmem(4096, "x")` reserves
3 bytes and writes at offset 4096, outside the allocation. -/
theorem capacity_kept (s s' : State) (hi : CapacityOk s) :
    (∀ addr data, setmem s addr data = .ok s' → CapacityOk s') ∧
    (∀ start mem2, insmem s start mem2 = .ok s' → CapacityOk s') ∧
    (∀ start mem0, ovwmem s start mem0 = .ok s' → CapacityOk s') ∧
    (∀ start «end» yf, delmem s start «end» yf = .ok s' → CapacityOk s') ∧
    (∀ start «end» dest, cpymem s start «end» dest = .ok s' → CapacityOk s') ∧
    (∀ start «end» dest r, movmem s start «end» dest = .ok (s', r) → CapacityOk s') ∧
    (∀ addr data, setmem s addr data ≠ .error Fault.outOfBounds) ∧
    (∀ start mem0, 0 ≤ start → ovwmem s start mem0 ≠ .error Fault.outOfBounds) ∧
    (CapacityOk (State.ofBytes [1, 2] 4096) ∧
      insmem (State.ofBytes [1, 2] 4096) 4096 [0x78] = .error Fault.outOfBounds) :=
  ⟨fun _ _ h => setmem_capacity hi h, fun _ _ h => insmem_capacity hi h,
    fun _ _ h => ovwmem_capacity hi h, fun _ _ _ h => delmem_capacity hi h,
    fun _ _ _ h => cpymem_capacity hi h, fun _ _ _ _ h => movmem_capacity hi h,
    fun addr data => setmem_in_bounds s addr data hi,
    fun start mem0 h0 => ovwmem_in_bounds s start mem0 hi h0,
    ⟨by unfold CapacityOk; decide, rfl⟩⟩

/-- Witness of C31: a three-byte buffer in a 4096-byte allocation. -/
theorem capacity_kept_witness :
    CapacityOk (State.ofBytes [1, 2, 3] 4096) ∧
      (∀ start mem2, insmem (State.ofBytes [1, 2, 3] 4096) start mem2 =
          .ok (State.ofBytes [1, 9, 2, 3] 4096) →
            CapacityOk (State.ofBytes [1, 9, 2, 3] 4096)) ∧
      (∀ addr data,
        setmem (State.ofBytes [1, 2, 3] 4096) addr data ≠ .error Fault.outOfBounds) :=
  ⟨by unfold CapacityOk; decide,
    (capacity_kept (State.ofBytes [1, 2, 3] 4096) (State.ofBytes [1, 9, 2, 3] 4096)
      (by unfold CapacityOk; decide)).2.1,
    (capacity_kept (State.ofBytes [1, 2, 3] 4096) (State.ofBytes [1, 9, 2, 3] 4096)
      (by unfold CapacityOk; decide)).2.2.2.2.2.2.1⟩

set_option maxRecDepth 100000 in
/-- C36. For every buffer, every non-empty literal pattern `sm`, every
replacement `n` and every range, the substitute command returns: a fuel of
`mem_len + |start| + 2` rounds is enough.  Each round that replaces the
occurrence at `a` leaves `old[0,a) ++ n ++ old[a+len(sm),L)`, resumes the scan
at `a + len(n)`, where the bytes still to be scanned are exactly the old bytes
after the occurrence, and shortens the distance from the scan position to the
end of the buffer to `L - a - len(sm)`.  On `aaa` with the range `[0, 5]`,
replacing `a` by `aa` returns with `aaaaaa`. -/
theorem scommand_literal_terminates (re : RegexLib) (s : State) (start «end» : Int)
    (xf xf2 : Bool) (sm n : List Byte) (hsm : sm ≠ []) (fuel : Nat)
    (hfuel : s.mem.length + start.natAbs + 2 ≤ fuel) :
    (∃ r, scommand re fuel s start «end» xf xf2 (SPattern.hex sm) n = some r) ∧
    (∀ (t s2 s3 : State) (a : Int), LiteralPattern sm t → 0 ≤ a →
      a + (sm.length : Int) ≤ t.mem_len →
      delmem (jump t a) a (a + (jump t a).span - 1) false = .ok s2 →
      insmem s2 a n = .ok s3 →
        s3.mem = t.mem.take a.toNat ++ n ++ t.mem.drop (a + (sm.length : Int)).toNat ∧
        s3.mem.drop (a + (n.length : Int)).toNat = t.mem.drop (a + (sm.length : Int)).toNat ∧
        LiteralPattern sm (jump s3 (a + (n.length : Int))) ∧
        fpos (jump s3 (a + (n.length : Int))) = a + (n.length : Int) ∧
        (jump s3 (a + (n.length : Int))).mem_len - fpos (jump s3 (a + (n.length : Int)))
          = t.mem_len - a - (sm.length : Int)) ∧
    (∃ s', scommand re 5 (State.ofBytes [0x61, 0x61, 0x61] 4096) 0 5 true true
        (SPattern.hex [0x61]) [0x61, 0x61] = some (.ok s') ∧
      s'.mem = [0x61, 0x61, 0x61, 0x61, 0x61, 0x61] ∧
      s'.out = [Msg.std "  3 times replaced."]) :=
  ⟨scommand_hex_returns re s start «end» xf xf2 sm n hsm fuel hfuel,
    fun t s2 s3 a hl h0 hfit hD hI => replace_round t s2 s3 a n sm hsm hl h0 hfit hD hI,
    ⟨_, rfl, rfl, rfl⟩⟩

set_option maxRecDepth 100000 in
/-- Witness of C36: on `aab`, deleting every `a` (empty replacement) with 5
rounds of fuel. -/
theorem scommand_literal_terminates_witness :
    (State.ofBytes [0x61, 0x61, 0x62] 4096).mem.length + (0 : Int).natAbs + 2 ≤ 5 ∧
      ∃ r, scommand noRegex 5 (State.ofBytes [0x61, 0x61, 0x62] 4096) 0 0 false false
        (SPattern.hex [0x61]) [] = some r :=
  ⟨by decide,
    (scommand_literal_terminates noRegex (State.ofBytes [0x61, 0x61, 0x62] 4096) 0 0 false false
      [0x61] [] (by decide) 5 (by decide)).1⟩

set_option maxRecDepth 100000 in
/-- C40, the counterexample. On the one-byte buffer `01`, `openot(0, 1)`
reaches one byte past the end: the first pass leaves `FE FF`, the second
`01 00`, a buffer of length 2, not the original of length 1. -/
theorem openot_past_end_grows :
    ∃ s1 s2, openot (State.ofBytes [1] 4096) 0 1 = .ok s1 ∧ openot s1 0 1 = .ok s2 ∧
      s1.mem = [254, 255] ∧ s2.mem = [1, 0] ∧ s2.mem_len = 2 ∧
      (State.ofBytes [1] 4096).mem_len = 1 :=
  ⟨_, _, rfl, rfl, rfl, rfl, rfl, rfl⟩

/-- C40, amended. For every buffer and every range `0 <= x <= x2` below the
memory ceiling, `openot(x, x2)` applied twice returns and leaves the original
bytes followed by zero bytes up to offset `x2`; for a range inside the buffer
(`x2 < L`) the content and the length are the original ones.  The clip
register and the marks are unchanged. -/
theorem openot_involution (s : State) (x x2 : Int) (h0 : 0 ≤ x) (hle : x ≤ x2)
    (hc : x2 < MAX_MEM_SIZE) :
    ∃ s1 s2, openot s x x2 = .ok s1 ∧ openot s1 x x2 = .ok s2 ∧
      s2.mem = s.mem ++ List.replicate (x2 + 1 - s.mem_len).toNat (0 : Byte) ∧
      (x2 < s.mem_len → s2.mem = s.mem ∧ s2.mem_len = s.mem_len) ∧
      s2.mem_len = max s.mem_len (x2 + 1) ∧
      s2.yank = s.yank ∧ s2.mark = s.mark := by
  obtain ⟨s1, s2, h1, h2, hm, hy, hk⟩ := openot_twice s x x2 h0 hle hc
  refine ⟨s1, s2, h1, h2, hm, ?_, ?_, hy, hk⟩
  · intro hin
    have hz : (x2 + 1 - s.mem_len).toNat = 0 := by omega
    have hmem : s2.mem = s.mem := by
      rw [hm, hz, List.replicate_zero, List.append_nil]
    exact ⟨hmem, by unfold State.mem_len; rw [hmem]⟩
  · unfold State.mem_len at *
    rw [hm, List.length_append, List.length_replicate]
    omega

/-- Witness of C40 (amended): the range `[1, 2]` of a three-byte buffer. -/
theorem openot_involution_witness :
    (0 : Int) ≤ 1 ∧ (1 : Int) ≤ 2 ∧ (2 : Int) < MAX_MEM_SIZE ∧
      ∃ s1 s2, openot (State.ofBytes [1, 2, 3] 4096) 1 2 = .ok s1 ∧
        openot s1 1 2 = .ok s2 ∧
        s2.mem = (State.ofBytes [1, 2, 3] 4096).mem ++
          List.replicate (2 + 1 - (State.ofBytes [1, 2, 3] 4096).mem_len).toNat (0 : Byte) ∧
        ((2 : Int) < (State.ofBytes [1, 2, 3] 4096).mem_len →
          s2.mem = (State.ofBytes [1, 2, 3] 4096).mem ∧
          s2.mem_len = (State.ofBytes [1, 2, 3] 4096).mem_len) ∧
        s2.mem_len = max (State.ofBytes [1, 2, 3] 4096).mem_len (2 + 1) ∧
        s2.yank = (State.ofBytes [1, 2, 3] 4096).yank ∧
        s2.mark = (State.ofBytes [1, 2, 3] 4096).mark :=
  ⟨by decide, by decide, by decide,
    openot_involution (State.ofBytes [1, 2, 3] 4096) 1 2 (by decide) (by decide) (by decide)⟩

end Bi
